import Mathlib

/-!
Scheduling core of the process simulator (`pa2.c`)

A shallow embedding of the resource arbitration functions
(`fcfs_*`, `prio_*`, `pcp_*`, `pip_*`), the tie-break helper
`get_largest_prio` and the schedule functions of `pa2.c`.

Pointers to `struct process` are natural numbers (`Pid`); the process
records live in a heap `procs : Pid → process`; `NULL` is `none`.
A `list_head` queue is the list of the process pointers linked into it,
head first.  The list operations come from `list_head.h`, which is not
part of the sources; as in the spec, a queue is an ordered collection that
keeps insertion order: `list_add_tail` appends the process at the tail and
`list_del_init` takes the process out of the queue it was selected from
(its first occurrence there).  The code relies on a process being linked
at most once when it is appended; statements that need this say so.

The headers that declare the records (`process.h`, `resource.h`) are not
part of the sources.  `age`, `lifespan`, `prio` and `prio_orig` are
`unsigned int` fields of 32 bits, held as natural numbers; where the
width shows, the arithmetic is written out: `lifespan - age` (`usub32`),
`prio += 1` (`uadd32`) and the conversion of a prio to the local
`int priority` of `get_largest_prio` (`int_of_unsigned`).  `MAX_PRIO` is
a parameter.

A call either returns or stops: `assert` failures and `NULL`
dereferences are results of type `Failure`.
-/

namespace Pa2

/-- Pointer to a `struct process`. -/
abbrev Pid := Nat

/-- Modelled from the spec: `enum process_status` of `process.h` (not in
the sources); the spec lists READY, RUNNING and WAITING, the code names
`PROCESS_READY` and `PROCESS_WAIT`. -/
inductive process_status where
  | PROCESS_READY
  | PROCESS_RUNNING
  | PROCESS_WAIT
  deriving DecidableEq, Repr

open process_status

/-- Modelled from the spec: the fields of `struct process` (`process.h` is
not in the sources) that `pa2.c` reads or writes.  Priorities, ages and
lifespans are non-negative integers; the embedded `list` node is
represented by queue membership. -/
structure process where
  status : process_status
  age : Nat
  lifespan : Nat
  prio : Nat
  prio_orig : Nat
  deriving DecidableEq, Repr

/-- Modelled from the spec: `struct resource` of `resource.h` (not in the
sources): the owner (`NULL` when free) and the waitqueue. -/
structure resource where
  owner : Option Pid
  waitqueue : List Pid
  deriving DecidableEq, Repr

/-- The globals `pa2.c` works on: the process records reachable through
pointers, `current`, `readyqueue` and `resources[]`. -/
structure State where
  procs : Pid → process
  current : Option Pid
  readyqueue : List Pid
  resources : Nat → resource

/-- How a call can stop without returning: a failed `assert` (with the
globals as they are at that point) or a dereferenced `NULL`. -/
inductive Failure where
  | assertion (at_state : State)
  | null_deref

/-! ## Elementary writes -/

/-- Overwrite one process record: `p->field = v`. -/
def State.write (s : State) (p : Pid) (v : process) : State :=
  { s with procs := fun q => if q = p then v else s.procs q }

/-- Statement `p->status = st`. -/
def State.set_status (s : State) (p : Pid) (st : process_status) : State :=
  s.write p { s.procs p with status := st }

/-- Statement `p->prio = v`. -/
def State.set_prio (s : State) (p : Pid) (v : Nat) : State :=
  s.write p { s.procs p with prio := v }

/-- Overwrite one resource record. -/
def State.write_resource (s : State) (rid : Nat) (r : resource) : State :=
  { s with resources := fun k => if k = rid then r else s.resources k }

/-- Statement `r->owner = o`. -/
def State.set_owner (s : State) (rid : Nat) (o : Option Pid) : State :=
  s.write_resource rid { s.resources rid with owner := o }

/-- Call `list_add_tail(&p->list, &r->waitqueue)`. -/
def State.waitqueue_add_tail (s : State) (rid : Nat) (p : Pid) : State :=
  s.write_resource rid
    { s.resources rid with waitqueue := (s.resources rid).waitqueue ++ [p] }

/-- Call `list_del_init(&p->list)` for a process linked into the
waitqueue of resource `rid`. -/
def State.waitqueue_del (s : State) (rid : Nat) (p : Pid) : State :=
  s.write_resource rid
    { s.resources rid with waitqueue := (s.resources rid).waitqueue.erase p }

/-- Call `list_add_tail(&p->list, &readyqueue)`. -/
def State.ready_add_tail (s : State) (p : Pid) : State :=
  { s with readyqueue := s.readyqueue ++ [p] }

/-- Call `list_del_init(&p->list)` for a process linked into the ready
queue. -/
def State.ready_del (s : State) (p : Pid) : State :=
  { s with readyqueue := s.readyqueue.erase p }

/-! ## Resource acquisition -/

/-- Function `fcfs_acquire` (pa2.c:66). -/
def fcfs_acquire (s : State) (resource_id : Nat) : Except Failure (Bool × State) :=
  match (s.resources resource_id).owner with
  | none => .ok (true, s.set_owner resource_id s.current)
  | some _ =>
    match s.current with
    | none => .error .null_deref
    | some c =>
      let s1 := s.set_status c PROCESS_WAIT
      .ok (false, s1.waitqueue_add_tail resource_id c)

/-- Function `prio_acquire` (pa2.c:162). -/
def prio_acquire (s : State) (resource_id : Nat) : Except Failure (Bool × State) :=
  match (s.resources resource_id).owner with
  | none => .ok (true, s.set_owner resource_id s.current)
  | some _ =>
    match s.current with
    | none => .error .null_deref
    | some c =>
      let s1 := s.set_status c PROCESS_WAIT
      .ok (false, s1.waitqueue_add_tail resource_id c)

/-- Function `pcp_acquire` (pa2.c:223).  `MAX_PRIO` comes from a header
that is not in the sources and is a parameter here. -/
def pcp_acquire ( MAX_PRIO : Nat) (s : State) (resource_id : Nat) :
    Except Failure (Bool × State) :=
  match (s.resources resource_id).owner with
  | none =>
    let s1 := s.set_owner resource_id s.current
    match s.current with
    | none => .error .null_deref
    | some c => .ok (true, s1.set_prio c MAX_PRIO)
  | some _ =>
    match s.current with
    | none => .error .null_deref
    | some c =>
      let s1 := s.set_status c PROCESS_WAIT
      .ok (false, s1.waitqueue_add_tail resource_id c)

/-- Function `pip_acquire` (pa2.c:285). -/
def pip_acquire (s : State) (resource_id : Nat) : Except Failure (Bool × State) :=
  match (s.resources resource_id).owner with
  | none => .ok (true, s.set_owner resource_id s.current)
  | some o =>
    match s.current with
    | none => .error .null_deref
    | some c =>
      let s1 := s.set_status c PROCESS_WAIT
      let s2 := s1.set_prio o (s1.procs c).prio_orig
      .ok (false, s2.waitqueue_add_tail resource_id c)

/-! ## The tie-break helper -/

/-- The value an `unsigned int` has as a 32-bit `int`, as in the
assignment `priority = pos->prio`: itself up to `INT_MAX` = 2^31 - 1, and
2^32 less above it. -/
def int_of_unsigned (v : Nat) : Int :=
  if v % 4294967296 < 2147483648 then ((v % 4294967296 : Nat) : Int)
  else ((v % 4294967296 : Nat) : Int) - 4294967296

/-- The loop of `get_largest_prio` (pa2.c:146): `priority` is the local
32-bit `int` that starts at `-1`, `next` the candidate found so far.
The test `priority < 0` is a comparison of `int`; in
`pos->prio > priority` the `int` operand, which is not negative there, is
compared as `unsigned int` with the 32-bit prio. -/
def get_largest_prio_loop (procs : Pid → process) :
    List Pid → Int → Option Pid → Option Pid
  | [], _, next => next
  | pos :: rest, priority, next =>
    if priority < 0 then
      get_largest_prio_loop procs rest (int_of_unsigned (procs pos).prio) (some pos)
    else if (((procs pos).prio % 4294967296 : Nat) : Int) > priority then
      get_largest_prio_loop procs rest (int_of_unsigned (procs pos).prio) (some pos)
    else
      get_largest_prio_loop procs rest priority next

/-- Function `get_largest_prio` (pa2.c:141). -/
def get_largest_prio (procs : Pid → process) (head : List Pid) : Option Pid :=
  get_largest_prio_loop procs head (-1) none

/-! ## Resource release -/

/-- The three statements that wake `waiter` (pa2.c:127-136, 210-219,
273-282, 334-343): `list_del_init(&waiter->list)`,
`waiter->status = PROCESS_READY`,
`list_add_tail(&waiter->list, &readyqueue)`. -/
def wake_up (s1 : State) (resource_id : Nat) (waiter : Pid) : State :=
  let s2 := s1.waitqueue_del resource_id waiter
  let s3 := s2.set_status waiter PROCESS_READY
  s3.ready_add_tail waiter

/-- Function `fcfs_release` (pa2.c:101). -/
def fcfs_release (s : State) (resource_id : Nat) : Except Failure State :=
  if (s.resources resource_id).owner ≠ s.current then .error (.assertion s)
  else
    let s1 := s.set_owner resource_id none
    match (s1.resources resource_id).waitqueue with
    | [] => .ok s1
    | waiter :: _ =>
      if (s1.procs waiter).status ≠ PROCESS_WAIT then .error (.assertion s1)
      else
        .ok (wake_up s1 resource_id waiter)

/-- The part of `prio_release`, `pcp_release` and `pip_release` after the
owner is cleared (pa2.c:195-220, 258-283, 319-344; the three texts are
identical): wake the waiter chosen by `get_largest_prio`. -/
def wake_largest_prio (s1 : State) (resource_id : Nat) : Except Failure State :=
  match (s1.resources resource_id).waitqueue with
  | [] => .ok s1
  | _ :: _ =>
    match get_largest_prio s1.procs (s1.resources resource_id).waitqueue with
    | none => .error .null_deref
    | some waiter =>
      if (s1.procs waiter).status ≠ PROCESS_WAIT then .error (.assertion s1)
      else
        .ok (wake_up s1 resource_id waiter)

/-- Function `prio_release` (pa2.c:187). -/
def prio_release (s : State) (resource_id : Nat) : Except Failure State :=
  if (s.resources resource_id).owner ≠ s.current then .error (.assertion s)
  else
    let s1 := s.set_owner resource_id none
    wake_largest_prio s1 resource_id

/-- Function `pcp_release` (pa2.c:249). -/
def pcp_release (s : State) (resource_id : Nat) : Except Failure State :=
  if (s.resources resource_id).owner ≠ s.current then .error (.assertion s)
  else
    match s.current with
    | none => .error .null_deref
    | some c =>
      let s0 := s.set_prio c (s.procs c).prio_orig
      let s1 := s0.set_owner resource_id none
      wake_largest_prio s1 resource_id

/-- Function `pip_release` (pa2.c:310). -/
def pip_release (s : State) (resource_id : Nat) : Except Failure State :=
  if (s.resources resource_id).owner ≠ s.current then .error (.assertion s)
  else
    match s.current with
    | none => .error .null_deref
    | some c =>
      let s0 := s.set_prio c (s.procs c).prio_orig
      let s1 := s0.set_owner resource_id none
      wake_largest_prio s1 resource_id

/-! ## Schedule functions -/

/-- The `pick_next` part of `fifo_schedule` (pa2.c:385-404): take the
head of the ready queue, if there is one. -/
def fifo_pick_next (s : State) : Option Pid × State :=
  match s.readyqueue with
  | [] => (none, s)
  | next :: _ => (some next, s.ready_del next)

/-- Function `fifo_schedule` (pa2.c:360). -/
def fifo_schedule (s : State) : Option Pid × State :=
  match s.current with
  | none => fifo_pick_next s
  | some c =>
    if (s.procs c).status = PROCESS_WAIT then fifo_pick_next s
    else if (s.procs c).age < (s.procs c).lifespan then (some c, s)
    else fifo_pick_next s

/-- The scan of `sjf_schedule` (pa2.c:453-463): `min_lifespan` is the
local that starts at `0`, `next` the candidate found so far. -/
def sjf_scan (procs : Pid → process) : List Pid → Nat → Option Pid → Option Pid
  | [], _, next => next
  | pos :: rest, min_lifespan, next =>
    if min_lifespan = 0 then
      sjf_scan procs rest (procs pos).lifespan (some pos)
    else if (procs pos).lifespan < min_lifespan then
      sjf_scan procs rest (procs pos).lifespan (some pos)
    else
      sjf_scan procs rest min_lifespan next

/-- The `pick_next` part of `sjf_schedule` (pa2.c:446-467).  On a
non-empty queue the scan always yields a process, so the `none` branch of
the inner match is never taken (in C it would unlink through `NULL`). -/
def sjf_pick_next (s : State) : Option Pid × State :=
  match s.readyqueue with
  | [] => (none, s)
  | _ :: _ =>
    match sjf_scan s.procs s.readyqueue 0 none with
    | none => (none, s)
    | some next => (some next, s.ready_del next)

/-- Function `sjf_schedule` (pa2.c:431). -/
def sjf_schedule (s : State) : Option Pid × State :=
  match s.current with
  | none => sjf_pick_next s
  | some c =>
    if (s.procs c).status = PROCESS_WAIT then sjf_pick_next s
    else if (s.procs c).age < (s.procs c).lifespan then (some c, s)
    else sjf_pick_next s

/-- The first statement of the preemptive schedule functions
(pa2.c:489, 536, 568, 604): a current process that is unfinished and not
waiting goes to the tail of the ready queue. -/
def requeue_current (s : State) : State :=
  match s.current with
  | none => s
  | some c =>
    if (s.procs c).lifespan > (s.procs c).age ∧ (s.procs c).status ≠ PROCESS_WAIT then
      s.ready_add_tail c
    else s

/-- Function `prio_schedule` (pa2.c:563).  On a non-empty queue
`get_largest_prio` always yields a process, so the `none` branch of the
inner match is never taken (in C it would unlink through `NULL`). -/
def prio_schedule (s : State) : Option Pid × State :=
  let s1 := requeue_current s
  match s1.readyqueue with
  | [] => (none, s1)
  | _ :: _ =>
    match get_largest_prio s1.procs s1.readyqueue with
    | none => (none, s1)
    | some next => (some next, s1.ready_del next)

/-- Modelled from the spec: the tick-driving harness is not in the
sources; after `schedule` returns, the returned process becomes `current`
and is marked RUNNING. -/
def dispatch (r : Option Pid × State) : State :=
  match r.1 with
  | none => { r.2 with current := none }
  | some n => { r.2.set_status n PROCESS_RUNNING with current := some n }

/-- The head of a queue (`list_first_entry`), if any. -/
def first_entry (q : List Pid) : Option Pid := q.head?

/-- A process record used in concrete runs. -/
def mkproc (st : process_status) (age lifespan prio prio_orig : Nat) : process :=
  { status := st, age := age, lifespan := lifespan, prio := prio, prio_orig := prio_orig }

/-- A state with the given records, current process and ready queue, in
which every resource is free and has an empty waitqueue. -/
def fresh (procs : Pid → process) (cur : Option Pid) (rq : List Pid) : State :=
  { procs := procs, current := cur, readyqueue := rq,
    resources := fun _ => { owner := none, waitqueue := [] } }

/-- Decomposition `q = pre ++ p :: post` in which `p` is the earliest
entry of `q` with the greatest `key`: no entry has a greater key and every
entry before `p` has a strictly smaller one. -/
def first_max (key : Pid → Nat) (q pre : List Pid) (p : Pid) (post : List Pid) : Prop :=
  q = pre ++ p :: post ∧ (∀ x ∈ q, key x ≤ key p) ∧ (∀ x ∈ pre, key x < key p)

/-- Every process of `q` has a prio that is a non-negative `int`: at most
`INT_MAX` = 2^31 - 1, the range in which an `unsigned int` and its
conversion to `int` are the same number. -/
@[reducible] def fits_int (procs : Pid → process) (q : List Pid) : Prop :=
  ∀ x ∈ q, (procs x).prio < 2147483648

/-- The contract of an `acquire` function called by the current process
`c` on resource `rid` in state `s`. -/
def acquire_contract (acquire : State → Nat → Except Failure (Bool × State))
    (s : State) (c : Pid) (rid : Nat) : Prop :=
  ∃ b s', acquire s rid = .ok (b, s') ∧
    (b = true ↔ (s.resources rid).owner = none) ∧
    (b = true →
      (s'.resources rid).owner = some c ∧
      s'.readyqueue = s.readyqueue ∧
      ∀ k, (s'.resources k).waitqueue = (s.resources k).waitqueue) ∧
    (b = false →
      (∀ k, (s'.resources k).owner = (s.resources k).owner) ∧
      (s'.procs c).status = PROCESS_WAIT ∧
      (s'.resources rid).waitqueue = (s.resources rid).waitqueue ++ [c] ∧
      (∀ k, k ≠ rid → (s'.resources k).waitqueue = (s.resources k).waitqueue) ∧
      s'.readyqueue = s.readyqueue)

/-- The contract of `fcfs_release` on resource `rid` in state `s`: the
call returns, the owner is cleared, an empty waitqueue leaves everything
else as it was, a non-empty one loses exactly its head, which becomes
READY at the tail of the ready queue; and of two waiters the earlier one
is never overtaken. -/
def fcfs_release_contract (s : State) (rid : Nat) : Prop :=
  ∃ s', fcfs_release s rid = .ok s' ∧
    (s'.resources rid).owner = none ∧
    ((s.resources rid).waitqueue = [] →
      s'.procs = s.procs ∧ s'.current = s.current ∧
      s'.readyqueue = s.readyqueue ∧
      (s'.resources rid).waitqueue = [] ∧
      ∀ k, k ≠ rid → s'.resources k = s.resources k) ∧
    (∀ w rest, (s.resources rid).waitqueue = w :: rest →
      (s'.resources rid).waitqueue = rest ∧
      (s'.procs w).status = PROCESS_READY ∧
      s'.readyqueue = s.readyqueue ++ [w] ∧
      ∀ p, p ≠ w → s'.procs p = s.procs p) ∧
    (∀ pre a mid b post,
      (s.resources rid).waitqueue = pre ++ a :: (mid ++ b :: post) →
      (pre = [] ∧ s'.readyqueue = s.readyqueue ++ [a] ∧
        (s'.resources rid).waitqueue = mid ++ b :: post) ∨
      (∃ w pre', pre = w :: pre' ∧ s'.readyqueue = s.readyqueue ++ [w] ∧
        (s'.resources rid).waitqueue = pre' ++ a :: (mid ++ b :: post)))

/-- Modelled from the spec: the runs of a configuration with the FCFS
lock, followed at resource `rid`; the harness is not in the sources.
`FcfsRun rid s log s1` says that `s1` is reached from `s` by calls of
`fcfs_acquire` and `fcfs_release` that return, on any resources, with
steps in between that leave the resources alone (the schedule functions,
the harness).  `log` lists, earliest first, the processes that the
releases of `rid` put on the ready queue, that is, woke. -/
inductive FcfsRun (rid : Nat) (s : State) : List Pid → State → Prop where
  | start : FcfsRun rid s [] s
  | acquire (log : List Pid) (s1 s2 : State) (k : Nat) (b : Bool) :
      FcfsRun rid s log s1 → fcfs_acquire s1 k = .ok (b, s2) →
      FcfsRun rid s log s2
  | release (log : List Pid) (s1 s2 : State) (k : Nat) :
      FcfsRun rid s log s1 → fcfs_release s1 k = .ok s2 →
      FcfsRun rid s
        (if k = rid then log ++ s2.readyqueue.drop s1.readyqueue.length else log) s2
  | other (log : List Pid) (s1 s2 : State) :
      FcfsRun rid s log s1 → s2.resources = s1.resources →
      FcfsRun rid s log s2

/-- Of two processes, `a` is woken first in a run with wake-ups `log`:
whenever `b` occurs in `log`, `a` occurs before it. -/
def woken_before (log : List Pid) (a b : Pid) : Prop :=
  ∀ l1 l2, log = l1 ++ b :: l2 → a ∈ l1

/-- Statement `current->prio = current->prio_orig` of `pcp_release` and
`pip_release`, as a state. -/
def restored (s : State) (c : Pid) : State :=
  s.set_prio c (s.procs c).prio_orig

/-- The waiter `get_largest_prio` picks from the waitqueue of `rid`. -/
def prio_selected (s : State) (rid : Nat) : Option Pid :=
  get_largest_prio s.procs (s.resources rid).waitqueue

/-- A release by `c` that returns and wakes the earliest waiter of
greatest prio: that waiter leaves the waitqueue, whose other entries keep
their order, becomes READY and goes to the tail of the ready queue.  The
prio compared is the one the processes have when the call selects, which
is their prio after the call; no process other than `c` has its prio
changed. -/
def wakes_first_max (release : State → Nat → Except Failure State)
    (s : State) (c : Pid) (rid : Nat) : Prop :=
  ∃ s' pre w post, release s rid = .ok s' ∧
    first_max (fun x => (s'.procs x).prio) (s.resources rid).waitqueue pre w post ∧
    (s'.resources rid).waitqueue = pre ++ post ∧
    s'.readyqueue = s.readyqueue ++ [w] ∧
    (s'.procs w).status = PROCESS_READY ∧
    (∀ x, x ≠ c → (s'.procs x).prio = (s.procs x).prio)

/-- The call stops at a failed `assert`. -/
def fails_fatally (r : Except Failure State) : Prop :=
  ∃ st, r = .error (.assertion st)

/-- Process `w` is woken between `s` and `s'`: it was a waiter of `rid`
and is the entry added at the tail of the ready queue. -/
def woken (s s' : State) (rid : Nat) (w : Pid) : Prop :=
  w ∈ (s.resources rid).waitqueue ∧ s'.readyqueue = s.readyqueue ++ [w]

/-- A release by `c` that returns with the prio of `c` back at its
prio_orig, the resource free, and the prio of the woken waiter as it
was. -/
def release_restores (release : State → Nat → Except Failure State)
    (s : State) (c : Pid) (rid : Nat) : Prop :=
  ∃ s', release s rid = .ok s' ∧
    (s'.procs c).prio = (s'.procs c).prio_orig ∧
    (s'.procs c).prio_orig = (s.procs c).prio_orig ∧
    (s'.resources rid).owner = none ∧
    ∀ w, woken s s' rid w → (s'.procs w).prio = (s.procs w).prio

/-- The state a call ended in, or `d` when it did not return. -/
def result_or (r : Except Failure State) (d : State) : State :=
  match r with
  | .ok s' => s'
  | .error _ => d

/-- Records of a run with two processes: process 0 has prio_orig 1,
process 1 has prio_orig 5; everything not listed is a READY process with
all fields 0. -/
def two_procs (st0 st1 : process_status) (prio0 prio1 : Nat) : Pid → process :=
  fun p =>
    if p = 0 then mkproc st0 0 10 prio0 1
    else if p = 1 then mkproc st1 0 10 prio1 5
    else mkproc PROCESS_READY 0 0 0 0

/-- Process 0 runs and owns resource 0; process 1 is linked into the
waitqueue of resource 0 although its status is READY. -/
def waiter_not_waiting : State :=
  { procs := two_procs PROCESS_RUNNING PROCESS_READY 1 5
    current := some 0
    readyqueue := []
    resources := fun k =>
      if k = 0 then { owner := some 0, waitqueue := [1] }
      else { owner := none, waitqueue := [] } }

/-- Process 0 runs and owns resource 0, boosted to prio 64 from its
prio_orig 1; processes 1 (prio 2), 2 (prio 7) and 3 (prio 7) wait for the
resource, blocked in this order; process 4 is in the ready queue. -/
def three_waiters : State :=
  { procs := fun p =>
      if p = 0 then mkproc PROCESS_RUNNING 2 10 64 1
      else if p = 1 then mkproc PROCESS_WAIT 1 10 2 2
      else if p = 2 then mkproc PROCESS_WAIT 1 10 7 7
      else if p = 3 then mkproc PROCESS_WAIT 0 10 7 7
      else mkproc PROCESS_READY 0 10 3 3
    current := some 0
    readyqueue := [4]
    resources := fun k =>
      if k = 0 then { owner := some 0, waitqueue := [1, 2, 3] }
      else { owner := none, waitqueue := [] } }

/-- Process 0 (prio_orig 1) is current and nothing is owned. -/
def alone : State :=
  fresh (two_procs PROCESS_RUNNING PROCESS_READY 1 5) (some 0) []

/-- The state after process 0 of `alone` has called `pcp_acquire` on
resource 0 twice: it owns the resource at prio 64 and, denied the second
time, is WAITING in that resource's own waitqueue. -/
def self_blocked : State :=
  match pcp_acquire 64 alone 0 with
  | .ok (_, s1) =>
    (match pcp_acquire 64 s1 0 with
     | .ok (_, s2) => s2
     | .error _ => alone)
  | .error _ => alone

/-- A run under the PIP configuration seen just before the call that
goes wrong.  Process 0 (prio_orig 1) holds resource 1 and runs at prio 5,
inherited from process 2 (prio_orig 5), which waits for resource 1;
process 1 (prio 3, prio_orig 3) holds resource 0 and sits in the ready
queue. -/
def pip_nested : State :=
  { procs := fun p =>
      if p = 0 then mkproc PROCESS_RUNNING 2 10 5 1
      else if p = 1 then mkproc PROCESS_READY 1 10 3 3
      else if p = 2 then mkproc PROCESS_WAIT 0 10 5 5
      else mkproc PROCESS_READY 0 0 0 0
    current := some 0
    readyqueue := [1]
    resources := fun k =>
      if k = 0 then { owner := some 1, waitqueue := [] }
      else if k = 1 then { owner := some 0, waitqueue := [2] }
      else { owner := none, waitqueue := [] } }

/-- Decomposition `q = pre ++ p :: post` in which `p` is the earliest
entry of `q` with the least `key`. -/
def first_min (key : Pid → Nat) (q pre : List Pid) (p : Pid) (post : List Pid) : Prop :=
  q = pre ++ p :: post ∧ (∀ x ∈ q, key p ≤ key x) ∧ (∀ x ∈ pre, key p < key x)

/-- The current process is absent, WAITING or finished. -/
def cpu_free (s : State) : Prop :=
  match s.current with
  | none => True
  | some c => (s.procs c).status = PROCESS_WAIT ∨ (s.procs c).lifespan ≤ (s.procs c).age

/-- No current process; the ready queue holds process 0 (lifespan 3),
process 1 (lifespan 0) and process 2 (lifespan 7), in this order. -/
def zero_lifespan_ready : State :=
  fresh (fun p =>
      if p = 0 then mkproc PROCESS_READY 0 3 0 0
      else if p = 1 then mkproc PROCESS_READY 0 0 0 0
      else mkproc PROCESS_READY 0 7 0 0)
    none [0, 1, 2]

/-- Process 0 runs with 3 of its 10 ticks used; the ready queue holds
process 1 (lifespan 2) and process 2 (lifespan 4). -/
def busy : State :=
  fresh (fun p =>
      if p = 0 then mkproc PROCESS_RUNNING 3 10 0 0
      else if p = 1 then mkproc PROCESS_READY 0 2 0 0
      else mkproc PROCESS_READY 0 4 0 0)
    (some 0) [1, 2]

/-! ## The preemptive schedule functions -/

/-- Subtraction of `unsigned int` operands as in
`pos->lifespan - pos->age` stored into an `unsigned int`: the difference
when it is not negative, and the wrapped value modulo 2^32 otherwise. -/
def usub32 (a b : Nat) : Nat :=
  if b ≤ a then a - b else (a + 4294967296 - b) % 4294967296

/-- The scan of `srtf_schedule` (pa2.c:498-508): `min_remain` is the local
that starts at `0`, `next` the candidate found so far. -/
def srtf_scan (procs : Pid → process) : List Pid → Nat → Option Pid → Option Pid
  | [], _, next => next
  | pos :: rest, min_remain, next =>
    if min_remain = 0 then
      srtf_scan procs rest (usub32 (procs pos).lifespan (procs pos).age) (some pos)
    else if usub32 (procs pos).lifespan (procs pos).age < min_remain then
      srtf_scan procs rest (usub32 (procs pos).lifespan (procs pos).age) (some pos)
    else
      srtf_scan procs rest min_remain next

/-- Function `srtf_schedule` (pa2.c:485).  On a non-empty queue the scan
always yields a process, so the `none` branch of the inner match is never
taken (in C it would unlink through `NULL`). -/
def srtf_schedule (s : State) : Option Pid × State :=
  let s1 := requeue_current s
  match s1.readyqueue with
  | [] => (none, s1)
  | _ :: _ =>
    match srtf_scan s1.procs s1.readyqueue 0 none with
    | none => (none, s1)
    | some next => (some next, s1.ready_del next)

/-- Function `rr_schedule` (pa2.c:532). -/
def rr_schedule (s : State) : Option Pid × State :=
  let s1 := requeue_current s
  match s1.readyqueue with
  | [] => (none, s1)
  | pos :: _ => (some pos, s1.ready_del pos)

/-- Addition of `unsigned int` operands as in `remain->prio += 1`: the
sum modulo 2^32. -/
def uadd32 (a b : Nat) : Nat := (a + b) % 4294967296

/-- The last loop of `pa_schedule` (pa2.c:618-622): `remain->prio += 1`
for every entry of the ready queue, in queue order. -/
def age_ready (s : State) : State :=
  s.readyqueue.foldl
    (fun st remain => st.set_prio remain (uadd32 (st.procs remain).prio 1)) s

/-- Function `pa_schedule` (pa2.c:600).  On a non-empty queue
`get_largest_prio` always yields a process, so the `none` branch of the
inner match is never taken (in C it would write through `NULL`). -/
def pa_schedule (s : State) : Option Pid × State :=
  let s1 := requeue_current s
  match s1.readyqueue with
  | [] => (none, s1)
  | _ :: _ =>
    match get_largest_prio s1.procs s1.readyqueue with
    | none => (none, s1)
    | some next =>
      let s2 := s1.set_prio next (s1.procs next).prio_orig
      let s3 := s2.ready_del next
      (some next, age_ready s3)

/-! ## Vocabulary of the scheduling statements -/

/-- The current process as a list: `[c]` when there is a current process
`c` that is not WAITING and has age < lifespan, `[]` otherwise. -/
def runnable_current (s : State) : List Pid :=
  match s.current with
  | none => []
  | some c =>
    if (s.procs c).status ≠ PROCESS_WAIT ∧ (s.procs c).age < (s.procs c).lifespan then [c]
    else []

/-- The ready queue with the current process appended at the tail when it
exists, is not WAITING and has age < lifespan. -/
def contenders (s : State) : List Pid :=
  s.readyqueue ++ runnable_current s

/-- Remaining time `lifespan - age` of a process record. -/
def remaining (p : process) : Nat := p.lifespan - p.age

/-- Modelled from the spec: the harness is not in the sources; in a tick
without resource operations the process that ran gets one more tick of
age (`current->age++`). -/
def age_current (s : State) : State :=
  match s.current with
  | none => s
  | some c => s.write c { s.procs c with age := (s.procs c).age + 1 }

/-- Modelled from the spec: one tick of the harness without resource
operations: call `schedule`, make the returned process current and
RUNNING, and let it run for one tick.  The result is the process that
runs in the tick and the state after it. -/
def run_tick (schedule : State → Option Pid × State) (s : State) : Option Pid × State :=
  ((schedule s).1, age_current (dispatch (schedule s)))

/-- The state after `n` ticks. -/
def run_state (schedule : State → Option Pid × State) : Nat → State → State
  | 0, s => s
  | n + 1, s => run_state schedule n (run_tick schedule s).2

/-- The processes that run in ticks `1..n`, in order. -/
def run_trace (schedule : State → Option Pid × State) : Nat → State → List (Option Pid)
  | 0, _ => []
  | n + 1, s => (run_tick schedule s).1 :: run_trace schedule n (run_tick schedule s).2

/-- Three processes, all READY with age 0, in the ready queue in the
order 1, 2, 3 and no current process: P1 (lifespan 5, prio 1),
P2 (lifespan 3, prio 3), P3 (lifespan 4, prio 2). -/
def three_arrive : State :=
  fresh (fun p =>
      if p = 1 then mkproc PROCESS_READY 0 5 1 1
      else if p = 2 then mkproc PROCESS_READY 0 3 3 3
      else if p = 3 then mkproc PROCESS_READY 0 4 2 2
      else mkproc PROCESS_READY 0 0 0 0)
    none [1, 2, 3]

/-- The run in which the processes of `o` run one after another, each
`len p` ticks in a row. -/
def blocks (len : Pid → Nat) : List Pid → List (Option Pid)
  | [] => []
  | p :: o => List.replicate (len p) (some p) ++ blocks len o

/-- The number of ticks of `blocks len o`. -/
def ticks (len : Pid → Nat) : List Pid → Nat
  | [] => 0
  | p :: o => len p + ticks len o

/-- The processes of `q` arranged by descending prio. -/
def by_descending_prio (procs : Pid → process) (q : List Pid) : List Pid :=
  q.insertionSort (fun a b => (procs b).prio ≤ (procs a).prio)

/-- What `pa_schedule` does on `Q = contenders s`: it returns the
earliest process of `Q` with the greatest prio; afterwards that process
has its prio back at its prio_orig, the ready queue is `Q` without it, in
the same order, and every process left in it has its prio 1 greater than
before. -/
def pa_schedule_contract (s : State) : Prop :=
  ∃ pre p post,
    first_max (fun x => (s.procs x).prio) (contenders s) pre p post ∧
    (pa_schedule s).1 = some p ∧
    (pa_schedule s).2.readyqueue = pre ++ post ∧
    ((pa_schedule s).2.procs p).prio = ((pa_schedule s).2.procs p).prio_orig ∧
    ((pa_schedule s).2.procs p).prio_orig = (s.procs p).prio_orig ∧
    ∀ x ∈ pre ++ post, ((pa_schedule s).2.procs x).prio = (s.procs x).prio + 1

/-- Process 0 (prio 2) is current, RUNNING and unfinished; the ready
queue holds process 3 (prio 5), process 1 (prio 9, aged up from its
prio_orig 4) and process 2 (prio 9, its prio_orig), in this order. -/
def aged_ready : State :=
  fresh (fun p =>
      if p = 0 then mkproc PROCESS_RUNNING 1 10 2 2
      else if p = 1 then mkproc PROCESS_READY 0 5 9 4
      else if p = 2 then mkproc PROCESS_READY 0 5 9 9
      else if p = 3 then mkproc PROCESS_READY 0 5 5 5
      else mkproc PROCESS_READY 0 0 0 0)
    (some 0) [3, 1, 2]

/-- Runs of the Priority+Aging configuration (`pa_schedule`,
`prio_acquire`, `prio_release`): `PaRun p s k s'` says that `s'` is
reached from `s` by calls that return, `k` of them calls of `pa_schedule`
none of which returned `p`, with any acquire and release calls and ticks
of the running process in between.  After a `pa_schedule` call the
harness makes the returned process current (`dispatch`). -/
inductive PaRun (p : Pid) (s : State) : Nat → State → Prop where
  | start : PaRun p s 0 s
  | schedule (k : Nat) (s1 : State) :
      PaRun p s k s1 → (pa_schedule s1).1 ≠ some p →
      PaRun p s (k + 1) (dispatch (pa_schedule s1))
  | acquire (k : Nat) (s1 s2 : State) (rid : Nat) (b : Bool) :
      PaRun p s k s1 → prio_acquire s1 rid = .ok (b, s2) → PaRun p s k s2
  | release (k : Nat) (s1 s2 : State) (rid : Nat) :
      PaRun p s k s1 → prio_release s1 rid = .ok s2 → PaRun p s k s2
  | run (k : Nat) (s1 : State) :
      PaRun p s k s1 → PaRun p s k (age_current s1)

/-- Process `p` is linked exactly once, into the ready queue, and is not
the current process. -/
def waits_in_ready (s : State) (p : Pid) : Prop :=
  s.readyqueue.count p = 1 ∧ (∀ k, p ∉ (s.resources k).waitqueue) ∧ s.current ≠ some p

/-- The fields of every process record that no operation of the core
writes are the same in `s'` as in `s`. -/
def fields_kept (s s' : State) : Prop :=
  ∀ x, (s'.procs x).prio_orig = (s.procs x).prio_orig ∧
    (s'.procs x).age = (s.procs x).age ∧
    (s'.procs x).lifespan = (s.procs x).lifespan

/-- The shape every schedule function of `pa2.c` has: it leaves
`current`, the resources and every status, age, lifespan and prio_orig
alone; with `Q = contenders s` empty it returns none and the ready queue
is empty; otherwise it returns a process `p` of `Q` and either the ready
queue becomes `Q` without `p`, or `p` is the runnable current process and
the ready queue is untouched. -/
def schedule_shape (schedule : State → Option Pid × State) : Prop :=
  ∀ s,
    (schedule s).2.current = s.current ∧
    (schedule s).2.resources = s.resources ∧
    (∀ x, ((schedule s).2.procs x).status = (s.procs x).status) ∧
    fields_kept s (schedule s).2 ∧
    ((contenders s = [] ∧ (schedule s).1 = none ∧ (schedule s).2.readyqueue = []) ∨
     (∃ p, p ∈ contenders s ∧ (schedule s).1 = some p ∧
        ((schedule s).2.readyqueue = (contenders s).erase p ∨
         (runnable_current s = [p] ∧ (schedule s).2.readyqueue = s.readyqueue))))

/-- The processor idles exactly when nothing can run, and a returned
process is the previous current process or was in the ready queue. -/
def idles_iff_nothing_runnable (schedule : State → Option Pid × State) (s : State) : Prop :=
  ((schedule s).1 = none ↔
    (s.readyqueue = [] ∧
      ¬ ∃ c, s.current = some c ∧ (s.procs c).status ≠ PROCESS_WAIT ∧
        (s.procs c).age < (s.procs c).lifespan)) ∧
  ∀ p, (schedule s).1 = some p → s.current = some p ∨ p ∈ s.readyqueue

/-- The state a release call ends in, whether it returns or stops at a
failed assert, keeps the fields of `fields_kept`. -/
def release_keeps_fields (s : State) (r : Except Failure State) : Prop :=
  match r with
  | .ok s' => fields_kept s s'
  | .error (.assertion st) => fields_kept s st
  | .error .null_deref => True

/-- The state an acquire call ends in keeps the fields of
`fields_kept`. -/
def acquire_keeps_fields (s : State) (r : Except Failure (Bool × State)) : Prop :=
  match r with
  | .ok (_, s') => fields_kept s s'
  | .error (.assertion st) => fields_kept s st
  | .error .null_deref => True

/-- What `prio_schedule` does for a runnable current process `c`: it
returns `c` again only if the prio of `c` is strictly greater than that of
every process in the ready queue; and if some ready process has a prio
equal to or greater than that of `c`, it returns the earliest ready
process of greatest prio, and `c` ends at the tail of the ready queue,
behind the other ready processes in their order. -/
def prio_schedule_contract (s : State) (c : Pid) : Prop :=
  ((prio_schedule s).1 = some c →
    ∀ x ∈ s.readyqueue, (s.procs x).prio < (s.procs c).prio) ∧
  ((∃ x ∈ s.readyqueue, (s.procs c).prio ≤ (s.procs x).prio) →
    ∃ pre p post,
      first_max (fun x => (s.procs x).prio) s.readyqueue pre p post ∧
      (prio_schedule s).1 = some p ∧
      (prio_schedule s).2.readyqueue = pre ++ post ++ [c])

/-- Process 0 (prio 3) is current, RUNNING and unfinished; the ready
queue holds process 1 (prio 3) and process 2 (prio 1). -/
def equal_prio_ready : State :=
  fresh (fun p =>
      if p = 0 then mkproc PROCESS_RUNNING 1 10 3 3
      else if p = 1 then mkproc PROCESS_READY 0 5 3 3
      else mkproc PROCESS_READY 0 5 1 1)
    (some 0) [1, 2]

/-! ## Scheduler configurations and their runs -/

/-- Modelled from the spec: `struct scheduler` of `sched.h` (not in the
sources), with the three callbacks the claims are about. -/
structure scheduler where
  acquire : State → Nat → Except Failure (Bool × State)
  release : State → Nat → Except Failure State
  schedule : State → Option Pid × State

/-- Configuration `fifo_scheduler` (pa2.c:407). -/
def fifo_scheduler : scheduler :=
  { acquire := fcfs_acquire, release := fcfs_release, schedule := fifo_schedule }

/-- Configuration `sjf_scheduler` (pa2.c:470). -/
def sjf_scheduler : scheduler :=
  { acquire := fcfs_acquire, release := fcfs_release, schedule := sjf_schedule }

/-- Configuration `srtf_scheduler` (pa2.c:518). -/
def srtf_scheduler : scheduler :=
  { acquire := fcfs_acquire, release := fcfs_release, schedule := srtf_schedule }

/-- Configuration `rr_scheduler` (pa2.c:551). -/
def rr_scheduler : scheduler :=
  { acquire := fcfs_acquire, release := fcfs_release, schedule := rr_schedule }

/-- Configuration `prio_scheduler` (pa2.c:583). -/
def prio_scheduler : scheduler :=
  { acquire := prio_acquire, release := prio_release, schedule := prio_schedule }

/-- Configuration `pa_scheduler` (pa2.c:627). -/
def pa_scheduler : scheduler :=
  { acquire := prio_acquire, release := prio_release, schedule := pa_schedule }

/-- Configuration `pcp_scheduler` (pa2.c:641). -/
def pcp_scheduler ( MAX_PRIO : Nat) : scheduler :=
  { acquire := pcp_acquire MAX_PRIO, release := pcp_release, schedule := prio_schedule }

/-- Configuration `pip_scheduler` (pa2.c:656). -/
def pip_scheduler : scheduler :=
  { acquire := pip_acquire, release := pip_release, schedule := prio_schedule }

/-- The eight configurations of `pa2.c`. -/
def configurations ( MAX_PRIO : Nat) : List scheduler :=
  [fifo_scheduler, sjf_scheduler, srtf_scheduler, rr_scheduler,
   prio_scheduler, pa_scheduler, pcp_scheduler MAX_PRIO, pip_scheduler]

/-- The record of denied acquires after process `c` was denied resource
`rid`. -/
def deny (g : Pid → Option Nat) (c : Pid) (rid : Nat) : Pid → Option Nat :=
  fun x => if x = c then some rid else g x

/-- Modelled from the spec: the states a configuration reaches from
`init` under the harness, which is not in the sources.  The current
process, when RUNNING, calls `acquire` or `release` (a call that stops at
a failed assert ends the run); the harness calls `schedule` and makes the
returned process current and RUNNING; the running process ages.  Next to
the state the relation keeps `g`, the resource of the latest denied
acquire of each process. -/
inductive Reach (sched : scheduler) (init : State) : State → (Pid → Option Nat) → Prop where
  | start : Reach sched init init (fun _ => none)
  | acquire (s s' : State) (g : Pid → Option Nat) (c : Pid) (rid : Nat) (b : Bool) :
      Reach sched init s g → s.current = some c →
      (s.procs c).status = PROCESS_RUNNING →
      sched.acquire s rid = .ok (b, s') →
      Reach sched init s' (if b = true then g else deny g c rid)
  | release (s s' : State) (g : Pid → Option Nat) (c : Pid) (rid : Nat) :
      Reach sched init s g → s.current = some c →
      (s.procs c).status = PROCESS_RUNNING →
      sched.release s rid = .ok s' →
      Reach sched init s' g
  | schedule (s : State) (g : Pid → Option Nat) :
      Reach sched init s g → Reach sched init (dispatch (sched.schedule s)) g
  | run (s : State) (g : Pid → Option Nat) :
      Reach sched init s g → Reach sched init (age_current s) g

/-- Every process is linked at most once: the ready queue and each
waitqueue hold no process twice, no process is in two queues, and a
current process that is not WAITING is in no queue. -/
def linked (s : State) : Prop :=
  s.readyqueue.Nodup ∧
  (∀ k, (s.resources k).waitqueue.Nodup) ∧
  (∀ k p, p ∈ (s.resources k).waitqueue → p ∉ s.readyqueue) ∧
  (∀ k k' p, p ∈ (s.resources k).waitqueue → p ∈ (s.resources k').waitqueue → k = k') ∧
  (∀ c, s.current = some c → (s.procs c).status ≠ PROCESS_WAIT →
    c ∉ s.readyqueue ∧ ∀ k, c ∉ (s.resources k).waitqueue)

/-- The initial condition of the queue-membership invariant: each process
is in at most one queue, once, and the current process is in none. -/
def linked_initially (s : State) : Prop :=
  s.readyqueue.Nodup ∧
  (∀ k, (s.resources k).waitqueue.Nodup) ∧
  (∀ k p, p ∈ (s.resources k).waitqueue → p ∉ s.readyqueue) ∧
  (∀ k k' p, p ∈ (s.resources k).waitqueue → p ∈ (s.resources k').waitqueue → k = k') ∧
  (∀ c, s.current = some c → c ∉ s.readyqueue ∧ ∀ k, c ∉ (s.resources k).waitqueue)

/-- Waitqueue soundness: a process is in a waitqueue exactly when its
status is WAITING, and a WAITING process is in exactly one waitqueue,
once, that of the resource `g` records as its latest denied acquire. -/
def waitqueue_sound (s : State) (g : Pid → Option Nat) : Prop :=
  (∀ p, (∃ k, p ∈ (s.resources k).waitqueue) ↔ (s.procs p).status = PROCESS_WAIT) ∧
  (∀ p k, p ∈ (s.resources k).waitqueue →
    g p = some k ∧ (s.resources k).waitqueue.count p = 1 ∧
    ∀ k', p ∈ (s.resources k').waitqueue → k' = k)

/-- The shape of the acquire functions, for a call by the current process
`c`: `current` and the ready queue stay; a granted call changes no status
and no waitqueue; a denied call sets the status of `c` to WAITING, changes
no other status and appends `c` to the waitqueue of `rid` only. -/
def acquire_shape (acquire : State → Nat → Except Failure (Bool × State)) : Prop :=
  ∀ s c rid b s', s.current = some c → acquire s rid = .ok (b, s') →
    s'.current = s.current ∧ s'.readyqueue = s.readyqueue ∧
    (b = true →
      (∀ x, (s'.procs x).status = (s.procs x).status) ∧
      ∀ k, (s'.resources k).waitqueue = (s.resources k).waitqueue) ∧
    (b = false →
      (s'.procs c).status = PROCESS_WAIT ∧
      (∀ x, x ≠ c → (s'.procs x).status = (s.procs x).status) ∧
      (s'.resources rid).waitqueue = (s.resources rid).waitqueue ++ [c] ∧
      ∀ k, k ≠ rid → (s'.resources k).waitqueue = (s.resources k).waitqueue)

/-- The shape of the release functions, for a call that returns:
`current` stays; either no status and no queue changes, or one waiter `w`
of `rid`, whose status was WAITING, becomes READY, leaves that waitqueue
and goes to the tail of the ready queue, and nothing else changes. -/
def release_shape (release : State → Nat → Except Failure State) : Prop :=
  ∀ s rid s', release s rid = .ok s' →
    s'.current = s.current ∧
    (((∀ x, (s'.procs x).status = (s.procs x).status) ∧
       s'.readyqueue = s.readyqueue ∧
       ∀ k, (s'.resources k).waitqueue = (s.resources k).waitqueue) ∨
     (∃ w, w ∈ (s.resources rid).waitqueue ∧
       (s.procs w).status = PROCESS_WAIT ∧
       (s'.procs w).status = PROCESS_READY ∧
       (∀ x, x ≠ w → (s'.procs x).status = (s.procs x).status) ∧
       s'.readyqueue = s.readyqueue ++ [w] ∧
       (s'.resources rid).waitqueue = (s.resources rid).waitqueue.erase w ∧
       ∀ k, k ≠ rid → (s'.resources k).waitqueue = (s.resources k).waitqueue))

/-- Every entry of a waitqueue is WAITING and recorded in `g` as denied
that resource, and every WAITING process is in some waitqueue. -/
def waiting_recorded (s : State) (g : Pid → Option Nat) : Prop :=
  (∀ k p, p ∈ (s.resources k).waitqueue →
    (s.procs p).status = PROCESS_WAIT ∧ g p = some k) ∧
  (∀ p, (s.procs p).status = PROCESS_WAIT → ∃ k, p ∈ (s.resources k).waitqueue)

/-- Process 0 is current and RUNNING, resource 0 is owned by process 1,
every waitqueue is empty and no process is WAITING; the ready queue is
`rq`. -/
def contended (rq : List Pid) : State :=
  { procs := fun p =>
      if p = 0 then mkproc PROCESS_RUNNING 1 10 1 1
      else mkproc PROCESS_READY 0 5 5 5
    current := some 0
    readyqueue := rq
    resources := fun k =>
      if k = 0 then { owner := some 1, waitqueue := [] }
      else { owner := none, waitqueue := [] } }

/-- The state of a run from `contended rq` after process 0 was denied
resource 0. -/
def denied (rq : List Pid) : State :=
  ((contended rq).set_status 0 PROCESS_WAIT).waitqueue_add_tail 0 0

/-! ## Facts about the elementary writes -/

@[simp] theorem write_procs (s : State) (p : Pid) (v : process) (q : Pid) :
    (s.write p v).procs q = if q = p then v else s.procs q := rfl

@[simp] theorem write_current (s : State) (p : Pid) (v : process) :
    (s.write p v).current = s.current := rfl

@[simp] theorem write_readyqueue (s : State) (p : Pid) (v : process) :
    (s.write p v).readyqueue = s.readyqueue := rfl

@[simp] theorem write_resources (s : State) (p : Pid) (v : process) :
    (s.write p v).resources = s.resources := rfl

@[simp] theorem write_resource_procs (s : State) (rid : Nat) (r : resource) :
    (s.write_resource rid r).procs = s.procs := rfl

@[simp] theorem write_resource_current (s : State) (rid : Nat) (r : resource) :
    (s.write_resource rid r).current = s.current := rfl

@[simp] theorem write_resource_readyqueue (s : State) (rid : Nat) (r : resource) :
    (s.write_resource rid r).readyqueue = s.readyqueue := rfl

@[simp] theorem write_resource_resources (s : State) (rid : Nat) (r : resource) (k : Nat) :
    (s.write_resource rid r).resources k = if k = rid then r else s.resources k := rfl

@[simp] theorem ready_add_tail_procs (s : State) (p : Pid) :
    (s.ready_add_tail p).procs = s.procs := rfl

@[simp] theorem ready_add_tail_current (s : State) (p : Pid) :
    (s.ready_add_tail p).current = s.current := rfl

@[simp] theorem ready_add_tail_readyqueue (s : State) (p : Pid) :
    (s.ready_add_tail p).readyqueue = s.readyqueue ++ [p] := rfl

@[simp] theorem ready_add_tail_resources (s : State) (p : Pid) :
    (s.ready_add_tail p).resources = s.resources := rfl

@[simp] theorem ready_del_procs (s : State) (p : Pid) :
    (s.ready_del p).procs = s.procs := rfl

@[simp] theorem ready_del_current (s : State) (p : Pid) :
    (s.ready_del p).current = s.current := rfl

@[simp] theorem ready_del_readyqueue (s : State) (p : Pid) :
    (s.ready_del p).readyqueue = s.readyqueue.erase p := rfl

@[simp] theorem ready_del_resources (s : State) (p : Pid) :
    (s.ready_del p).resources = s.resources := rfl

/-! ## C1: the four acquire functions -/

theorem fcfs_acquire_contract (s : State) (c : Pid) (rid : Nat)
    (hc : s.current = some c) : acquire_contract fcfs_acquire s c rid := by
  unfold acquire_contract fcfs_acquire
  cases ho : (s.resources rid).owner with
  | none =>
    refine ⟨true, _, rfl, by simp, ?_, by simp⟩
    intro _
    refine ⟨by simp [State.set_owner, hc], rfl, ?_⟩
    intro k
    by_cases hk : k = rid <;> simp [State.set_owner, hk]
  | some o =>
    simp only [hc]
    refine ⟨false, _, rfl, by simp, by simp, ?_⟩
    intro _
    refine ⟨?_, by simp [State.waitqueue_add_tail, State.set_status], ?_, ?_, rfl⟩
    · intro k
      by_cases hk : k = rid <;> simp [State.waitqueue_add_tail, State.set_status, hk]
    · simp [State.waitqueue_add_tail, State.set_status]
    · intro k hk
      simp [State.waitqueue_add_tail, State.set_status, hk]

theorem prio_acquire_eq_fcfs_acquire : prio_acquire = fcfs_acquire := rfl

theorem pcp_acquire_contract ( MAX_PRIO : Nat) (s : State) (c : Pid) (rid : Nat)
    (hc : s.current = some c) : acquire_contract (pcp_acquire MAX_PRIO) s c rid := by
  unfold acquire_contract pcp_acquire
  cases ho : (s.resources rid).owner with
  | none =>
    simp only [hc]
    refine ⟨true, _, rfl, by simp, ?_, by simp⟩
    intro _
    refine ⟨by simp [State.set_owner, State.set_prio], rfl, ?_⟩
    intro k
    by_cases hk : k = rid <;> simp [State.set_owner, State.set_prio, hk]
  | some o =>
    simp only [hc]
    refine ⟨false, _, rfl, by simp, by simp, ?_⟩
    intro _
    refine ⟨?_, by simp [State.waitqueue_add_tail, State.set_status], ?_, ?_, rfl⟩
    · intro k
      by_cases hk : k = rid <;> simp [State.waitqueue_add_tail, State.set_status, hk]
    · simp [State.waitqueue_add_tail, State.set_status]
    · intro k hk
      simp [State.waitqueue_add_tail, State.set_status, hk]

theorem pip_acquire_contract (s : State) (c : Pid) (rid : Nat)
    (hc : s.current = some c) : acquire_contract pip_acquire s c rid := by
  unfold acquire_contract pip_acquire
  cases ho : (s.resources rid).owner with
  | none =>
    refine ⟨true, _, rfl, by simp, ?_, by simp⟩
    intro _
    refine ⟨by simp [State.set_owner, hc], rfl, ?_⟩
    intro k
    by_cases hk : k = rid <;> simp [State.set_owner, hk]
  | some o =>
    simp only [hc]
    refine ⟨false, _, rfl, by simp, by simp, ?_⟩
    intro _
    refine ⟨?_, ?_, ?_, ?_, rfl⟩
    · intro k
      by_cases hk : k = rid <;>
        simp [State.waitqueue_add_tail, State.set_status, State.set_prio, hk]
    · by_cases hoc : c = o <;>
        simp [State.waitqueue_add_tail, State.set_status, State.set_prio, hoc]
    · simp [State.waitqueue_add_tail, State.set_status, State.set_prio]
    · intro k hk
      simp [State.waitqueue_add_tail, State.set_status, State.set_prio, hk]

/-- Claim C1: each of `fcfs_acquire`, `prio_acquire`, `pcp_acquire` and
`pip_acquire`, called with a current process `c` on any resource, returns;
it returns true exactly when the resource was free; on true the resource
is owned by `c` and no queue changes; on false no owner changes, `c` is
WAITING and `c` is appended at the tail of the resource's waitqueue, whose
earlier entries keep their order. -/
theorem acquire_grants_iff_free ( MAX_PRIO : Nat) (s : State) (c : Pid) (rid : Nat)
    (hc : s.current = some c) :
    acquire_contract fcfs_acquire s c rid ∧
    acquire_contract prio_acquire s c rid ∧
    acquire_contract (pcp_acquire MAX_PRIO) s c rid ∧
    acquire_contract pip_acquire s c rid :=
  ⟨fcfs_acquire_contract s c rid hc,
   prio_acquire_eq_fcfs_acquire ▸ fcfs_acquire_contract s c rid hc,
   pcp_acquire_contract MAX_PRIO s c rid hc,
   pip_acquire_contract s c rid hc⟩

/-- Witness for C1: the four acquire contracts at the state `alone`, where
process 0 is current, with `MAX_PRIO` 64. -/
theorem acquire_grants_iff_free_witness :
    alone.current = some 0 ∧
    acquire_contract fcfs_acquire alone 0 0 ∧
    acquire_contract prio_acquire alone 0 0 ∧
    acquire_contract (pcp_acquire 64) alone 0 0 ∧
    acquire_contract pip_acquire alone 0 0 :=
  ⟨rfl, acquire_grants_iff_free 64 alone 0 0 rfl⟩

/-! ## C8: the tie-break helper -/

theorem int_of_unsigned_of_lt (v : Nat) (h : v < 2147483648) :
    int_of_unsigned v = (v : Int) := by
  have hm : v % 4294967296 = v := Nat.mod_eq_of_lt (by omega)
  simp [int_of_unsigned, hm, h]

theorem get_largest_prio_loop_mem (procs : Pid → process) :
    ∀ (q : List Pid) (priority : Int) (n : Pid),
      ∃ p, get_largest_prio_loop procs q priority (some n) = some p ∧ (p = n ∨ p ∈ q) := by
  intro q
  induction q with
  | nil =>
    intro priority n
    exact ⟨n, rfl, Or.inl rfl⟩
  | cons a rest ih =>
    intro priority n
    have hstep : ∀ (v : Int) (m : Pid), (m = n ∨ m = a) →
        ∃ p, get_largest_prio_loop procs rest v (some m) = some p ∧
          (p = n ∨ p ∈ a :: rest) := by
      intro v m hm
      obtain ⟨p, hp, hmem⟩ := ih v m
      refine ⟨p, hp, ?_⟩
      rcases hmem with rfl | hmem
      · rcases hm with rfl | rfl
        · exact Or.inl rfl
        · exact Or.inr (List.mem_cons_self _ _)
      · exact Or.inr (List.mem_cons_of_mem _ hmem)
    unfold get_largest_prio_loop
    split
    · exact hstep _ a (Or.inr rfl)
    · split
      · exact hstep _ a (Or.inr rfl)
      · exact hstep _ n (Or.inl rfl)

theorem get_largest_prio_cons_mem (procs : Pid → process) (a : Pid) (rest : List Pid) :
    ∃ p, get_largest_prio procs (a :: rest) = some p ∧ p ∈ a :: rest := by
  obtain ⟨p, hp, hmem⟩ := get_largest_prio_loop_mem procs rest (int_of_unsigned (procs a).prio) a
  refine ⟨p, ?_, ?_⟩
  · simp only [get_largest_prio, get_largest_prio_loop]
    simpa using hp
  · rcases hmem with rfl | hmem
    · exact List.mem_cons_self _ _
    · exact List.mem_cons_of_mem _ hmem

theorem get_largest_prio_loop_spec (procs : Pid → process) :
    ∀ (q : List Pid) (n : Pid), (procs n).prio < 2147483648 → fits_int procs q →
      ∃ p, get_largest_prio_loop procs q ((procs n).prio : Int) (some n) = some p ∧
        (procs n).prio ≤ (procs p).prio ∧
        (∀ x ∈ q, (procs x).prio ≤ (procs p).prio) ∧
        ((p = n ∧ ¬ ∃ x ∈ q, (procs n).prio < (procs x).prio) ∨
         (∃ pre post, q = pre ++ p :: post ∧ (procs n).prio < (procs p).prio ∧
            ∀ x ∈ pre, (procs x).prio < (procs p).prio)) := by
  intro q
  induction q with
  | nil =>
    intro n _ _
    exact ⟨n, rfl, le_refl _, by simp, Or.inl ⟨rfl, by simp⟩⟩
  | cons a rest ih =>
    intro n hn hfit
    have ha : (procs a).prio < 2147483648 := hfit a (List.mem_cons_self _ _)
    have hrest : fits_int procs rest := fun x hx => hfit x (List.mem_cons_of_mem _ hx)
    have hmod : (procs a).prio % 4294967296 = (procs a).prio := Nat.mod_eq_of_lt (by omega)
    have hneg : ¬ (((procs n).prio : Int) < 0) := by omega
    by_cases hgt : ((procs a).prio : Int) > ((procs n).prio : Int)
    · obtain ⟨p, hp, hle, hall, hpos⟩ := ih a ha hrest
      have hna : (procs n).prio < (procs a).prio := by omega
      refine ⟨p, ?_, by omega, ?_, Or.inr ?_⟩
      · simp only [get_largest_prio_loop, hneg, hmod, hgt, if_true, if_false,
          int_of_unsigned_of_lt _ ha]
        exact hp
      · intro x hx
        rcases List.mem_cons.mp hx with rfl | hx
        · exact hle
        · exact hall x hx
      · rcases hpos with ⟨rfl, _⟩ | ⟨pre, post, hq, hlt, hpre⟩
        · exact ⟨[], rest, rfl, hna, by simp⟩
        · refine ⟨a :: pre, post, by simp [hq], by omega, ?_⟩
          intro x hx
          rcases List.mem_cons.mp hx with rfl | hx
          · exact hlt
          · exact hpre x hx
    · obtain ⟨p, hp, hle, hall, hpos⟩ := ih n hn hrest
      have han : (procs a).prio ≤ (procs n).prio := by omega
      refine ⟨p, ?_, hle, ?_, ?_⟩
      · simp only [get_largest_prio_loop, hneg, hmod, hgt, if_false]
        exact hp
      · intro x hx
        rcases List.mem_cons.mp hx with rfl | hx
        · omega
        · exact hall x hx
      · rcases hpos with ⟨rfl, hno⟩ | ⟨pre, post, hq, hlt, hpre⟩
        · refine Or.inl ⟨rfl, ?_⟩
          rintro ⟨x, hx, hxlt⟩
          rcases List.mem_cons.mp hx with rfl | hx
          · omega
          · exact hno ⟨x, hx, hxlt⟩
        · refine Or.inr ⟨a :: pre, post, by simp [hq], hlt, ?_⟩
          intro x hx
          rcases List.mem_cons.mp hx with rfl | hx
          · omega
          · exact hpre x hx

theorem get_largest_prio_cons (procs : Pid → process) (a : Pid) (rest : List Pid)
    (hfit : fits_int procs (a :: rest)) :
    ∃ pre p post, get_largest_prio procs (a :: rest) = some p ∧
      first_max (fun x => (procs x).prio) (a :: rest) pre p post := by
  have ha : (procs a).prio < 2147483648 := hfit a (List.mem_cons_self _ _)
  obtain ⟨p, hp, hle, hall, hpos⟩ := get_largest_prio_loop_spec procs rest a ha
    (fun x hx => hfit x (List.mem_cons_of_mem _ hx))
  have hrun : get_largest_prio procs (a :: rest) = some p := by
    simp only [get_largest_prio, get_largest_prio_loop, int_of_unsigned_of_lt _ ha]
    simpa using hp
  rcases hpos with ⟨rfl, _⟩ | ⟨pre, post, hq, hlt, hpre⟩
  · refine ⟨[], p, rest, hrun, rfl, ?_, by simp⟩
    intro x hx
    rcases List.mem_cons.mp hx with rfl | hx
    · exact le_refl _
    · exact hall x hx
  · refine ⟨a :: pre, p, post, hrun, by simp [hq], ?_, ?_⟩
    · intro x hx
      rcases List.mem_cons.mp hx with rfl | hx
      · exact hle
      · exact hall x hx
    · intro x hx
      rcases List.mem_cons.mp hx with rfl | hx
      · exact hlt
      · exact hpre x hx

theorem first_max_erase (key : Pid → Nat) (q pre : List Pid) (p : Pid) (post : List Pid)
    (h : first_max key q pre p post) : q.erase p = pre ++ post := by
  obtain ⟨hq, _, hpre⟩ := h
  have hnot : p ∉ pre := fun hmem => lt_irrefl _ (hpre p hmem)
  rw [hq, List.erase_append_right _ hnot, List.erase_cons_head]

/-- Claim C8: `get_largest_prio` returns none on the empty queue; on a
non-empty queue whose entries have a prio that is a non-negative `int`
(at most `INT_MAX`, the range in which the scan compares them as the
numbers they are) it returns the entry `p` whose prio is at least that of
every entry and strictly greater than that of every entry before `p`.
The function only reads the queue. -/
theorem get_largest_prio_first_max (procs : Pid → process) :
    get_largest_prio procs [] = none ∧
    ∀ (a : Pid) (rest : List Pid), fits_int procs (a :: rest) →
      ∃ pre p post, get_largest_prio procs (a :: rest) = some p ∧
        a :: rest = pre ++ p :: post ∧
        (∀ x ∈ a :: rest, (procs x).prio ≤ (procs p).prio) ∧
        (∀ x ∈ pre, (procs x).prio < (procs p).prio) := by
  refine ⟨rfl, ?_⟩
  intro a rest hfit
  obtain ⟨pre, p, post, hp, hq, hall, hpre⟩ := get_largest_prio_cons procs a rest hfit
  exact ⟨pre, p, post, hp, hq, hall, hpre⟩

/-- Claim C8 on the waitqueue of `three_waiters`: process 1 (prio 2),
process 2 (prio 7), process 3 (prio 7).  The scan passes the head, takes
process 2 and keeps it against the equal prio of process 3. -/
theorem get_largest_prio_first_max_witness :
    fits_int three_waiters.procs [1, 2, 3] ∧
    get_largest_prio three_waiters.procs [1, 2, 3] = some 2 ∧
    ∃ pre p post, get_largest_prio three_waiters.procs [1, 2, 3] = some p ∧
      [1, 2, 3] = pre ++ p :: post ∧
      (∀ x ∈ [1, 2, 3], (three_waiters.procs x).prio ≤ (three_waiters.procs p).prio) ∧
      (∀ x ∈ pre, (three_waiters.procs x).prio < (three_waiters.procs p).prio) :=
  ⟨by decide, by decide,
    (get_largest_prio_first_max three_waiters.procs).2 1 [2, 3] (by decide)⟩

/-! ## Waking a waiter -/

theorem set_owner_resources (s : State) (rid : Nat) (o : Option Pid) (k : Nat) :
    (s.set_owner rid o).resources k =
      if k = rid then { s.resources rid with owner := o } else s.resources k := rfl

theorem wake_up_procs (s1 : State) (rid : Nat) (w x : Pid) :
    (wake_up s1 rid w).procs x =
      if x = w then { s1.procs w with status := PROCESS_READY } else s1.procs x := by
  simp [wake_up, State.waitqueue_del, State.set_status]

theorem wake_up_prio (s1 : State) (rid : Nat) (w x : Pid) :
    ((wake_up s1 rid w).procs x).prio = (s1.procs x).prio := by
  rw [wake_up_procs]
  by_cases h : x = w <;> simp [h]

theorem wake_up_prio_orig (s1 : State) (rid : Nat) (w x : Pid) :
    ((wake_up s1 rid w).procs x).prio_orig = (s1.procs x).prio_orig := by
  rw [wake_up_procs]
  by_cases h : x = w <;> simp [h]

theorem wake_up_status (s1 : State) (rid : Nat) (w : Pid) :
    ((wake_up s1 rid w).procs w).status = PROCESS_READY := by
  rw [wake_up_procs]
  simp

theorem wake_up_readyqueue (s1 : State) (rid : Nat) (w : Pid) :
    (wake_up s1 rid w).readyqueue = s1.readyqueue ++ [w] := by
  simp [wake_up, State.waitqueue_del, State.set_status]

theorem wake_up_current (s1 : State) (rid : Nat) (w : Pid) :
    (wake_up s1 rid w).current = s1.current := by
  simp [wake_up, State.waitqueue_del, State.set_status]

theorem wake_up_owner (s1 : State) (rid : Nat) (w : Pid) (k : Nat) :
    ((wake_up s1 rid w).resources k).owner = (s1.resources k).owner := by
  by_cases hk : k = rid <;> simp [wake_up, State.waitqueue_del, State.set_status, hk]

theorem wake_up_waitqueue (s1 : State) (rid : Nat) (w : Pid) :
    ((wake_up s1 rid w).resources rid).waitqueue = (s1.resources rid).waitqueue.erase w := by
  simp [wake_up, State.waitqueue_del, State.set_status]

theorem wake_up_waitqueue_other (s1 : State) (rid : Nat) (w : Pid) (k : Nat) (hk : k ≠ rid) :
    (wake_up s1 rid w).resources k = s1.resources k := by
  simp [wake_up, State.waitqueue_del, State.set_status, hk]

theorem set_owner_waitqueue (s : State) (rid : Nat) (o : Option Pid) (k : Nat) :
    ((s.set_owner rid o).resources k).waitqueue = (s.resources k).waitqueue := by
  by_cases hk : k = rid <;> simp [State.set_owner, hk]

theorem set_owner_owner (s : State) (rid : Nat) (o : Option Pid) :
    ((s.set_owner rid o).resources rid).owner = o := by
  simp [State.set_owner]

theorem set_owner_procs (s : State) (rid : Nat) (o : Option Pid) :
    (s.set_owner rid o).procs = s.procs := rfl

theorem set_owner_readyqueue (s : State) (rid : Nat) (o : Option Pid) :
    (s.set_owner rid o).readyqueue = s.readyqueue := rfl

/-! ## C2: `fcfs_release` -/

theorem fcfs_release_contract_of_owner (s : State) (c : Pid) (rid : Nat)
    (hc : s.current = some c) (ho : (s.resources rid).owner = some c)
    (hw : ∀ w, first_entry (s.resources rid).waitqueue = some w →
      (s.procs w).status = PROCESS_WAIT) :
    fcfs_release_contract s rid := by
  have hown : ¬ ((s.resources rid).owner ≠ s.current) := by simp [ho, hc]
  unfold fcfs_release_contract fcfs_release
  simp only [hown, if_false]
  cases hq : (s.resources rid).waitqueue with
  | nil =>
    have h1 : ((s.set_owner rid none).resources rid).waitqueue = [] := by
      simp [State.set_owner, hq]
    simp only [h1]
    refine ⟨_, rfl, by simp [State.set_owner], ?_, ?_, ?_⟩
    · intro _
      refine ⟨rfl, rfl, rfl, h1, ?_⟩
      intro k hk
      simp [State.set_owner, hk]
    · intro w rest h
      cases h
    · intro pre a mid b post h
      simp at h
  | cons w rest =>
    have h1 : ((s.set_owner rid none).resources rid).waitqueue = w :: rest := by
      simp [State.set_owner, hq]
    have hst : ¬ (((s.set_owner rid none).procs w).status ≠ PROCESS_WAIT) := by
      have := hw w (by simp [first_entry, hq])
      simpa [State.set_owner] using this
    simp only [h1, hst, if_false]
    have hwq : ((wake_up (s.set_owner rid none) rid w).resources rid).waitqueue = rest := by
      rw [wake_up_waitqueue, h1, List.erase_cons_head]
    have hrq : (wake_up (s.set_owner rid none) rid w).readyqueue = s.readyqueue ++ [w] := by
      rw [wake_up_readyqueue]
      rfl
    refine ⟨_, rfl, ?_, ?_, ?_, ?_⟩
    · rw [wake_up_owner]
      simp [State.set_owner]
    · intro h
      cases h
    · intro w' rest' h
      obtain ⟨rfl, rfl⟩ := List.cons.inj h
      refine ⟨hwq, wake_up_status _ _ _, hrq, ?_⟩
      intro p hp
      rw [wake_up_procs]
      simp [hp, State.set_owner]
    · intro pre a mid b post h
      cases pre with
      | nil =>
        simp only [List.nil_append] at h
        obtain ⟨rfl, rfl⟩ := List.cons.inj h
        exact Or.inl ⟨rfl, hrq, hwq⟩
      | cons w' pre' =>
        simp only [List.cons_append] at h
        obtain ⟨rfl, rfl⟩ := List.cons.inj h
        exact Or.inr ⟨_, _, rfl, hrq, hwq⟩

/-- What a call of `fcfs_acquire` that returns does to the waitqueue of
`rid`: nothing, or one process is appended at the tail. -/
theorem fcfs_acquire_waitqueue (s s2 : State) (k rid : Nat) (b : Bool)
    (h : fcfs_acquire s k = .ok (b, s2)) :
    ∃ ext, (s2.resources rid).waitqueue = (s.resources rid).waitqueue ++ ext := by
  unfold fcfs_acquire at h
  cases ho : (s.resources k).owner with
  | none =>
    simp only [ho] at h
    cases h
    exact ⟨[], by rw [set_owner_waitqueue, List.append_nil]⟩
  | some o =>
    simp only [ho] at h
    cases hc : s.current with
    | none => simp [hc] at h
    | some c =>
      simp only [hc] at h
      cases h
      by_cases hk : rid = k
      · subst hk
        exact ⟨[c], by simp [State.waitqueue_add_tail, State.set_status, State.write]⟩
      · exact ⟨[], by simp [State.waitqueue_add_tail, State.set_status, State.write, hk]⟩

/-- What a call of `fcfs_release` on `rid` that returns does to the
waitqueue of `rid` and to the ready queue: nothing when the waitqueue is
empty, and otherwise the head of the waitqueue moves to the tail of the
ready queue. -/
theorem fcfs_release_pops (s s2 : State) (rid : Nat) (h : fcfs_release s rid = .ok s2) :
    ((s.resources rid).waitqueue = [] ∧ (s2.resources rid).waitqueue = [] ∧
      s2.readyqueue = s.readyqueue) ∨
    (∃ w rest, (s.resources rid).waitqueue = w :: rest ∧
      (s2.resources rid).waitqueue = rest ∧ s2.readyqueue = s.readyqueue ++ [w]) := by
  unfold fcfs_release at h
  by_cases hown : (s.resources rid).owner ≠ s.current
  · simp [hown] at h
  · simp only [hown, if_false] at h
    cases hq : (s.resources rid).waitqueue with
    | nil =>
      have h1 : ((s.set_owner rid none).resources rid).waitqueue = [] := by
        rw [set_owner_waitqueue, hq]
      simp only [h1] at h
      cases h
      exact Or.inl ⟨rfl, h1, rfl⟩
    | cons w rest =>
      have h1 : ((s.set_owner rid none).resources rid).waitqueue = w :: rest := by
        rw [set_owner_waitqueue, hq]
      simp only [h1] at h
      by_cases hst : ((s.set_owner rid none).procs w).status ≠ PROCESS_WAIT
      · simp [hst] at h
      · simp only [hst, if_false] at h
        cases h
        refine Or.inr ⟨w, rest, rfl, ?_, ?_⟩
        · rw [wake_up_waitqueue, h1, List.erase_cons_head]
        · rw [wake_up_readyqueue]
          rfl

/-- A call of `fcfs_release` on another resource leaves the waitqueue of
`rid` alone. -/
theorem fcfs_release_waitqueue_other (s s2 : State) (k rid : Nat) (hk : k ≠ rid)
    (h : fcfs_release s k = .ok s2) :
    (s2.resources rid).waitqueue = (s.resources rid).waitqueue := by
  have hk' : rid ≠ k := fun e => hk e.symm
  unfold fcfs_release at h
  by_cases hown : (s.resources k).owner ≠ s.current
  · simp [hown] at h
  · simp only [hown, if_false] at h
    cases hq : ((s.set_owner k none).resources k).waitqueue with
    | nil =>
      simp only [hq] at h
      cases h
      rw [set_owner_waitqueue]
    | cons w rest =>
      simp only [hq] at h
      by_cases hst : ((s.set_owner k none).procs w).status ≠ PROCESS_WAIT
      · simp [hst] at h
      · simp only [hst, if_false] at h
        cases h
        rw [wake_up_waitqueue_other _ _ _ _ hk', set_owner_waitqueue]

theorem woken_before_append_of_ne (log : List Pid) (a b x : Pid) (hx : x ≠ b)
    (h : woken_before log a b) : woken_before (log ++ [x]) a b := by
  intro l1 l2 heq
  rcases List.eq_nil_or_concat l2 with rfl | ⟨l2', y, rfl⟩
  · have h1 : log ++ [x] = (l1 ++ []) ++ [b] := by simpa using heq
    have h2 := List.append_inj_right' h1 rfl
    simp only [List.cons.injEq, and_true] at h2
    exact absurd h2 hx
  · rw [List.concat_eq_append] at heq
    have h1 : log ++ [x] = (l1 ++ b :: l2') ++ [y] := by simpa using heq
    have h2 := List.append_inj_left' h1 rfl
    exact h l1 l2' h2

theorem woken_before_append_of_mem (log : List Pid) (a b x : Pid) (ha : a ∈ log)
    (h : woken_before log a b) : woken_before (log ++ [x]) a b := by
  intro l1 l2 heq
  rcases List.eq_nil_or_concat l2 with rfl | ⟨l2', y, rfl⟩
  · have h1 : log ++ [x] = l1 ++ [b] := by simpa using heq
    have h2 := List.append_inj_left' h1 rfl
    rw [← h2]
    exact ha
  · rw [List.concat_eq_append] at heq
    have h1 : log ++ [x] = (l1 ++ b :: l2') ++ [y] := by simpa using heq
    have h2 := List.append_inj_left' h1 rfl
    exact h l1 l2' h2

/-- The invariant behind FIFO fairness: along a run from a state in which
`a` waits for `rid` with `b` not ahead of it, `b` is never woken by a
release of `rid` unless `a` was woken before, and as long as `a` has not
been woken it is still waiting with `b` not ahead of it. -/
theorem fcfs_run_invariant (rid : Nat) (s : State) (a b : Pid) (pre tail : List Pid)
    (hq : (s.resources rid).waitqueue = pre ++ a :: tail) (hb : b ∉ pre) (hab : a ≠ b) :
    ∀ log s1, FcfsRun rid s log s1 →
      woken_before log a b ∧
      (a ∈ log ∨ ∃ pre1 tail1,
        (s1.resources rid).waitqueue = pre1 ++ a :: tail1 ∧ b ∉ pre1) := by
  intro log s1 hrun
  induction hrun with
  | start =>
    refine ⟨?_, Or.inr ⟨pre, tail, hq, hb⟩⟩
    intro l1 l2 h
    simp at h
  | acquire log s1 s2 k bb _ hacq ih =>
    obtain ⟨hwb, hpos⟩ := ih
    refine ⟨hwb, ?_⟩
    rcases hpos with ha | ⟨pre1, tail1, hq1, hb1⟩
    · exact Or.inl ha
    · obtain ⟨ext, hext⟩ := fcfs_acquire_waitqueue s1 s2 k rid bb hacq
      exact Or.inr ⟨pre1, tail1 ++ ext, by rw [hext, hq1]; simp, hb1⟩
  | release log s1 s2 k _ hrel ih =>
    obtain ⟨hwb, hpos⟩ := ih
    by_cases hk : k = rid
    · subst hk
      simp only [if_true]
      rcases fcfs_release_pops s1 s2 k hrel with ⟨hq0, hq2, hrq⟩ | ⟨w, rest, hq1, hq2, hrq⟩
      · have hdrop : s2.readyqueue.drop s1.readyqueue.length = [] := by
          rw [hrq]
          simp
        rw [hdrop, List.append_nil]
        refine ⟨hwb, ?_⟩
        rcases hpos with ha | ⟨pre1, tail1, hq1, _⟩
        · exact Or.inl ha
        · rw [hq0] at hq1
          simp at hq1
      · have hdrop : s2.readyqueue.drop s1.readyqueue.length = [w] := by
          rw [hrq]
          simp
        rw [hdrop]
        rcases hpos with ha | ⟨pre1, tail1, hq1', hb1⟩
        · exact ⟨woken_before_append_of_mem log a b w ha hwb,
            Or.inl (List.mem_append_left _ ha)⟩
        · rw [hq1] at hq1'
          cases pre1 with
          | nil =>
            simp only [List.nil_append] at hq1'
            obtain ⟨rfl, rfl⟩ := List.cons.inj hq1'
            exact ⟨woken_before_append_of_ne log w b w hab hwb,
              Or.inl (List.mem_append_right _ (List.mem_singleton_self _))⟩
          | cons x pre2 =>
            simp only [List.cons_append] at hq1'
            obtain ⟨rfl, rfl⟩ := List.cons.inj hq1'
            have hwx : w ≠ b := fun e => hb1 (e ▸ List.mem_cons_self _ _)
            refine ⟨woken_before_append_of_ne log a b w hwx hwb,
              Or.inr ⟨pre2, tail1, hq2, ?_⟩⟩
            exact fun hmem => hb1 (List.mem_cons_of_mem _ hmem)
    · simp only [hk, if_false]
      refine ⟨hwb, ?_⟩
      rcases hpos with ha | ⟨pre1, tail1, hq1, hb1⟩
      · exact Or.inl ha
      · exact Or.inr ⟨pre1, tail1,
          by rw [fcfs_release_waitqueue_other s1 s2 k rid hk hrel, hq1], hb1⟩
  | other log s1 s2 _ hres ih =>
    obtain ⟨hwb, hpos⟩ := ih
    refine ⟨hwb, ?_⟩
    rcases hpos with ha | ⟨pre1, tail1, hq1, hb1⟩
    · exact Or.inl ha
    · exact Or.inr ⟨pre1, tail1, by rw [hres, hq1], hb1⟩

/-- Claim C2 (amended): when the current process owns the resource and
the head waiter, if there is one, has status WAITING, `fcfs_release`
returns with the owner cleared; an empty waitqueue leaves everything else
unchanged; otherwise exactly the head waiter leaves the waitqueue, becomes
READY and goes to the tail of the ready queue, the other waiters keeping
their order.  Consequently, over any run of acquires and releases that
return, with schedule steps in between: if `a` waits for the resource and
`b` is not ahead of it in the waitqueue (`b` blocked later, or has yet to
block), every release that wakes `b` comes after a release that woke
`a`. -/
theorem fcfs_release_wakes_head (s : State) (c : Pid) (rid : Nat)
    (hc : s.current = some c) (ho : (s.resources rid).owner = some c)
    (hw : ∀ w, first_entry (s.resources rid).waitqueue = some w →
      (s.procs w).status = PROCESS_WAIT) :
    fcfs_release_contract s rid ∧
    ∀ a b pre tail, (s.resources rid).waitqueue = pre ++ a :: tail → b ∉ pre → a ≠ b →
      ∀ log s1, FcfsRun rid s log s1 → woken_before log a b :=
  ⟨fcfs_release_contract_of_owner s c rid hc ho hw,
    fun a b pre tail hq hb hab log s1 hrun =>
      (fcfs_run_invariant rid s a b pre tail hq hb hab log s1 hrun).1⟩

/-- The state `three_waiters` after process 0 has released resource 0
under the FCFS lock: process 1, the head waiter, is READY at the tail of
the ready queue. -/
theorem three_waiters_first_release :
    fcfs_release three_waiters 0 = .ok (wake_up (three_waiters.set_owner 0 none) 0 1) := rfl

/-- A run from `three_waiters` under the FCFS lock: process 0 releases
resource 0, acquires it again and releases it again.  The two releases
wake process 1 and then process 2. -/
theorem three_waiters_run :
    ∃ s1, FcfsRun 0 three_waiters [1, 2] s1 ∧
      (s1.resources 0).waitqueue = [3] ∧ s1.readyqueue = [4, 1, 2] := by
  have h1 := three_waiters_first_release
  have h2 : fcfs_acquire (wake_up (three_waiters.set_owner 0 none) 0 1) 0 =
      .ok (true, (wake_up (three_waiters.set_owner 0 none) 0 1).set_owner 0 (some 0)) := rfl
  have h3 : fcfs_release
      ((wake_up (three_waiters.set_owner 0 none) 0 1).set_owner 0 (some 0)) 0 =
      .ok (wake_up (((wake_up (three_waiters.set_owner 0 none) 0 1).set_owner 0
        (some 0)).set_owner 0 none) 0 2) := rfl
  have r1 : FcfsRun 0 three_waiters [1] (wake_up (three_waiters.set_owner 0 none) 0 1) :=
    FcfsRun.release [] _ _ 0 FcfsRun.start h1
  have r2 := FcfsRun.acquire [1] _ _ 0 true r1 h2
  have r3 : FcfsRun 0 three_waiters [1, 2] _ := FcfsRun.release [1] _ _ 0 r2 h3
  exact ⟨_, r3, by decide, by decide⟩

/-- Witness for C2: in `three_waiters` process 0 owns resource 0, for
which processes 1, 2 and 3 wait in this order, and process 4 is in the
ready queue.  The release wakes process 1, the head: the waitqueue becomes
`[2, 3]` and the ready queue `[4, 1]`; and in the run with two releases,
which wakes processes 1 and 2 in this order, the release that wakes
process 2 comes after the one that woke process 1. -/
theorem fcfs_release_wakes_head_witness :
    three_waiters.current = some 0 ∧ (three_waiters.resources 0).owner = some 0 ∧
    (∀ w, first_entry (three_waiters.resources 0).waitqueue = some w →
      (three_waiters.procs w).status = PROCESS_WAIT) ∧
    fcfs_release_contract three_waiters 0 ∧
    ((result_or (fcfs_release three_waiters 0) three_waiters).resources 0).waitqueue = [2, 3] ∧
    (result_or (fcfs_release three_waiters 0) three_waiters).readyqueue = [4, 1] ∧
    (∃ s1, FcfsRun 0 three_waiters [1, 2] s1) ∧
    woken_before [1, 2] 1 2 :=
  have hw : ∀ w, first_entry (three_waiters.resources 0).waitqueue = some w →
      (three_waiters.procs w).status = PROCESS_WAIT := by
    intro w h
    have h1 : w = 1 := by
      simpa [first_entry, three_waiters] using h.symm
    subst h1
    rfl
  ⟨rfl, rfl, hw, (fcfs_release_wakes_head three_waiters 0 0 rfl rfl hw).1,
    by decide, by decide,
    three_waiters_run.imp (fun _ h => h.1),
    three_waiters_run.elim (fun s1 h =>
      (fcfs_release_wakes_head three_waiters 0 0 rfl rfl hw).2 1 2 [] [2, 3] rfl
        (by decide) (by decide) [1, 2] s1 h.1)⟩

/-- Counterexample to C2 as stated: in `waiter_not_waiting` the current
process owns resource 0, but the head waiter is READY, so `fcfs_release`
stops at its second assert and wakes nobody. -/
theorem fcfs_release_head_not_waiting :
    waiter_not_waiting.current = some 0 ∧
    (waiter_not_waiting.resources 0).owner = some 0 ∧
    ¬ fcfs_release_contract waiter_not_waiting 0 := by
  refine ⟨rfl, rfl, ?_⟩
  rintro ⟨s', h, _⟩
  have hrun : fcfs_release waiter_not_waiting 0 =
      .error (.assertion (waiter_not_waiting.set_owner 0 none)) := rfl
  rw [hrun] at h
  cases h

/-! ## The priority-based releases -/

theorem wake_largest_prio_nil (s1 : State) (rid : Nat)
    (hq : (s1.resources rid).waitqueue = []) : wake_largest_prio s1 rid = .ok s1 := by
  simp [wake_largest_prio, hq]

theorem wake_largest_prio_cons (s1 : State) (rid : Nat) (a : Pid) (rest : List Pid)
    (hq : (s1.resources rid).waitqueue = a :: rest) :
    ∃ w, prio_selected s1 rid = some w ∧ w ∈ (s1.resources rid).waitqueue ∧
      wake_largest_prio s1 rid =
        if (s1.procs w).status = PROCESS_WAIT then .ok (wake_up s1 rid w)
        else .error (.assertion s1) := by
  obtain ⟨w, hsel, hmem⟩ := get_largest_prio_cons_mem s1.procs a rest
  refine ⟨w, by simp [prio_selected, hq, hsel], by rw [hq]; exact hmem, ?_⟩
  unfold wake_largest_prio
  simp only [hq, hsel]
  by_cases hst : (s1.procs w).status = PROCESS_WAIT <;> simp [hst]

/-- On a non-empty waitqueue whose entries have a prio that is a
non-negative `int`, the selected waiter is the earliest one of greatest
prio. -/
theorem prio_selected_first_max (s : State) (rid : Nat)
    (hne : (s.resources rid).waitqueue ≠ [])
    (hfit : fits_int s.procs (s.resources rid).waitqueue) :
    ∃ pre w post, prio_selected s rid = some w ∧
      first_max (fun x => (s.procs x).prio) (s.resources rid).waitqueue pre w post := by
  cases hq : (s.resources rid).waitqueue with
  | nil => exact absurd hq hne
  | cons a rest =>
    rw [hq] at hfit
    obtain ⟨pre, w, post, hsel, hfm⟩ := get_largest_prio_cons s.procs a rest hfit
    exact ⟨pre, w, post, by simp [prio_selected, hq, hsel], hfm⟩

theorem prio_release_owner (s : State) (c : Pid) (rid : Nat)
    (hc : s.current = some c) (ho : (s.resources rid).owner = some c) :
    prio_release s rid = wake_largest_prio (s.set_owner rid none) rid := by
  simp [prio_release, hc, ho]

theorem pcp_release_owner (s : State) (c : Pid) (rid : Nat)
    (hc : s.current = some c) (ho : (s.resources rid).owner = some c) :
    pcp_release s rid = wake_largest_prio ((restored s c).set_owner rid none) rid := by
  simp [pcp_release, hc, ho, restored]

theorem pip_release_eq_pcp_release : pip_release = pcp_release := rfl

theorem prio_release_stranger (s : State) (c : Pid) (rid : Nat)
    (hc : s.current = some c) (ho : (s.resources rid).owner ≠ some c) :
    prio_release s rid = .error (.assertion s) := by
  simp [prio_release, hc, ho]

theorem pcp_release_stranger (s : State) (c : Pid) (rid : Nat)
    (hc : s.current = some c) (ho : (s.resources rid).owner ≠ some c) :
    pcp_release s rid = .error (.assertion s) := by
  simp [pcp_release, hc, ho]

theorem fcfs_release_stranger (s : State) (c : Pid) (rid : Nat)
    (hc : s.current = some c) (ho : (s.resources rid).owner ≠ some c) :
    fcfs_release s rid = .error (.assertion s) := by
  simp [fcfs_release, hc, ho]

theorem prio_selected_set_owner (s : State) (rid : Nat) (o : Option Pid) :
    prio_selected (s.set_owner rid o) rid = prio_selected s rid := by
  simp [prio_selected, set_owner_waitqueue, set_owner_procs]

theorem restored_status (s : State) (c x : Pid) :
    ((restored s c).procs x).status = (s.procs x).status := by
  by_cases h : x = c <;> simp [restored, State.set_prio, h]

theorem restored_prio_other (s : State) (c x : Pid) (h : x ≠ c) :
    ((restored s c).procs x).prio = (s.procs x).prio := by
  simp [restored, State.set_prio, h]

theorem restored_prio_self (s : State) (c : Pid) :
    ((restored s c).procs c).prio = (s.procs c).prio_orig := by
  simp [restored, State.set_prio]

theorem restored_prio_orig (s : State) (c x : Pid) :
    ((restored s c).procs x).prio_orig = (s.procs x).prio_orig := by
  by_cases h : x = c <;> simp [restored, State.set_prio, h]

theorem restored_resources (s : State) (c : Pid) :
    (restored s c).resources = s.resources := rfl

theorem restored_readyqueue (s : State) (c : Pid) :
    (restored s c).readyqueue = s.readyqueue := rfl

/-- What `wake_largest_prio` does on a non-empty waitqueue whose selected
waiter is WAITING, after the owner of `rid` is cleared in `s0`. -/
theorem wake_largest_prio_wakes (s0 : State) (rid : Nat)
    (hne : (s0.resources rid).waitqueue ≠ [])
    (hw : ∀ w, prio_selected s0 rid = some w → (s0.procs w).status = PROCESS_WAIT) :
    ∃ w, prio_selected s0 rid = some w ∧ w ∈ (s0.resources rid).waitqueue ∧
      wake_largest_prio (s0.set_owner rid none) rid =
        .ok (wake_up (s0.set_owner rid none) rid w) := by
  cases hq : (s0.resources rid).waitqueue with
  | nil => exact absurd hq hne
  | cons a rest =>
    have hq1 : ((s0.set_owner rid none).resources rid).waitqueue = a :: rest := by
      rw [set_owner_waitqueue, hq]
    obtain ⟨w, hsel, hmem, hrun⟩ := wake_largest_prio_cons _ rid a rest hq1
    rw [prio_selected_set_owner] at hsel
    have hst : ((s0.set_owner rid none).procs w).status = PROCESS_WAIT := hw w hsel
    rw [if_pos hst] at hrun
    rw [hq1] at hmem
    exact ⟨w, hsel, hmem, hrun⟩

theorem wakes_first_max_of (release : State → Nat → Except Failure State)
    (s s0 : State) (c : Pid) (rid : Nat)
    (hrel : release s rid = wake_largest_prio (s0.set_owner rid none) rid)
    (hres : s0.resources = s.resources) (hrq : s0.readyqueue = s.readyqueue)
    (hprio : ∀ x, x ≠ c → (s0.procs x).prio = (s.procs x).prio)
    (hne : (s.resources rid).waitqueue ≠ [])
    (hw : ∀ w, prio_selected s0 rid = some w → (s0.procs w).status = PROCESS_WAIT)
    (hfit : fits_int s0.procs (s.resources rid).waitqueue) :
    wakes_first_max release s c rid := by
  have hne0 : (s0.resources rid).waitqueue ≠ [] := by rw [hres]; exact hne
  obtain ⟨w, hsel, _, hrun⟩ := wake_largest_prio_wakes s0 rid hne0 hw
  obtain ⟨pre, w', post, hsel', hfm⟩ :=
    prio_selected_first_max s0 rid hne0 (by rw [hres]; exact hfit)
  rw [hsel] at hsel'
  cases hsel'
  have hkey : (fun x => ((wake_up (s0.set_owner rid none) rid w).procs x).prio) =
      (fun x => (s0.procs x).prio) := by
    funext x
    rw [wake_up_prio, set_owner_procs]
  refine ⟨_, pre, w, post, hrel.trans hrun, ?_, ?_, ?_, wake_up_status _ _ _, ?_⟩
  · rw [hkey, ← hres]
    exact hfm
  · rw [wake_up_waitqueue, set_owner_waitqueue]
    exact first_max_erase _ _ _ _ _ hfm
  · rw [wake_up_readyqueue, set_owner_readyqueue, hrq]
  · intro x hx
    rw [wake_up_prio, set_owner_procs]
    exact hprio x hx

/-! ## C3: which waiter the priority-based releases wake -/

/-- Claim C3 (amended): `prio_release`, `pcp_release` and `pip_release`,
called by the owner on a resource with a non-empty waitqueue whose
selected waiter has status WAITING and whose waiters have a prio that is
a non-negative `int` when the call selects, return after waking exactly
one process: the waiter of greatest prio, the earliest such in the
waitqueue; it leaves the waitqueue, becomes READY and goes to the tail of
the ready queue, and the other waiters stay in their order.  No prio
other than the releaser's changes, and `prio_release` changes none. -/
theorem release_wakes_first_max (s : State) (c : Pid) (rid : Nat)
    (hc : s.current = some c) (ho : (s.resources rid).owner = some c)
    (hne : (s.resources rid).waitqueue ≠ []) :
    ((∀ w, prio_selected s rid = some w → (s.procs w).status = PROCESS_WAIT) →
      fits_int s.procs (s.resources rid).waitqueue →
      wakes_first_max prio_release s c rid ∧
      ∀ s', prio_release s rid = .ok s' → ∀ x, (s'.procs x).prio = (s.procs x).prio) ∧
    ((∀ w, prio_selected (restored s c) rid = some w → (s.procs w).status = PROCESS_WAIT) →
      fits_int (restored s c).procs (s.resources rid).waitqueue →
      wakes_first_max pcp_release s c rid ∧ wakes_first_max pip_release s c rid) := by
  constructor
  · intro hw hfit
    have h1 : wakes_first_max prio_release s c rid :=
      wakes_first_max_of prio_release s s c rid (prio_release_owner s c rid hc ho)
        rfl rfl (fun _ _ => rfl) hne hw hfit
    refine ⟨h1, ?_⟩
    intro s' hs' x
    obtain ⟨w, _, _, hrun⟩ := wake_largest_prio_wakes s rid hne hw
    rw [prio_release_owner s c rid hc ho, hrun] at hs'
    cases hs'
    rw [wake_up_prio, set_owner_procs]
  · intro hw hfit
    have hw0 : ∀ w, prio_selected (restored s c) rid = some w →
        ((restored s c).procs w).status = PROCESS_WAIT := by
      intro w h
      rw [restored_status]
      exact hw w h
    have h1 : wakes_first_max pcp_release s c rid :=
      wakes_first_max_of pcp_release s (restored s c) c rid
        (pcp_release_owner s c rid hc ho) rfl rfl
        (fun x hx => restored_prio_other s c x hx) hne hw0 hfit
    exact ⟨h1, pip_release_eq_pcp_release ▸ h1⟩

/-- Witness for C3: in `three_waiters` process 0, boosted to prio 64,
releases resource 0, for which process 1 (prio 2), process 2 (prio 7) and
process 3 (prio 7) wait in this order.  Each of the three releases passes
the head, wakes process 2 and leaves process 3, of equal prio but later in
the waitqueue, waiting: the waitqueue becomes `[1, 3]` and the ready queue
`[4, 2]`. -/
theorem release_wakes_first_max_witness :
    three_waiters.current = some 0 ∧ (three_waiters.resources 0).owner = some 0 ∧
    (three_waiters.resources 0).waitqueue ≠ [] ∧
    (∀ w, prio_selected three_waiters 0 = some w →
      (three_waiters.procs w).status = PROCESS_WAIT) ∧
    (∀ w, prio_selected (restored three_waiters 0) 0 = some w →
      (three_waiters.procs w).status = PROCESS_WAIT) ∧
    fits_int three_waiters.procs (three_waiters.resources 0).waitqueue ∧
    fits_int (restored three_waiters 0).procs (three_waiters.resources 0).waitqueue ∧
    (wakes_first_max prio_release three_waiters 0 0 ∧
      ∀ s', prio_release three_waiters 0 = .ok s' →
        ∀ x, (s'.procs x).prio = (three_waiters.procs x).prio) ∧
    (wakes_first_max pcp_release three_waiters 0 0 ∧
      wakes_first_max pip_release three_waiters 0 0) ∧
    prio_selected three_waiters 0 = some 2 ∧
    ((result_or (prio_release three_waiters 0) three_waiters).resources 0).waitqueue
      = [1, 3] ∧
    (result_or (prio_release three_waiters 0) three_waiters).readyqueue = [4, 2] ∧
    ((result_or (pcp_release three_waiters 0) three_waiters).resources 0).waitqueue
      = [1, 3] ∧
    (result_or (pcp_release three_waiters 0) three_waiters).readyqueue = [4, 2] :=
  have hw1 : ∀ w, prio_selected three_waiters 0 = some w →
      (three_waiters.procs w).status = PROCESS_WAIT := by
    intro w h
    have hsel : prio_selected three_waiters 0 = some 2 := by decide
    rw [hsel] at h
    cases h
    rfl
  have hw2 : ∀ w, prio_selected (restored three_waiters 0) 0 = some w →
      (three_waiters.procs w).status = PROCESS_WAIT := by
    intro w h
    have hsel : prio_selected (restored three_waiters 0) 0 = some 2 := by decide
    rw [hsel] at h
    cases h
    rfl
  ⟨rfl, rfl, by decide, hw1, hw2, by decide, by decide,
    (release_wakes_first_max three_waiters 0 0 rfl rfl (by decide)).1 hw1 (by decide),
    (release_wakes_first_max three_waiters 0 0 rfl rfl (by decide)).2 hw2 (by decide),
    by decide, by decide, by decide, by decide, by decide⟩

/-- Counterexample to C3 as stated: in `waiter_not_waiting` the owner
calls on a non-empty waitqueue whose selected waiter is READY; each of the
three releases stops at its second assert and wakes nobody. -/
theorem release_selected_not_waiting :
    waiter_not_waiting.current = some 0 ∧
    (waiter_not_waiting.resources 0).owner = some 0 ∧
    (waiter_not_waiting.resources 0).waitqueue ≠ [] ∧
    ¬ wakes_first_max prio_release waiter_not_waiting 0 0 ∧
    ¬ wakes_first_max pcp_release waiter_not_waiting 0 0 ∧
    ¬ wakes_first_max pip_release waiter_not_waiting 0 0 := by
  refine ⟨rfl, rfl, by decide, ?_, ?_, ?_⟩
  · rintro ⟨s', _, _, _, h, _⟩
    have hrun : prio_release waiter_not_waiting 0 =
        .error (.assertion (waiter_not_waiting.set_owner 0 none)) := rfl
    rw [hrun] at h
    cases h
  · rintro ⟨s', _, _, _, h, _⟩
    have hrun : pcp_release waiter_not_waiting 0 =
        .error (.assertion ((restored waiter_not_waiting 0).set_owner 0 none)) := rfl
    rw [hrun] at h
    cases h
  · rintro ⟨s', _, _, _, h, _⟩
    have hrun : pip_release waiter_not_waiting 0 =
        .error (.assertion ((restored waiter_not_waiting 0).set_owner 0 none)) := rfl
    rw [hrun] at h
    cases h

/-! ## C4: when a release fails -/

theorem wake_largest_prio_fails_iff (s1 : State) (rid : Nat) :
    (fails_fatally (wake_largest_prio s1 rid) ↔
      ∃ w, prio_selected s1 rid = some w ∧ (s1.procs w).status ≠ PROCESS_WAIT) ∧
    wake_largest_prio s1 rid ≠ .error .null_deref := by
  cases hq : (s1.resources rid).waitqueue with
  | nil =>
    rw [wake_largest_prio_nil s1 rid hq]
    refine ⟨⟨?_, ?_⟩, by simp⟩
    · rintro ⟨st, h⟩
      cases h
    · rintro ⟨w, hsel, _⟩
      simp [prio_selected, hq, get_largest_prio, get_largest_prio_loop] at hsel
  | cons a rest =>
    obtain ⟨w, hsel, _, hrun⟩ := wake_largest_prio_cons s1 rid a rest hq
    rw [hrun]
    by_cases hst : (s1.procs w).status = PROCESS_WAIT
    · rw [if_pos hst]
      refine ⟨⟨?_, ?_⟩, by simp⟩
      · rintro ⟨st, h⟩
        cases h
      · rintro ⟨w', hsel', hst'⟩
        rw [hsel] at hsel'
        cases hsel'
        exact absurd hst hst'
    · rw [if_neg hst]
      exact ⟨⟨fun _ => ⟨w, hsel, hst⟩, fun _ => ⟨s1, rfl⟩⟩, by simp⟩

theorem fcfs_release_fails_iff (s : State) (c : Pid) (rid : Nat)
    (hc : s.current = some c) :
    (fails_fatally (fcfs_release s rid) ↔
      (s.resources rid).owner ≠ some c ∨
      ∃ w, first_entry (s.resources rid).waitqueue = some w ∧
        (s.procs w).status ≠ PROCESS_WAIT) ∧
    fcfs_release s rid ≠ .error .null_deref := by
  by_cases ho : (s.resources rid).owner = some c
  · have hown : ¬ ((s.resources rid).owner ≠ s.current) := by simp [ho, hc]
    unfold fcfs_release
    simp only [hown, if_false, set_owner_waitqueue, set_owner_procs]
    cases hq : (s.resources rid).waitqueue with
    | nil =>
      refine ⟨⟨?_, ?_⟩, by simp⟩
      · rintro ⟨st, h⟩
        cases h
      · rintro (h | ⟨w, hw, _⟩)
        · exact absurd ho h
        · simp [first_entry] at hw
    | cons w rest =>
      by_cases hst : (s.procs w).status = PROCESS_WAIT
      · simp only [hst, ne_eq, not_true_eq_false, if_false]
        refine ⟨⟨?_, ?_⟩, by simp⟩
        · rintro ⟨st, h⟩
          cases h
        · rintro (h | ⟨w', hw', hst'⟩)
          · exact absurd ho h
          · simp only [first_entry, List.head?_cons, Option.some.injEq] at hw'
            subst hw'
            exact absurd hst hst'
      · simp only [hst, ne_eq, not_false_eq_true, if_true]
        exact ⟨⟨fun _ => Or.inr ⟨w, by simp [first_entry], hst⟩, fun _ => ⟨_, rfl⟩⟩, by simp⟩
  · rw [fcfs_release_stranger s c rid hc ho]
    exact ⟨⟨fun _ => Or.inl ho, fun _ => ⟨s, rfl⟩⟩, by simp⟩

theorem prio_release_fails_iff (s : State) (c : Pid) (rid : Nat)
    (hc : s.current = some c) :
    (fails_fatally (prio_release s rid) ↔
      (s.resources rid).owner ≠ some c ∨
      ∃ w, prio_selected s rid = some w ∧ (s.procs w).status ≠ PROCESS_WAIT) ∧
    prio_release s rid ≠ .error .null_deref := by
  by_cases ho : (s.resources rid).owner = some c
  · rw [prio_release_owner s c rid hc ho]
    obtain ⟨hiff, hnd⟩ := wake_largest_prio_fails_iff (s.set_owner rid none) rid
    rw [prio_selected_set_owner, set_owner_procs] at hiff
    refine ⟨hiff.trans ⟨Or.inr, ?_⟩, hnd⟩
    rintro (h | h)
    · exact absurd ho h
    · exact h
  · rw [prio_release_stranger s c rid hc ho]
    exact ⟨⟨fun _ => Or.inl ho, fun _ => ⟨s, rfl⟩⟩, by simp⟩

theorem pcp_release_fails_iff (s : State) (c : Pid) (rid : Nat)
    (hc : s.current = some c) :
    (fails_fatally (pcp_release s rid) ↔
      (s.resources rid).owner ≠ some c ∨
      ∃ w, prio_selected (restored s c) rid = some w ∧
        (s.procs w).status ≠ PROCESS_WAIT) ∧
    pcp_release s rid ≠ .error .null_deref := by
  by_cases ho : (s.resources rid).owner = some c
  · rw [pcp_release_owner s c rid hc ho]
    obtain ⟨hiff, hnd⟩ := wake_largest_prio_fails_iff ((restored s c).set_owner rid none) rid
    rw [prio_selected_set_owner, set_owner_procs] at hiff
    simp only [restored_status] at hiff
    refine ⟨hiff.trans ⟨Or.inr, ?_⟩, hnd⟩
    rintro (h | h)
    · exact absurd ho h
    · exact h
  · rw [pcp_release_stranger s c rid hc ho]
    exact ⟨⟨fun _ => Or.inl ho, fun _ => ⟨s, rfl⟩⟩, by simp⟩

/-- Claim C4: with a current process `c`, each of `fcfs_release`,
`prio_release`, `pcp_release` and `pip_release` stops at a failed assert
exactly when the owner of the resource is not `c` (a free resource
included) or the waiter selected for wake-up has a status other than
WAITING; it never stops in another way; and a release by a non-owner
stops with the state untouched: no owner cleared, no priority changed, no
waiter woken. -/
theorem release_fails_iff_not_owner_or_bad_waiter (s : State) (c : Pid) (rid : Nat)
    (hc : s.current = some c) :
    ((fails_fatally (fcfs_release s rid) ↔
        (s.resources rid).owner ≠ some c ∨
        ∃ w, first_entry (s.resources rid).waitqueue = some w ∧
          (s.procs w).status ≠ PROCESS_WAIT) ∧
      fcfs_release s rid ≠ .error .null_deref) ∧
    ((fails_fatally (prio_release s rid) ↔
        (s.resources rid).owner ≠ some c ∨
        ∃ w, prio_selected s rid = some w ∧ (s.procs w).status ≠ PROCESS_WAIT) ∧
      prio_release s rid ≠ .error .null_deref) ∧
    ((fails_fatally (pcp_release s rid) ↔
        (s.resources rid).owner ≠ some c ∨
        ∃ w, prio_selected (restored s c) rid = some w ∧
          (s.procs w).status ≠ PROCESS_WAIT) ∧
      pcp_release s rid ≠ .error .null_deref) ∧
    ((fails_fatally (pip_release s rid) ↔
        (s.resources rid).owner ≠ some c ∨
        ∃ w, prio_selected (restored s c) rid = some w ∧
          (s.procs w).status ≠ PROCESS_WAIT) ∧
      pip_release s rid ≠ .error .null_deref) ∧
    ((s.resources rid).owner ≠ some c →
      fcfs_release s rid = .error (.assertion s) ∧
      prio_release s rid = .error (.assertion s) ∧
      pcp_release s rid = .error (.assertion s) ∧
      pip_release s rid = .error (.assertion s)) :=
  ⟨fcfs_release_fails_iff s c rid hc,
   prio_release_fails_iff s c rid hc,
   pcp_release_fails_iff s c rid hc,
   pip_release_eq_pcp_release ▸ pcp_release_fails_iff s c rid hc,
   fun ho => ⟨fcfs_release_stranger s c rid hc ho, prio_release_stranger s c rid hc ho,
     pcp_release_stranger s c rid hc ho,
     pip_release_eq_pcp_release ▸ pcp_release_stranger s c rid hc ho⟩⟩

/-- Witness for C4: in `waiter_not_waiting` the releases of resource 0
fail because the selected waiter is READY, and a release of resource 1,
which is free, fails with the state untouched. -/
theorem release_fails_iff_not_owner_or_bad_waiter_witness :
    waiter_not_waiting.current = some 0 ∧
    fails_fatally (fcfs_release waiter_not_waiting 0) ∧
    fails_fatally (pcp_release waiter_not_waiting 0) ∧
    fcfs_release waiter_not_waiting 1 = .error (.assertion waiter_not_waiting) :=
  ⟨rfl,
   (release_fails_iff_not_owner_or_bad_waiter waiter_not_waiting 0 0 rfl).1.1.mpr
     (Or.inr ⟨1, rfl, by decide⟩),
   (release_fails_iff_not_owner_or_bad_waiter waiter_not_waiting 0 0 rfl).2.2.1.1.mpr
     (Or.inr ⟨1, rfl, by decide⟩),
   ((release_fails_iff_not_owner_or_bad_waiter waiter_not_waiting 0 1 rfl).2.2.2.2
     (by decide)).1⟩

/-! ## C7: what `pcp_release` and `pip_release` restore -/

/-- Claim C7 (amended): `pcp_release` and `pip_release`, called by the
owner `c` of the resource in a state where the waiter selected for
wake-up, if any, has status WAITING and is not `c` itself, return with
the prio of `c` equal to its prio_orig and the resource free, and leave
the prio of the woken waiter as it was. -/
theorem release_restores_prio_orig (s : State) (c : Pid) (rid : Nat)
    (hc : s.current = some c) (ho : (s.resources rid).owner = some c)
    (hw : ∀ w, prio_selected (restored s c) rid = some w →
      (s.procs w).status = PROCESS_WAIT ∧ w ≠ c) :
    release_restores pcp_release s c rid ∧ release_restores pip_release s c rid := by
  have hpcp : release_restores pcp_release s c rid := by
    unfold release_restores
    rw [pcp_release_owner s c rid hc ho]
    cases hq : (s.resources rid).waitqueue with
    | nil =>
      have hq1 : (((restored s c).set_owner rid none).resources rid).waitqueue = [] := by
        rw [set_owner_waitqueue, restored_resources, hq]
      rw [wake_largest_prio_nil _ rid hq1]
      refine ⟨_, rfl, ?_, ?_, set_owner_owner _ _ _, ?_⟩
      · rw [set_owner_procs, restored_prio_self, restored_prio_orig]
      · rw [set_owner_procs, restored_prio_orig]
      · rintro w ⟨hmem, _⟩
        rw [hq] at hmem
        cases hmem
    | cons a rest =>
      have hne : ((restored s c).resources rid).waitqueue ≠ [] := by
        rw [restored_resources, hq]
        simp
      have hw0 : ∀ w, prio_selected (restored s c) rid = some w →
          ((restored s c).procs w).status = PROCESS_WAIT := by
        intro w h
        rw [restored_status]
        exact (hw w h).1
      obtain ⟨w, hsel, _, hrun⟩ := wake_largest_prio_wakes (restored s c) rid hne hw0
      rw [hrun]
      refine ⟨_, rfl, ?_, ?_, ?_, ?_⟩
      · rw [wake_up_prio, wake_up_prio_orig, set_owner_procs, restored_prio_self,
          restored_prio_orig]
      · rw [wake_up_prio_orig, set_owner_procs, restored_prio_orig]
      · rw [wake_up_owner]
        exact set_owner_owner _ _ _
      · rintro w1 ⟨_, hrq⟩
        rw [wake_up_readyqueue, set_owner_readyqueue, restored_readyqueue] at hrq
        have hw1 : w = w1 := by simpa using hrq
        subst hw1
        rw [wake_up_prio, set_owner_procs]
        exact restored_prio_other s c w (hw w hsel).2
  exact ⟨hpcp, pip_release_eq_pcp_release ▸ hpcp⟩

/-- Witness for C7: in `three_waiters` the releasing process 0 runs at
prio 64, boosted from its prio_orig 1, and the selected waiter is
process 2 (prio 7), which is WAITING.  After `pcp_release` and after
`pip_release` process 0 has prio 1 again and process 2 still has prio 7;
`prio_release`, which has no restoring statement, leaves process 0 at
prio 64. -/
theorem release_restores_prio_orig_witness :
    three_waiters.current = some 0 ∧ (three_waiters.resources 0).owner = some 0 ∧
    (∀ w, prio_selected (restored three_waiters 0) 0 = some w →
      (three_waiters.procs w).status = PROCESS_WAIT ∧ w ≠ 0) ∧
    (release_restores pcp_release three_waiters 0 0 ∧
      release_restores pip_release three_waiters 0 0) ∧
    (three_waiters.procs 0).prio = 64 ∧
    ((result_or (pcp_release three_waiters 0) three_waiters).procs 0).prio = 1 ∧
    ((result_or (pip_release three_waiters 0) three_waiters).procs 0).prio = 1 ∧
    ((result_or (pcp_release three_waiters 0) three_waiters).procs 2).prio = 7 ∧
    (result_or (pcp_release three_waiters 0) three_waiters).readyqueue = [4, 2] ∧
    ((result_or (prio_release three_waiters 0) three_waiters).procs 0).prio = 64 :=
  have hw : ∀ w, prio_selected (restored three_waiters 0) 0 = some w →
      (three_waiters.procs w).status = PROCESS_WAIT ∧ w ≠ 0 := by
    intro w h
    have hsel : prio_selected (restored three_waiters 0) 0 = some 2 := by decide
    rw [hsel] at h
    cases h
    exact ⟨rfl, by decide⟩
  ⟨rfl, rfl, hw, release_restores_prio_orig three_waiters 0 0 rfl rfl hw,
    by decide, by decide, by decide, by decide, by decide, by decide⟩

/-- Counterexample to C7 as stated, at two states in which the current
process owns resource 0.  In `waiter_not_waiting` the selected waiter is
READY and `pcp_release` stops at its second assert.  In `self_blocked`
the releasing process is itself the waiter that is woken, and its prio
goes from 64 to 1 in the release. -/
theorem release_changes_prio_of_woken_releaser :
    (waiter_not_waiting.current = some 0 ∧
      (waiter_not_waiting.resources 0).owner = some 0 ∧
      ¬ release_restores pcp_release waiter_not_waiting 0 0) ∧
    (self_blocked.current = some 0 ∧
      (self_blocked.resources 0).owner = some 0 ∧
      ¬ release_restores pcp_release self_blocked 0 0) := by
  refine ⟨⟨rfl, rfl, ?_⟩, ⟨rfl, rfl, ?_⟩⟩
  · rintro ⟨s', h, _⟩
    have hrun : pcp_release waiter_not_waiting 0 =
        .error (.assertion ((restored waiter_not_waiting 0).set_owner 0 none)) := rfl
    rw [hrun] at h
    cases h
  · rintro ⟨s', h, _, _, _, hwk⟩
    have hs : s' = result_or (pcp_release self_blocked 0) self_blocked := by
      rw [h]
      rfl
    subst hs
    have hprio := hwk 0 ⟨by decide, by decide⟩
    revert hprio
    decide

/-! ## C5: `pip_acquire` on an owned resource -/

theorem pip_acquire_owner_prio (s : State) (c o : Pid) (rid : Nat)
    (hc : s.current = some c) (ho : (s.resources rid).owner = some o) :
    ∃ s', pip_acquire s rid = .ok (false, s') ∧
      (s'.procs o).prio = (s.procs c).prio_orig := by
  unfold pip_acquire
  simp only [ho, hc]
  refine ⟨_, rfl, ?_⟩
  by_cases h : c = o <;>
    simp [State.waitqueue_add_tail, State.set_status, State.set_prio, h]

/-- Claim C5, evaluated at the failing input: in `pip_nested` the owner
of resource 0 has prio 3 and the requester has prio_orig 1, so the larger
of the two is 3; after the blocking `pip_acquire` the owner's prio is 1. -/
theorem pip_acquire_lowers_owner_prio :
    pip_nested.current = some 0 ∧ (pip_nested.resources 0).owner = some 1 ∧
    max (pip_nested.procs 1).prio (pip_nested.procs 0).prio_orig = 3 ∧
    ∃ s', pip_acquire pip_nested 0 = .ok (false, s') ∧ (s'.procs 1).prio = 1 :=
  ⟨rfl, rfl, by decide, _, rfl, rfl⟩

/-! ## C6: the ceiling under PCP -/

theorem fifo_pick_next_of_cpu_free (s : State) (h : cpu_free s) :
    fifo_schedule s = fifo_pick_next s := by
  unfold fifo_schedule
  unfold cpu_free at h
  cases hc : s.current with
  | none => rfl
  | some c =>
    rw [hc] at h
    simp only
    rcases h with h | h
    · simp [h]
    · have : ¬ (s.procs c).age < (s.procs c).lifespan := by omega
      simp [this]

theorem sjf_pick_next_of_cpu_free (s : State) (h : cpu_free s) :
    sjf_schedule s = sjf_pick_next s := by
  unfold sjf_schedule
  unfold cpu_free at h
  cases hc : s.current with
  | none => rfl
  | some c =>
    rw [hc] at h
    simp only
    rcases h with h | h
    · simp [h]
    · have : ¬ (s.procs c).age < (s.procs c).lifespan := by omega
      simp [this]

/-- Claim C9: when the current process `c` is not WAITING and has
age < lifespan, `fifo_schedule` and `sjf_schedule` return `c` and leave
the state, the ready queue included, as it was, whatever the ready queue
holds; so whenever either call changes the ready queue, the current
process is absent, WAITING or finished. -/
theorem nonpreemptive_keeps_current (s : State) :
    (∀ c, s.current = some c → (s.procs c).status ≠ PROCESS_WAIT →
      (s.procs c).age < (s.procs c).lifespan →
      fifo_schedule s = (some c, s) ∧ sjf_schedule s = (some c, s)) ∧
    ((fifo_schedule s).2.readyqueue ≠ s.readyqueue → cpu_free s) ∧
    ((sjf_schedule s).2.readyqueue ≠ s.readyqueue → cpu_free s) := by
  have keep : ∀ c, s.current = some c → (s.procs c).status ≠ PROCESS_WAIT →
      (s.procs c).age < (s.procs c).lifespan →
      fifo_schedule s = (some c, s) ∧ sjf_schedule s = (some c, s) := by
    intro c hc hst hage
    constructor
    · simp [fifo_schedule, hc, hst, hage]
    · simp [sjf_schedule, hc, hst, hage]
  have free : ¬ cpu_free s → ∃ c, s.current = some c ∧
      (s.procs c).status ≠ PROCESS_WAIT ∧ (s.procs c).age < (s.procs c).lifespan := by
    intro h
    unfold cpu_free at h
    cases hc : s.current with
    | none => simp [hc] at h
    | some c =>
      rw [hc] at h
      simp only [not_or, not_le] at h
      exact ⟨c, rfl, h.1, h.2⟩
  refine ⟨keep, ?_, ?_⟩
  · intro hne
    by_contra hfree
    obtain ⟨c, hc, hst, hage⟩ := free hfree
    rw [(keep c hc hst hage).1] at hne
    exact hne rfl
  · intro hne
    by_contra hfree
    obtain ⟨c, hc, hst, hage⟩ := free hfree
    rw [(keep c hc hst hage).2] at hne
    exact hne rfl

/-- Witness for C9: in `busy` process 0 runs with age 3 of lifespan 10
while shorter jobs wait in the ready queue. -/
theorem nonpreemptive_keeps_current_witness :
    busy.current = some 0 ∧ (busy.procs 0).status ≠ PROCESS_WAIT ∧
    (busy.procs 0).age < (busy.procs 0).lifespan ∧
    fifo_schedule busy = (some 0, busy) ∧ sjf_schedule busy = (some 0, busy) :=
  ⟨rfl, by decide, by decide,
    (nonpreemptive_keeps_current busy).1 0 rfl (by decide) (by decide)⟩

/-! ## C10: `sjf_schedule` -/

/-- Claim C10, evaluated at the failing input: with no current process
and the ready queue holding processes of lifespan 3, 0 and 7, in this
order, `sjf_schedule` returns the process of lifespan 7 and removes it,
although the least lifespan in the queue is 0. -/
theorem sjf_schedule_zero_lifespan_resets_scan :
    zero_lifespan_ready.current = none ∧
    zero_lifespan_ready.readyqueue = [0, 1, 2] ∧
    (zero_lifespan_ready.procs 0).lifespan = 3 ∧
    (zero_lifespan_ready.procs 1).lifespan = 0 ∧
    (zero_lifespan_ready.procs 2).lifespan = 7 ∧
    (sjf_schedule zero_lifespan_ready).1 = some 2 ∧
    (sjf_schedule zero_lifespan_ready).2.readyqueue = [0, 1] :=
  ⟨rfl, rfl, rfl, rfl, rfl, by decide, by decide⟩

theorem sjf_scan_spec (procs : Pid → process) :
    ∀ (q : List Pid) (n : Pid), 0 < (procs n).lifespan →
      (∀ x ∈ q, 0 < (procs x).lifespan) →
      ∃ p, sjf_scan procs q (procs n).lifespan (some n) = some p ∧
        (procs p).lifespan ≤ (procs n).lifespan ∧
        (∀ x ∈ q, (procs p).lifespan ≤ (procs x).lifespan) ∧
        (p = n ∨
         (∃ pre post, q = pre ++ p :: post ∧ (procs p).lifespan < (procs n).lifespan ∧
            ∀ x ∈ pre, (procs p).lifespan < (procs x).lifespan)) := by
  intro q
  induction q with
  | nil =>
    intro n _ _
    exact ⟨n, rfl, le_refl _, by simp, Or.inl rfl⟩
  | cons a rest ih =>
    intro n hn hq
    have hnz : ¬ ((procs n).lifespan = 0) := by omega
    have hrest : ∀ x ∈ rest, 0 < (procs x).lifespan :=
      fun x hx => hq x (List.mem_cons_of_mem _ hx)
    by_cases hlt : (procs a).lifespan < (procs n).lifespan
    · obtain ⟨p, hp, hle, hall, hpos⟩ := ih a (hq a (List.mem_cons_self _ _)) hrest
      refine ⟨p, ?_, by omega, ?_, Or.inr ?_⟩
      · simp only [sjf_scan, hnz, hlt, if_true, if_false]
        exact hp
      · intro x hx
        rcases List.mem_cons.mp hx with rfl | hx
        · exact hle
        · exact hall x hx
      · rcases hpos with rfl | ⟨pre, post, hq', hlt', hpre⟩
        · exact ⟨[], rest, rfl, hlt, by simp⟩
        · refine ⟨a :: pre, post, by simp [hq'], by omega, ?_⟩
          intro x hx
          rcases List.mem_cons.mp hx with rfl | hx
          · exact hlt'
          · exact hpre x hx
    · obtain ⟨p, hp, hle, hall, hpos⟩ := ih n hn hrest
      refine ⟨p, ?_, hle, ?_, ?_⟩
      · simp only [sjf_scan, hnz, hlt, if_false]
        exact hp
      · intro x hx
        rcases List.mem_cons.mp hx with rfl | hx
        · omega
        · exact hall x hx
      · rcases hpos with rfl | ⟨pre, post, hq', hlt', hpre⟩
        · exact Or.inl rfl
        · refine Or.inr ⟨a :: pre, post, by simp [hq'], hlt', ?_⟩
          intro x hx
          rcases List.mem_cons.mp hx with rfl | hx
          · omega
          · exact hpre x hx

theorem first_min_erase (key : Pid → Nat) (q pre : List Pid) (p : Pid) (post : List Pid)
    (h : first_min key q pre p post) : q.erase p = pre ++ post := by
  obtain ⟨hq, _, hpre⟩ := h
  have hnot : p ∉ pre := fun hmem => lt_irrefl _ (hpre p hmem)
  rw [hq, List.erase_append_right _ hnot, List.erase_cons_head]

/-- What `sjf_schedule` does when no lifespan in the ready queue is 0:
with the current process absent, WAITING or finished and a non-empty
ready queue, it returns the earliest process of least lifespan and removes
exactly that process. -/
theorem sjf_schedule_first_min_of_pos (s : State) (hfree : cpu_free s)
    (hne : s.readyqueue ≠ [])
    (hpos : ∀ x ∈ s.readyqueue, 0 < (s.procs x).lifespan) :
    ∃ pre p post,
      first_min (fun x => (s.procs x).lifespan) s.readyqueue pre p post ∧
      (sjf_schedule s).1 = some p ∧
      (sjf_schedule s).2.readyqueue = pre ++ post := by
  rw [sjf_pick_next_of_cpu_free s hfree]
  cases hq : s.readyqueue with
  | nil => exact absurd hq hne
  | cons a rest =>
    rw [hq] at hpos
    obtain ⟨p, hp, hle, hall, hcase⟩ :=
      sjf_scan_spec s.procs rest a (hpos a (List.mem_cons_self _ _))
        (fun x hx => hpos x (List.mem_cons_of_mem _ hx))
    have hscan : sjf_scan s.procs (a :: rest) 0 none = some p := by
      simp only [sjf_scan, if_true]
      exact hp
    have hfm : ∃ pre post, first_min (fun x => (s.procs x).lifespan) (a :: rest) pre p post := by
      rcases hcase with rfl | ⟨pre, post, hq', hlt, hpre⟩
      · refine ⟨[], rest, rfl, ?_, by simp⟩
        intro x hx
        rcases List.mem_cons.mp hx with rfl | hx
        · exact le_refl _
        · exact hall x hx
      · refine ⟨a :: pre, post, by simp [hq'], ?_, ?_⟩
        · intro x hx
          rcases List.mem_cons.mp hx with rfl | hx
          · exact hle
          · exact hall x hx
        · intro x hx
          rcases List.mem_cons.mp hx with rfl | hx
          · exact hlt
          · exact hpre x hx
    obtain ⟨pre, post, hfm⟩ := hfm
    refine ⟨pre, p, post, hfm, ?_, ?_⟩
    · simp [sjf_pick_next, hq, hscan]
    · simp only [sjf_pick_next, hq, hscan, ready_del_readyqueue]
      exact first_min_erase _ _ _ _ _ hfm

/-- The scan of `sjf_schedule` yields a process on every non-empty
queue, so the `none` branch of `sjf_pick_next` is dead. -/
theorem sjf_scan_cons_isSome (procs : Pid → process) (a : Pid) (rest : List Pid) :
    (sjf_scan procs (a :: rest) 0 none).isSome = true := by
  have h : ∀ (q : List Pid) (m : Nat) (n : Pid),
      (sjf_scan procs q m (some n)).isSome = true := by
    intro q
    induction q with
    | nil => intro m n; rfl
    | cons b q ih =>
      intro m n
      unfold sjf_scan
      split
      · exact ih _ _
      · split
        · exact ih _ _
        · exact ih _ _
  simp only [sjf_scan, if_true]
  exact h _ _ _

/-! ## C11: `srtf_schedule` -/

theorem requeue_current_readyqueue (s : State) :
    (requeue_current s).readyqueue = contenders s := by
  unfold requeue_current contenders runnable_current
  cases hc : s.current with
  | none => simp
  | some c =>
    simp only
    by_cases h : (s.procs c).status ≠ PROCESS_WAIT ∧ (s.procs c).age < (s.procs c).lifespan
    · have h' : (s.procs c).lifespan > (s.procs c).age ∧ (s.procs c).status ≠ PROCESS_WAIT :=
        ⟨h.2, h.1⟩
      rw [if_pos h, if_pos h']
      rfl
    · have h' : ¬ ((s.procs c).lifespan > (s.procs c).age ∧
          (s.procs c).status ≠ PROCESS_WAIT) := fun hh => h ⟨hh.2, hh.1⟩
      rw [if_neg h, if_neg h']
      simp

theorem requeue_current_procs (s : State) : (requeue_current s).procs = s.procs := by
  unfold requeue_current
  cases hc : s.current with
  | none => rfl
  | some c =>
    simp only
    split <;> rfl

theorem requeue_current_resources (s : State) :
    (requeue_current s).resources = s.resources := by
  unfold requeue_current
  cases hc : s.current with
  | none => rfl
  | some c =>
    simp only
    split <;> rfl

theorem requeue_current_current (s : State) :
    (requeue_current s).current = s.current := by
  unfold requeue_current
  split
  · rfl
  · split <;> rfl

theorem usub32_of_le (a b : Nat) (h : b ≤ a) : usub32 a b = a - b := by
  simp [usub32, h]

theorem usub32_eq_mod (a b : Nat) (ha : a < 4294967296) (hb : b < 4294967296) :
    usub32 a b = (a + 4294967296 - b) % 4294967296 := by
  unfold usub32
  split
  · omega
  · rfl

/-- The scan of `srtf_schedule` is the scan of `sjf_schedule` run on the
remaining times. -/
theorem srtf_scan_eq_sjf_scan (procs : Pid → process) :
    ∀ (q : List Pid) (m : Nat) (n : Option Pid),
      srtf_scan procs q m n =
        sjf_scan (fun x => { procs x with lifespan := usub32 (procs x).lifespan (procs x).age })
          q m n := by
  intro q
  induction q with
  | nil => intro m n; rfl
  | cons a rest ih =>
    intro m n
    simp only [srtf_scan, sjf_scan, ih]

theorem sjf_scan_first_min (procs : Pid → process) (a : Pid) (rest : List Pid)
    (hpos : ∀ x ∈ a :: rest, 0 < (procs x).lifespan) :
    ∃ pre p post, sjf_scan procs (a :: rest) 0 none = some p ∧
      first_min (fun x => (procs x).lifespan) (a :: rest) pre p post := by
  obtain ⟨p, hp, hle, hall, hcase⟩ :=
    sjf_scan_spec procs rest a (hpos a (List.mem_cons_self _ _))
      (fun x hx => hpos x (List.mem_cons_of_mem _ hx))
  have hscan : sjf_scan procs (a :: rest) 0 none = some p := by
    simp only [sjf_scan, if_true]
    exact hp
  rcases hcase with rfl | ⟨pre, post, hq', hlt, hpre⟩
  · refine ⟨[], p, rest, hscan, rfl, ?_, by simp⟩
    intro x hx
    rcases List.mem_cons.mp hx with rfl | hx
    · exact le_refl _
    · exact hall x hx
  · refine ⟨a :: pre, p, post, hscan, by simp [hq'], ?_, ?_⟩
    · intro x hx
      rcases List.mem_cons.mp hx with rfl | hx
      · exact hle
      · exact hall x hx
    · intro x hx
      rcases List.mem_cons.mp hx with rfl | hx
      · exact hlt
      · exact hpre x hx

theorem first_min_congr (key key' : Pid → Nat) (q pre : List Pid) (p : Pid) (post : List Pid)
    (hkey : ∀ x ∈ q, key x = key' x) (h : first_min key q pre p post) :
    first_min key' q pre p post := by
  obtain ⟨hq, hall, hpre⟩ := h
  have hp : p ∈ q := by rw [hq]; simp
  refine ⟨hq, ?_, ?_⟩
  · intro x hx
    rw [← hkey x hx, ← hkey p hp]
    exact hall x hx
  · intro x hx
    have hxq : x ∈ q := by rw [hq]; simp [hx]
    rw [← hkey x hxq, ← hkey p hp]
    exact hpre x hx

theorem contenders_age_lt (s : State)
    (hready : ∀ x ∈ s.readyqueue, (s.procs x).age < (s.procs x).lifespan) :
    ∀ x ∈ contenders s, (s.procs x).age < (s.procs x).lifespan := by
  intro x hx
  unfold contenders at hx
  rcases List.mem_append.mp hx with h | h
  · exact hready x h
  · unfold runnable_current at h
    cases hc : s.current with
    | none => simp [hc] at h
    | some c =>
      rw [hc] at h
      simp only at h
      by_cases hrun : (s.procs c).status ≠ PROCESS_WAIT ∧ (s.procs c).age < (s.procs c).lifespan
      · rw [if_pos hrun] at h
        have hxc : x = c := by simpa using h
        rw [hxc]
        exact hrun.2
      · rw [if_neg hrun] at h
        cases h

/-- Claim C11: when every process in the ready queue has age < lifespan
(the current process, if appended, has it by the test of the code), and
`Q`, the ready queue with a current process that is not WAITING and has
age < lifespan appended, is non-empty, `srtf_schedule` returns the
earliest process of `Q` with the least remaining time `lifespan - age`,
and the ready queue afterwards is `Q` without exactly that process. -/
theorem srtf_schedule_first_min (s : State)
    (hready : ∀ x ∈ s.readyqueue, (s.procs x).age < (s.procs x).lifespan)
    (hne : contenders s ≠ []) :
    ∃ pre p post,
      first_min (fun x => remaining (s.procs x)) (contenders s) pre p post ∧
      (srtf_schedule s).1 = some p ∧
      (srtf_schedule s).2.readyqueue = pre ++ post := by
  have hage := contenders_age_lt s hready
  unfold srtf_schedule
  simp only [requeue_current_readyqueue, requeue_current_procs]
  cases hq : contenders s with
  | nil => exact absurd hq hne
  | cons a rest =>
    rw [hq] at hage
    have hpos : ∀ x ∈ a :: rest,
        0 < ((fun x => { s.procs x with
          lifespan := usub32 (s.procs x).lifespan (s.procs x).age }) x).lifespan := by
      intro x hx
      have := hage x hx
      simp only
      rw [usub32_of_le _ _ (Nat.le_of_lt this)]
      omega
    obtain ⟨pre, p, post, hscan, hfm⟩ := sjf_scan_first_min _ a rest hpos
    rw [← srtf_scan_eq_sjf_scan] at hscan
    have hfm' : first_min (fun x => remaining (s.procs x)) (a :: rest) pre p post := by
      refine first_min_congr _ _ _ _ _ _ ?_ hfm
      intro x hx
      simp only [remaining]
      exact usub32_of_le _ _ (Nat.le_of_lt (hage x hx))
    refine ⟨pre, p, post, hfm', ?_, ?_⟩
    · simp only [hscan]
    · simp only [hscan, ready_del_readyqueue, requeue_current_readyqueue, hq]
      exact first_min_erase _ _ _ _ _ hfm'

/-- Witness for C11: in `busy` the ready processes have remaining times
2 and 4 and the current process, with remaining time 7, is appended. -/
theorem srtf_schedule_first_min_witness :
    (∀ x ∈ busy.readyqueue, (busy.procs x).age < (busy.procs x).lifespan) ∧
    contenders busy ≠ [] ∧
    ∃ pre p post,
      first_min (fun x => remaining (busy.procs x)) (contenders busy) pre p post ∧
      (srtf_schedule busy).1 = some p ∧
      (srtf_schedule busy).2.readyqueue = pre ++ post :=
  ⟨by decide, by decide, srtf_schedule_first_min busy (by decide) (by decide)⟩

/-! ## Ticks of the harness -/

theorem dispatch_readyqueue (r : Option Pid × State) :
    (dispatch r).readyqueue = r.2.readyqueue := by
  unfold dispatch
  split <;> rfl

theorem dispatch_resources (r : Option Pid × State) :
    (dispatch r).resources = r.2.resources := by
  unfold dispatch
  split <;> rfl

theorem dispatch_current (r : Option Pid × State) : (dispatch r).current = r.1 := by
  unfold dispatch
  split
  · rename_i h
    exact h.symm
  · rename_i n h
    exact h.symm

theorem age_current_readyqueue (s : State) : (age_current s).readyqueue = s.readyqueue := by
  unfold age_current
  split <;> rfl

theorem age_current_resources (s : State) : (age_current s).resources = s.resources := by
  unfold age_current
  split <;> rfl

theorem age_current_current (s : State) : (age_current s).current = s.current := by
  unfold age_current
  split <;> rfl

theorem dispatch_prio (r : Option Pid × State) (x : Pid) :
    ((dispatch r).procs x).prio = (r.2.procs x).prio := by
  unfold dispatch
  split
  · rfl
  · rename_i n _
    by_cases h : x = n <;> simp [State.set_status, h]

theorem age_current_prio (s : State) (x : Pid) :
    ((age_current s).procs x).prio = (s.procs x).prio := by
  unfold age_current
  split
  · rfl
  · rename_i c _
    by_cases h : x = c <;> simp [h]

theorem run_tick_readyqueue (schedule : State → Option Pid × State) (s : State) :
    (run_tick schedule s).2.readyqueue = (schedule s).2.readyqueue := by
  simp [run_tick, age_current_readyqueue, dispatch_readyqueue]

theorem run_trace_add (schedule : State → Option Pid × State) :
    ∀ (m n : Nat) (s : State),
      run_trace schedule (m + n) s =
        run_trace schedule m s ++ run_trace schedule n (run_state schedule m s) := by
  intro m
  induction m with
  | zero => intro n s; simp [run_trace, run_state]
  | succ m ih =>
    intro n s
    have h : m + 1 + n = (m + n) + 1 := by omega
    rw [h]
    simp only [run_trace, run_state, ih, List.cons_append]

/-! ## C12: round-robin rotation -/

theorem rr_schedule_head (s : State) (p : Pid) (rest : List Pid)
    (hq : contenders s = p :: rest) :
    (rr_schedule s).1 = some p ∧ (rr_schedule s).2.readyqueue = rest := by
  unfold rr_schedule
  simp only [requeue_current_readyqueue, hq, ready_del_readyqueue, List.erase_cons_head,
    and_self]

theorem rr_rotation_from (ps : List Pid) :
    ∀ (rest : List Pid) (s : State), s.readyqueue = ps ++ rest →
      run_trace rr_schedule ps.length s = ps.map some := by
  induction ps with
  | nil => intro rest s _; rfl
  | cons p ps ih =>
    intro rest s hq
    have hc : contenders s = p :: (ps ++ (rest ++ runnable_current s)) := by
      simp [contenders, hq]
    obtain ⟨h1, h2⟩ := rr_schedule_head s p _ hc
    have hq' : (run_tick rr_schedule s).2.readyqueue = ps ++ (rest ++ runnable_current s) := by
      rw [run_tick_readyqueue, h2]
    simp only [List.length_cons, run_trace, List.map_cons]
    rw [ih _ _ hq']
    simp [run_tick, h1]

/-- Claim C12: when the ready queue holds `N` distinct processes
`p1..pN`, with ticks that call `rr_schedule`, make the returned process
current and add 1 to its age, the processes that run in ticks `1..N` are
`p1, ..., pN` in this order, and no process runs twice in these ticks.
(This holds whatever the ages and lifespans are and whether or not there
is a current process, which is requeued behind `pN`.) -/
theorem rr_rotation (s : State) (hdistinct : s.readyqueue.Nodup) :
    run_trace rr_schedule s.readyqueue.length s = s.readyqueue.map some ∧
    (run_trace rr_schedule s.readyqueue.length s).Nodup := by
  have h : run_trace rr_schedule s.readyqueue.length s = s.readyqueue.map some :=
    rr_rotation_from s.readyqueue [] s (by simp)
  refine ⟨h, ?_⟩
  rw [h]
  exact hdistinct.map (Option.some_injective _)

/-- Witness for C12: the three processes of `three_arrive` run in
queue order. -/
theorem rr_rotation_witness :
    three_arrive.readyqueue.Nodup ∧
    run_trace rr_schedule 3 three_arrive = [some 1, some 2, some 3] ∧
    (run_trace rr_schedule 3 three_arrive).Nodup :=
  ⟨by decide, (rr_rotation three_arrive (by decide)).1,
    (rr_rotation three_arrive (by decide)).2⟩

/-! ## The priority schedule function -/

theorem prio_schedule_some (s : State) (hne : contenders s ≠ []) :
    ∃ p, p ∈ contenders s ∧
      prio_schedule s = (some p, (requeue_current s).ready_del p) := by
  unfold prio_schedule
  simp only [requeue_current_readyqueue, requeue_current_procs]
  cases hq : contenders s with
  | nil => exact absurd hq hne
  | cons a rest =>
    obtain ⟨p, hsel, hmem⟩ := get_largest_prio_cons_mem s.procs a rest
    exact ⟨p, hmem, by simp only [hsel]⟩

theorem prio_schedule_first_max (s : State) (hne : contenders s ≠ [])
    (hfit : fits_int s.procs (contenders s)) :
    ∃ pre p post,
      first_max (fun x => (s.procs x).prio) (contenders s) pre p post ∧
      prio_schedule s = (some p, (requeue_current s).ready_del p) ∧
      (prio_schedule s).2.readyqueue = pre ++ post := by
  unfold prio_schedule
  simp only [requeue_current_readyqueue, requeue_current_procs]
  cases hq : contenders s with
  | nil => exact absurd hq hne
  | cons a rest =>
    rw [hq] at hfit
    obtain ⟨pre, p, post, hsel, hfm⟩ := get_largest_prio_cons s.procs a rest hfit
    refine ⟨pre, p, post, hfm, ?_, ?_⟩
    · simp only [hsel]
    · simp only [hsel, ready_del_readyqueue, requeue_current_readyqueue, hq]
      exact first_max_erase _ _ _ _ _ hfm

theorem prio_schedule_nil (s : State) (hq : contenders s = []) :
    prio_schedule s = (none, requeue_current s) := by
  unfold prio_schedule
  simp only [requeue_current_readyqueue, hq]

theorem run_tick_some (schedule : State → Option Pid × State) (s st : State) (m : Pid)
    (h : schedule s = (some m, st)) :
    (run_tick schedule s).1 = some m ∧
    (run_tick schedule s).2.current = some m ∧
    (run_tick schedule s).2.readyqueue = st.readyqueue ∧
    (run_tick schedule s).2.resources = st.resources ∧
    (run_tick schedule s).2.procs m =
      { st.procs m with status := PROCESS_RUNNING, age := (st.procs m).age + 1 } ∧
    ∀ x, x ≠ m → (run_tick schedule s).2.procs x = st.procs x := by
  refine ⟨?_, ?_, ?_, ?_, ?_, ?_⟩
  · simp [run_tick, h]
  · simp [run_tick, h, dispatch, age_current]
  · simp [run_tick, h, dispatch, age_current, State.set_status]
  · simp [run_tick, h, dispatch, age_current, State.set_status]
  · simp [run_tick, h, dispatch, age_current, State.set_status]
  · intro x hx
    simp [run_tick, h, dispatch, age_current, State.set_status, hx]

theorem prio_tick_top (s : State) (m : Pid) (pre post : List Pid)
    (hq : contenders s = pre ++ m :: post)
    (hlow : ∀ x ∈ pre ++ post, (s.procs x).prio < (s.procs m).prio)
    (hm : (s.procs m).prio < 2147483648) :
    (run_tick prio_schedule s).1 = some m ∧
    (run_tick prio_schedule s).2.current = some m ∧
    (run_tick prio_schedule s).2.readyqueue = pre ++ post ∧
    (run_tick prio_schedule s).2.procs m =
      { s.procs m with status := PROCESS_RUNNING, age := (s.procs m).age + 1 } ∧
    ∀ x, x ≠ m → (run_tick prio_schedule s).2.procs x = s.procs x := by
  have hne : contenders s ≠ [] := by rw [hq]; simp
  have hfit : fits_int s.procs (contenders s) := by
    intro x hx
    rw [hq] at hx
    rcases List.mem_append.mp hx with h | h
    · exact lt_trans (hlow x (List.mem_append_left _ h)) hm
    · rcases List.mem_cons.mp h with h | h
      · rw [h]
        exact hm
      · exact lt_trans (hlow x (List.mem_append_right _ h)) hm
  obtain ⟨pre', p, post', hfm, hrun, _⟩ := prio_schedule_first_max s hne hfit
  have hpm : p = m := by
    by_contra hne'
    have hp : p ∈ contenders s := by rw [hfm.1]; simp
    rw [hq] at hp
    have hp' : p ∈ pre ++ post := by
      rcases List.mem_append.mp hp with h | h
      · exact List.mem_append_left _ h
      · rcases List.mem_cons.mp h with h | h
        · exact absurd h hne'
        · exact List.mem_append_right _ h
    have h1 := hlow p hp'
    have h2 := hfm.2.1 m (by rw [hq]; simp)
    simp only at h2
    omega
  subst hpm
  have hnot : p ∉ pre := fun h => lt_irrefl _ (hlow p (List.mem_append_left _ h))
  have herase : (contenders s).erase p = pre ++ post := by
    rw [hq, List.erase_append_right _ hnot, List.erase_cons_head]
  obtain ⟨h1, h2, h3, _, h5, h6⟩ := run_tick_some prio_schedule s _ p hrun
  refine ⟨h1, h2, ?_, ?_, ?_⟩
  · rw [h3, ready_del_readyqueue, requeue_current_readyqueue, herase]
  · rw [h5]
    simp [requeue_current_procs]
  · intro x hx
    rw [h6 x hx]
    simp [requeue_current_procs]

theorem contenders_of_current (s : State) (m : Pid) (hc : s.current = some m)
    (hst : (s.procs m).status = PROCESS_RUNNING) :
    contenders s =
      if (s.procs m).age < (s.procs m).lifespan then s.readyqueue ++ [m] else s.readyqueue := by
  unfold contenders runnable_current
  simp only [hc, hst]
  by_cases h : (s.procs m).age < (s.procs m).lifespan
  · simp [h]
  · simp [h]

theorem prio_run_phase :
    ∀ (k : Nat) (s : State) (m : Pid) (pre post : List Pid),
      contenders s = pre ++ m :: post →
      (∀ x ∈ pre ++ post, (s.procs x).prio < (s.procs m).prio) →
      (s.procs m).prio < 2147483648 →
      (s.procs m).age + (k + 1) = (s.procs m).lifespan →
      run_trace prio_schedule (k + 1) s = List.replicate (k + 1) (some m) ∧
      contenders (run_state prio_schedule (k + 1) s) = pre ++ post ∧
      ∀ x, x ≠ m → (run_state prio_schedule (k + 1) s).procs x = s.procs x := by
  intro k
  induction k with
  | zero =>
    intro s m pre post hq hlow hm hage
    obtain ⟨h1, h2, h3, h4, h5⟩ := prio_tick_top s m pre post hq hlow hm
    have hst : ((run_tick prio_schedule s).2.procs m).status = PROCESS_RUNNING := by
      rw [h4]
    have hdone : ¬ ((run_tick prio_schedule s).2.procs m).age <
        ((run_tick prio_schedule s).2.procs m).lifespan := by
      rw [h4]
      simp only
      omega
    refine ⟨by simp [run_trace, h1], ?_, ?_⟩
    · simp only [run_state]
      rw [contenders_of_current _ m h2 hst, if_neg hdone, h3]
    · intro x hx
      simp only [run_state]
      exact h5 x hx
  | succ k ih =>
    intro s m pre post hq hlow hm hage
    obtain ⟨h1, h2, h3, h4, h5⟩ := prio_tick_top s m pre post hq hlow hm
    have hst : ((run_tick prio_schedule s).2.procs m).status = PROCESS_RUNNING := by
      rw [h4]
    have hmore : ((run_tick prio_schedule s).2.procs m).age <
        ((run_tick prio_schedule s).2.procs m).lifespan := by
      rw [h4]
      simp only
      omega
    have hq1 : contenders (run_tick prio_schedule s).2 = (pre ++ post) ++ m :: [] := by
      rw [contenders_of_current _ m h2 hst, if_pos hmore, h3]
    have hnot : m ∉ pre ++ post := fun h => lt_irrefl _ (hlow m h)
    have hlow1 : ∀ x ∈ (pre ++ post) ++ [],
        ((run_tick prio_schedule s).2.procs x).prio <
          ((run_tick prio_schedule s).2.procs m).prio := by
      intro x hx
      rw [List.append_nil] at hx
      have hxm : x ≠ m := fun h => hnot (h ▸ hx)
      rw [h5 x hxm, h4]
      exact hlow x hx
    have hage1 : ((run_tick prio_schedule s).2.procs m).age + (k + 1) =
        ((run_tick prio_schedule s).2.procs m).lifespan := by
      rw [h4]
      simp only
      omega
    have hm1 : ((run_tick prio_schedule s).2.procs m).prio < 2147483648 := by
      rw [h4]
      exact hm
    obtain ⟨t1, t2, t3⟩ :=
      ih (run_tick prio_schedule s).2 m (pre ++ post) [] hq1 hlow1 hm1 hage1
    refine ⟨?_, ?_, ?_⟩
    · rw [run_trace, t1, h1]
      rfl
    · rw [run_state, t2, List.append_nil]
    · intro x hx
      rw [run_state, t3 x hx, h5 x hx]

theorem blocks_congr (len len' : Pid → Nat) :
    ∀ (o : List Pid), (∀ x ∈ o, len x = len' x) → blocks len o = blocks len' o := by
  intro o
  induction o with
  | nil => intro _; rfl
  | cons p o ih =>
    intro h
    simp only [blocks]
    rw [h p (List.mem_cons_self _ _), ih (fun x hx => h x (List.mem_cons_of_mem _ hx))]

theorem ticks_congr (len len' : Pid → Nat) :
    ∀ (o : List Pid), (∀ x ∈ o, len x = len' x) → ticks len o = ticks len' o := by
  intro o
  induction o with
  | nil => intro _; rfl
  | cons p o ih =>
    intro h
    simp only [ticks]
    rw [h p (List.mem_cons_self _ _), ih (fun x hx => h x (List.mem_cons_of_mem _ hx))]

theorem prio_runs_blocks :
    ∀ (o : List Pid) (s : State),
      o.Pairwise (fun a b => (s.procs b).prio < (s.procs a).prio) →
      (contenders s).Perm o →
      (∀ x ∈ o, (s.procs x).age < (s.procs x).lifespan) →
      fits_int s.procs o →
      run_trace prio_schedule (ticks (fun p => remaining (s.procs p)) o) s =
        blocks (fun p => remaining (s.procs p)) o := by
  intro o
  induction o with
  | nil => intro s _ _ _ _; rfl
  | cons m o ih =>
    intro s hpw hperm hage hfit
    obtain ⟨hm, hpw'⟩ := List.pairwise_cons.mp hpw
    have hmem : m ∈ contenders s := hperm.symm.subset (List.mem_cons_self _ _)
    obtain ⟨pre, post, hq⟩ := List.append_of_mem hmem
    have hperm' : (pre ++ post).Perm o := by
      have h1 : (m :: (pre ++ post)).Perm (m :: o) := by
        rw [hq] at hperm
        exact (List.perm_middle.symm.trans hperm)
      exact List.Perm.cons_inv h1
    have hlow : ∀ x ∈ pre ++ post, (s.procs x).prio < (s.procs m).prio :=
      fun x hx => hm x (hperm'.subset hx)
    have hagem := hage m (List.mem_cons_self _ _)
    obtain ⟨k, hk⟩ : ∃ k, (s.procs m).age + (k + 1) = (s.procs m).lifespan :=
      ⟨(s.procs m).lifespan - (s.procs m).age - 1, by omega⟩
    obtain ⟨t1, t2, t3⟩ :=
      prio_run_phase k s m pre post hq hlow (hfit m (List.mem_cons_self _ _)) hk
    have hrem : remaining (s.procs m) = k + 1 := by
      simp only [remaining]
      omega
    have hne : ∀ x ∈ o, x ≠ m := by
      intro x hx hxm
      have := hm x hx
      rw [hxm] at this
      exact lt_irrefl _ this
    have hsame : ∀ x ∈ o, (run_state prio_schedule (k + 1) s).procs x = s.procs x :=
      fun x hx => t3 x (hne x hx)
    have hpw1 : o.Pairwise (fun a b =>
        ((run_state prio_schedule (k + 1) s).procs b).prio <
          ((run_state prio_schedule (k + 1) s).procs a).prio) := by
      refine List.Pairwise.imp_of_mem ?_ hpw'
      intro a b ha hb hab
      rw [hsame a ha, hsame b hb]
      exact hab
    have hage1 : ∀ x ∈ o, ((run_state prio_schedule (k + 1) s).procs x).age <
        ((run_state prio_schedule (k + 1) s).procs x).lifespan := by
      intro x hx
      rw [hsame x hx]
      exact hage x (List.mem_cons_of_mem _ hx)
    have hfit1 : fits_int (run_state prio_schedule (k + 1) s).procs o := by
      intro x hx
      rw [hsame x hx]
      exact hfit x (List.mem_cons_of_mem _ hx)
    have hih := ih (run_state prio_schedule (k + 1) s) hpw1 (t2 ▸ hperm') hage1 hfit1
    have hlen : ∀ x ∈ o, remaining ((run_state prio_schedule (k + 1) s).procs x) =
        remaining (s.procs x) := fun x hx => by rw [hsame x hx]
    rw [ticks_congr _ _ o hlen, blocks_congr _ _ o hlen] at hih
    simp only [ticks, blocks]
    rw [hrem, run_trace_add, t1, hih]

/-! ## C13: the priority schedule function without resource operations -/

theorem by_descending_prio_perm (procs : Pid → process) (q : List Pid) :
    (by_descending_prio procs q).Perm q :=
  List.perm_insertionSort _ q

theorem by_descending_prio_sorted (procs : Pid → process) (q : List Pid)
    (hdistinct : q.Pairwise (fun a b => (procs a).prio ≠ (procs b).prio)) :
    (by_descending_prio procs q).Pairwise (fun a b => (procs b).prio < (procs a).prio) := by
  haveI : IsTotal Pid (fun a b => (procs b).prio ≤ (procs a).prio) :=
    ⟨fun a b => le_total _ _⟩
  haveI : IsTrans Pid (fun a b => (procs b).prio ≤ (procs a).prio) :=
    ⟨fun a b c h1 h2 => le_trans h2 h1⟩
  have hs : (by_descending_prio procs q).Pairwise (fun a b => (procs b).prio ≤ (procs a).prio) :=
    List.sorted_insertionSort _ q
  have hd : (by_descending_prio procs q).Pairwise (fun a b => (procs a).prio ≠ (procs b).prio) :=
    List.Perm.pairwise (by_descending_prio_perm procs q).symm hdistinct
      (fun h => Ne.symm h)
  exact (hs.and hd).imp (fun h => lt_of_le_of_ne h.1 (Ne.symm h.2))

theorem runnable_current_mem (s : State) (x : Pid) (h : x ∈ runnable_current s) :
    s.current = some x := by
  unfold runnable_current at h
  cases hc : s.current with
  | none => simp [hc] at h
  | some c =>
    simp only [hc] at h
    split at h
    · have hx : x = c := by simpa using h
      rw [hx]
    · simp at h

/-- A tick with `prio_schedule` changes no prio and brings no process
among the contenders that was not among them before. -/
theorem prio_tick_keeps (s : State) :
    (∀ x, ((run_tick prio_schedule s).2.procs x).prio = (s.procs x).prio) ∧
    ∀ x ∈ contenders (run_tick prio_schedule s).2, x ∈ contenders s := by
  have hstate : (prio_schedule s).2.procs = s.procs ∧
      (∀ x ∈ (prio_schedule s).2.readyqueue, x ∈ contenders s) ∧
      ∀ x, (prio_schedule s).1 = some x → x ∈ contenders s := by
    by_cases hq : contenders s = []
    · rw [prio_schedule_nil s hq]
      refine ⟨requeue_current_procs s, ?_, ?_⟩
      · intro x hx
        simpa [requeue_current_readyqueue] using hx
      · intro x hx
        cases hx
    · obtain ⟨p, hp, hrun⟩ := prio_schedule_some s hq
      rw [hrun]
      refine ⟨by simp [requeue_current_procs], ?_, ?_⟩
      · intro x hx
        simp only [ready_del_readyqueue, requeue_current_readyqueue] at hx
        exact List.mem_of_mem_erase hx
      · intro x hx
        cases hx
        exact hp
  obtain ⟨hprocs, hrq, hret⟩ := hstate
  refine ⟨?_, ?_⟩
  · intro x
    simp only [run_tick]
    rw [age_current_prio, dispatch_prio, hprocs]
  · intro x hx
    rcases List.mem_append.mp hx with h | h
    · rw [run_tick_readyqueue] at h
      exact hrq x h
    · have hc := runnable_current_mem _ x h
      simp only [run_tick] at hc
      rw [age_current_current, dispatch_current] at hc
      exact hret x hc

theorem prio_run_keeps :
    ∀ (n : Nat) (s : State),
      (∀ x, ((run_state prio_schedule n s).procs x).prio = (s.procs x).prio) ∧
      ∀ x ∈ contenders (run_state prio_schedule n s), x ∈ contenders s := by
  intro n
  induction n with
  | zero => intro s; exact ⟨fun _ => rfl, fun _ h => h⟩
  | succ n ih =>
    intro s
    obtain ⟨h1, h2⟩ := ih (run_tick prio_schedule s).2
    obtain ⟨k1, k2⟩ := prio_tick_keeps s
    refine ⟨?_, ?_⟩
    · intro x
      rw [run_state, h1 x, k1 x]
    · intro x hx
      rw [run_state] at hx
      exact k2 x (h2 x hx)

/-- Claim C13: from a state with no current process whose ready queue
holds processes of age 0, lifespan at least 1 and pairwise distinct prio,
each prio a non-negative `int`, with ticks that call `prio_schedule`,
make the returned process current and add 1 to its age: the processes run
one after another in strictly descending prio order, each for as many
ticks in a row as its lifespan; and every tick of the run, as long as an
unfinished process exists, runs the earliest unfinished process of
greatest prio. -/
theorem prio_runs_in_descending_order (s : State)
    (hcur : s.current = none)
    (hage : ∀ p ∈ s.readyqueue, (s.procs p).age = 0)
    (hlife : ∀ p ∈ s.readyqueue, 1 ≤ (s.procs p).lifespan)
    (hdistinct : s.readyqueue.Pairwise (fun a b => (s.procs a).prio ≠ (s.procs b).prio))
    (hfit : fits_int s.procs s.readyqueue) :
    (by_descending_prio s.procs s.readyqueue).Perm s.readyqueue ∧
    (by_descending_prio s.procs s.readyqueue).Pairwise
      (fun a b => (s.procs b).prio < (s.procs a).prio) ∧
    run_trace prio_schedule
        (ticks (fun p => (s.procs p).lifespan) (by_descending_prio s.procs s.readyqueue)) s =
      blocks (fun p => (s.procs p).lifespan) (by_descending_prio s.procs s.readyqueue) ∧
    ∀ n, contenders (run_state prio_schedule n s) ≠ [] →
      ∃ pre p post,
        first_max (fun x => ((run_state prio_schedule n s).procs x).prio)
          (contenders (run_state prio_schedule n s)) pre p post ∧
        (run_tick prio_schedule (run_state prio_schedule n s)).1 = some p := by
  have hperm := by_descending_prio_perm s.procs s.readyqueue
  have hsorted := by_descending_prio_sorted s.procs s.readyqueue hdistinct
  have hcont : contenders s = s.readyqueue := by
    simp [contenders, runnable_current, hcur]
  have hage' : ∀ x ∈ by_descending_prio s.procs s.readyqueue,
      (s.procs x).age < (s.procs x).lifespan := by
    intro x hx
    have hx' := hperm.subset hx
    have h1 := hage x hx'
    have h2 := hlife x hx'
    omega
  have hlen : ∀ x ∈ by_descending_prio s.procs s.readyqueue,
      remaining (s.procs x) = (s.procs x).lifespan := by
    intro x hx
    have h1 := hage x (hperm.subset hx)
    simp [remaining, h1]
  have hfit' : fits_int s.procs (by_descending_prio s.procs s.readyqueue) :=
    fun x hx => hfit x (hperm.subset hx)
  have hrun := prio_runs_blocks _ s hsorted (hcont ▸ hperm.symm) hage' hfit'
  rw [ticks_congr _ _ _ hlen, blocks_congr _ _ _ hlen] at hrun
  refine ⟨hperm, hsorted, hrun, ?_⟩
  intro n hne
  obtain ⟨hkeep, hsub⟩ := prio_run_keeps n s
  have hfitn : fits_int (run_state prio_schedule n s).procs
      (contenders (run_state prio_schedule n s)) := by
    intro x hx
    rw [hkeep x]
    exact hfit x (hcont ▸ hsub x hx)
  obtain ⟨pre, p, post, hfm, hsched, _⟩ :=
    prio_schedule_first_max (run_state prio_schedule n s) hne hfitn
  exact ⟨pre, p, post, hfm, by simp [run_tick, hsched]⟩

/-- Witness for C13: P1 (lifespan 5, prio 1), P2 (lifespan 3, prio 3) and
P3 (lifespan 4, prio 2) arrive together; P2 runs ticks 1-3, P3 ticks 4-7
and P1 ticks 8-12. -/
theorem prio_runs_in_descending_order_witness :
    three_arrive.current = none ∧
    (∀ p ∈ three_arrive.readyqueue, (three_arrive.procs p).age = 0) ∧
    (∀ p ∈ three_arrive.readyqueue, 1 ≤ (three_arrive.procs p).lifespan) ∧
    three_arrive.readyqueue.Pairwise
      (fun a b => (three_arrive.procs a).prio ≠ (three_arrive.procs b).prio) ∧
    fits_int three_arrive.procs three_arrive.readyqueue ∧
    run_trace prio_schedule 12 three_arrive =
      [some 2, some 2, some 2, some 3, some 3, some 3, some 3,
       some 1, some 1, some 1, some 1, some 1] :=
  ⟨rfl, by decide, by decide, by decide, by decide,
    (prio_runs_in_descending_order three_arrive rfl (by decide) (by decide)
      (by decide) (by decide)).2.2.1⟩

/-! ## C14: `pa_schedule` -/

theorem set_prio_readyqueue (s : State) (p : Pid) (v : Nat) :
    (s.set_prio p v).readyqueue = s.readyqueue := rfl

theorem set_prio_current (s : State) (p : Pid) (v : Nat) :
    (s.set_prio p v).current = s.current := rfl

theorem set_prio_resources (s : State) (p : Pid) (v : Nat) :
    (s.set_prio p v).resources = s.resources := rfl

theorem set_prio_procs (s : State) (p : Pid) (v : Nat) (x : Pid) :
    (s.set_prio p v).procs x = if x = p then { s.procs p with prio := v } else s.procs x := rfl

theorem uadd32_one_of_lt (v : Nat) (h : v + 1 < 4294967296) : uadd32 v 1 = v + 1 :=
  Nat.mod_eq_of_lt h

theorem age_fold_spec (L : List Pid) :
    ∀ (st : State),
      (L.foldl (fun st remain =>
          st.set_prio remain (uadd32 (st.procs remain).prio 1)) st).readyqueue
        = st.readyqueue ∧
      (L.foldl (fun st remain =>
          st.set_prio remain (uadd32 (st.procs remain).prio 1)) st).current
        = st.current ∧
      (L.foldl (fun st remain =>
          st.set_prio remain (uadd32 (st.procs remain).prio 1)) st).resources
        = st.resources ∧
      ∀ x, (L.foldl (fun st remain =>
          st.set_prio remain (uadd32 (st.procs remain).prio 1)) st).procs x
        = { st.procs x with
            prio := Nat.iterate (fun v => uadd32 v 1) (L.count x) (st.procs x).prio } := by
  induction L with
  | nil =>
    intro st
    exact ⟨rfl, rfl, rfl, fun x => by simp⟩
  | cons a L ih =>
    intro st
    obtain ⟨h1, h2, h3, h4⟩ := ih (st.set_prio a (uadd32 (st.procs a).prio 1))
    simp only [List.foldl_cons]
    refine ⟨h1, h2, h3, ?_⟩
    intro x
    rw [h4 x, set_prio_procs]
    by_cases hx : x = a
    · subst hx
      simp only [if_true, List.count_cons_self, Function.iterate_succ, Function.comp_apply]
    · have hax : ¬ (a = x) := fun h => hx h.symm
      simp [hx, List.count_cons, hax]

theorem age_ready_readyqueue (s : State) : (age_ready s).readyqueue = s.readyqueue :=
  (age_fold_spec s.readyqueue s).1

theorem age_ready_current (s : State) : (age_ready s).current = s.current :=
  (age_fold_spec s.readyqueue s).2.1

theorem age_ready_resources (s : State) : (age_ready s).resources = s.resources :=
  (age_fold_spec s.readyqueue s).2.2.1

theorem age_ready_procs (s : State) (x : Pid) :
    (age_ready s).procs x =
      { s.procs x with
        prio := Nat.iterate (fun v => uadd32 v 1) (s.readyqueue.count x) (s.procs x).prio } :=
  (age_fold_spec s.readyqueue s).2.2.2 x

theorem pa_schedule_some (s : State) (hne : contenders s ≠ []) :
    ∃ p, p ∈ contenders s ∧
      pa_schedule s = (some p, age_ready
        (((requeue_current s).set_prio p (s.procs p).prio_orig).ready_del p)) := by
  unfold pa_schedule
  simp only [requeue_current_readyqueue, requeue_current_procs]
  cases hq : contenders s with
  | nil => exact absurd hq hne
  | cons a rest =>
    obtain ⟨p, hsel, hmem⟩ := get_largest_prio_cons_mem s.procs a rest
    exact ⟨p, hmem, by simp only [hsel]⟩

theorem pa_schedule_first_max (s : State) (hne : contenders s ≠ [])
    (hfit : fits_int s.procs (contenders s)) :
    ∃ pre p post,
      first_max (fun x => (s.procs x).prio) (contenders s) pre p post ∧
      pa_schedule s = (some p, age_ready
        (((requeue_current s).set_prio p (s.procs p).prio_orig).ready_del p)) := by
  unfold pa_schedule
  simp only [requeue_current_readyqueue, requeue_current_procs]
  cases hq : contenders s with
  | nil => exact absurd hq hne
  | cons a rest =>
    rw [hq] at hfit
    obtain ⟨pre, p, post, hsel, hfm⟩ := get_largest_prio_cons s.procs a rest hfit
    exact ⟨pre, p, post, hfm, by simp only [hsel]⟩

theorem pa_schedule_nil (s : State) (hq : contenders s = []) :
    pa_schedule s = (none, requeue_current s) := by
  unfold pa_schedule
  simp only [requeue_current_readyqueue, hq]

/-- Claim C14: let `Q` be the ready queue with a current process that is
not WAITING and has age < lifespan appended.  In the data model a process
is linked into at most one queue, once, and a running process into none,
so `Q` holds no process twice; a prio is a non-negative `int`.  When `Q`
is non-empty, `pa_schedule` returns the earliest process of `Q` with the
greatest prio; after the call its prio equals its prio_orig, and every
other process of `Q` is in the ready queue, in the same order, with its
prio exactly 1 greater than before the call. -/
theorem pa_schedule_resets_chosen_and_ages_rest (s : State)
    (hlinked : (contenders s).Nodup) (hfit : fits_int s.procs (contenders s))
    (hne : contenders s ≠ []) :
    pa_schedule_contract s := by
  obtain ⟨pre, p, post, hfm, hrun⟩ := pa_schedule_first_max s hne hfit
  have herase : (contenders s).erase p = pre ++ post := first_max_erase _ _ _ _ _ hfm
  have hq : (((requeue_current s).set_prio p (s.procs p).prio_orig).ready_del p).readyqueue =
      pre ++ post := by
    rw [ready_del_readyqueue, set_prio_readyqueue, requeue_current_readyqueue, herase]
  have hnodup : (pre ++ p :: post).Nodup := hfm.1 ▸ hlinked
  have hp : p ∉ pre ++ post := by
    have h := List.nodup_middle.mp hnodup
    exact (List.nodup_cons.mp h).1
  have hnd : (pre ++ post).Nodup := by
    have h := List.nodup_middle.mp hnodup
    exact (List.nodup_cons.mp h).2
  refine ⟨pre, p, post, hfm, by rw [hrun], ?_, ?_, ?_, ?_⟩
  · rw [hrun]
    simp only
    rw [age_ready_readyqueue, hq]
  · rw [hrun]
    simp only
    rw [age_ready_procs, hq, List.count_eq_zero_of_not_mem hp]
    simp [set_prio_procs, requeue_current_procs]
  · rw [hrun]
    simp only
    rw [age_ready_procs]
    simp [set_prio_procs, requeue_current_procs]
  · intro x hx
    have hxp : x ≠ p := fun h => hp (h ▸ hx)
    have hxq : x ∈ contenders s := by
      rw [hfm.1]
      rcases List.mem_append.mp hx with h | h
      · exact List.mem_append_left _ h
      · exact List.mem_append_right _ (List.mem_cons_of_mem _ h)
    have hbound : (s.procs x).prio + 1 < 4294967296 := by
      have := hfit x hxq
      omega
    rw [hrun]
    simp only
    rw [age_ready_procs, hq, List.count_eq_one_of_mem hnd hx]
    simp [set_prio_procs, requeue_current_procs, hxp, uadd32_one_of_lt _ hbound]

/-- Witness for C14: in `aged_ready` process 0 (prio 2) runs and the
ready queue holds process 3 (prio 5), process 1 (prio 9, prio_orig 4) and
process 2 (prio 9), so `Q` is `[3, 1, 2, 0]`.  `pa_schedule` returns
process 1, the earlier of the two processes of prio 9, and sets its prio
back to 4; the ready queue becomes `[3, 2, 0]` with the prios 6, 10
and 3. -/
theorem pa_schedule_resets_chosen_and_ages_rest_witness :
    (contenders aged_ready).Nodup ∧ fits_int aged_ready.procs (contenders aged_ready) ∧
    contenders aged_ready ≠ [] ∧
    pa_schedule_contract aged_ready ∧
    contenders aged_ready = [3, 1, 2, 0] ∧
    (pa_schedule aged_ready).1 = some 1 ∧
    (pa_schedule aged_ready).2.readyqueue = [3, 2, 0] ∧
    ((pa_schedule aged_ready).2.procs 1).prio = 4 ∧
    ((pa_schedule aged_ready).2.procs 3).prio = 6 ∧
    ((pa_schedule aged_ready).2.procs 2).prio = 10 ∧
    ((pa_schedule aged_ready).2.procs 0).prio = 3 :=
  ⟨by decide, by decide, by decide,
    pa_schedule_resets_chosen_and_ages_rest aged_ready (by decide) (by decide) (by decide),
    by decide, by decide, by decide, by decide, by decide, by decide, by decide⟩

/-! ## C15: aging over several `pa_schedule` calls -/

theorem pa_schedule_step (s : State) (p : Pid) (hw : waits_in_ready s p)
    (hret : (pa_schedule s).1 ≠ some p) :
    waits_in_ready (dispatch (pa_schedule s)) p ∧
    ((dispatch (pa_schedule s)).procs p).prio = uadd32 (s.procs p).prio 1 := by
  obtain ⟨hcount, hwq, hcur⟩ := hw
  have hpr : p ∈ s.readyqueue := List.count_pos_iff.mp (by omega)
  have hrc : p ∉ runnable_current s := by
    unfold runnable_current
    cases hc : s.current with
    | none => simp
    | some c =>
      simp only
      split
      · intro h
        have hpc : p = c := by simpa using h
        exact hcur (by rw [hc, hpc])
      · simp
  have hcq : (contenders s).count p = 1 := by
    unfold contenders
    rw [List.count_append, hcount, List.count_eq_zero_of_not_mem hrc]
  have hne : contenders s ≠ [] := by
    intro h
    have : p ∈ contenders s := List.mem_append_left _ hpr
    rw [h] at this
    cases this
  obtain ⟨n, _, hrun⟩ := pa_schedule_some s hne
  have hnp : n ≠ p := by
    intro h
    apply hret
    rw [hrun, h]
  have hpn : p ≠ n := fun h => hnp h.symm
  rw [hrun]
  have hq : (age_ready (((requeue_current s).set_prio n
      (s.procs n).prio_orig).ready_del n)).readyqueue = (contenders s).erase n := by
    rw [age_ready_readyqueue, ready_del_readyqueue, set_prio_readyqueue,
      requeue_current_readyqueue]
  have hcount' : ((contenders s).erase n).count p = 1 := by
    rw [List.count_erase_of_ne hpn, hcq]
  refine ⟨⟨?_, ?_, ?_⟩, ?_⟩
  · rw [dispatch_readyqueue]
    simp only
    rw [hq, hcount']
  · intro k
    rw [dispatch_resources]
    simp only
    rw [age_ready_resources]
    simp only [ready_del_resources, set_prio_resources, requeue_current_resources]
    exact hwq k
  · rw [dispatch_current]
    simp only
    intro h
    exact hnp (Option.some.inj h)
  · rw [dispatch_prio]
    simp only
    rw [age_ready_procs]
    simp only [ready_del_readyqueue, set_prio_readyqueue, requeue_current_readyqueue,
      hcount']
    simp [set_prio_procs, requeue_current_procs, hpn]

theorem prio_acquire_step (s s2 : State) (p : Pid) (rid : Nat) (b : Bool)
    (hw : waits_in_ready s p) (h : prio_acquire s rid = .ok (b, s2)) :
    waits_in_ready s2 p ∧ (s2.procs p).prio = (s.procs p).prio := by
  obtain ⟨hcount, hwq, hcur⟩ := hw
  unfold prio_acquire at h
  cases ho : (s.resources rid).owner with
  | none =>
    rw [ho] at h
    simp only [Except.ok.injEq, Prod.mk.injEq] at h
    obtain ⟨_, rfl⟩ := h
    refine ⟨⟨hcount, ?_, hcur⟩, rfl⟩
    intro k
    rw [set_owner_waitqueue]
    exact hwq k
  | some o =>
    rw [ho] at h
    cases hc : s.current with
    | none =>
      rw [hc] at h
      cases h
    | some c =>
      rw [hc] at h
      simp only [Except.ok.injEq, Prod.mk.injEq] at h
      obtain ⟨_, rfl⟩ := h
      have hpc : p ≠ c := fun hpc => hcur (by rw [hc, hpc])
      refine ⟨⟨hcount, ?_, ?_⟩, ?_⟩
      · intro k
        by_cases hk : k = rid
        · subst hk
          simp only [State.waitqueue_add_tail, State.set_status, write_resource_resources,
            if_true, write_resources, List.mem_append, List.mem_singleton, not_or]
          exact ⟨hwq k, hpc⟩
        · simp only [State.waitqueue_add_tail, State.set_status, write_resource_resources,
            hk, if_false, write_resources]
          exact hwq k
      · simpa [State.waitqueue_add_tail, State.set_status, hc] using hpc.symm
      · by_cases hpc' : p = c <;>
          simp [State.waitqueue_add_tail, State.set_status, hpc']

theorem prio_release_step (s s2 : State) (p : Pid) (rid : Nat)
    (hw : waits_in_ready s p) (h : prio_release s rid = .ok s2) :
    waits_in_ready s2 p ∧ (s2.procs p).prio = (s.procs p).prio := by
  obtain ⟨hcount, hwq, hcur⟩ := hw
  unfold prio_release at h
  by_cases hown : (s.resources rid).owner ≠ s.current
  · rw [if_pos hown] at h
    cases h
  · rw [if_neg hown] at h
    simp only at h
    cases hq : ((s.set_owner rid none).resources rid).waitqueue with
    | nil =>
      rw [wake_largest_prio_nil _ rid hq] at h
      simp only [Except.ok.injEq] at h
      subst h
      refine ⟨⟨hcount, ?_, hcur⟩, rfl⟩
      intro k
      rw [set_owner_waitqueue]
      exact hwq k
    | cons a rest =>
      obtain ⟨w, _, hmem, hrun⟩ := wake_largest_prio_cons _ rid a rest hq
      rw [hrun] at h
      by_cases hst : ((s.set_owner rid none).procs w).status = PROCESS_WAIT
      · rw [if_pos hst] at h
        simp only [Except.ok.injEq] at h
        subst h
        have hwmem : w ∈ (s.resources rid).waitqueue := by
          rwa [set_owner_waitqueue] at hmem
        have hpw : p ≠ w := fun hpw => hwq rid (hpw ▸ hwmem)
        refine ⟨⟨?_, ?_, ?_⟩, ?_⟩
        · rw [wake_up_readyqueue, set_owner_readyqueue, List.count_append, hcount]
          simp [List.count_cons, hpw.symm]
        · intro k
          by_cases hk : k = rid
          · subst hk
            rw [wake_up_waitqueue, set_owner_waitqueue]
            exact fun hmem => hwq k (List.mem_of_mem_erase hmem)
          · rw [wake_up_waitqueue_other _ _ _ _ hk, set_owner_waitqueue]
            exact hwq k
        · rw [wake_up_current]
          exact hcur
        · rw [wake_up_prio, set_owner_procs]
      · rw [if_neg hst] at h
        cases h

theorem age_current_step (s : State) (p : Pid) (hw : waits_in_ready s p) :
    waits_in_ready (age_current s) p := by
  obtain ⟨hcount, hwq, hcur⟩ := hw
  refine ⟨?_, ?_, ?_⟩
  · rw [age_current_readyqueue]
    exact hcount
  · intro k
    rw [age_current_resources]
    exact hwq k
  · rw [age_current_current]
    exact hcur

theorem pa_run_invariant (p : Pid) (s : State) (hw : waits_in_ready s p) :
    ∀ (k : Nat) (s' : State), PaRun p s k s' →
      waits_in_ready s' p ∧
      ((s.procs p).prio + k < 4294967296 → (s'.procs p).prio = (s.procs p).prio + k) := by
  intro k s' hrun
  induction hrun with
  | start => exact ⟨hw, fun _ => rfl⟩
  | schedule k s1 _ hret ih =>
    obtain ⟨h1, h2⟩ := pa_schedule_step s1 p ih.1 hret
    refine ⟨h1, ?_⟩
    intro hb
    have h3 := ih.2 (by omega)
    rw [h2, h3, uadd32_one_of_lt _ (by omega)]
    omega
  | acquire k s1 s2 rid b _ hacq ih =>
    obtain ⟨h1, h2⟩ := prio_acquire_step s1 s2 p rid b ih.1 hacq
    exact ⟨h1, fun hb => by rw [h2, ih.2 hb]⟩
  | release k s1 s2 rid _ hrel ih =>
    obtain ⟨h1, h2⟩ := prio_release_step s1 s2 p rid ih.1 hrel
    exact ⟨h1, fun hb => by rw [h2, ih.2 hb]⟩
  | run k s1 _ ih =>
    exact ⟨age_current_step s1 p ih.1, fun hb => by rw [age_current_prio, ih.2 hb]⟩

/-- Claim C15: under the Priority+Aging configuration, for every `k` and
every process `p` that is in the ready queue (in the data model: linked
once, into that queue only, and not the running process) and whose prio
plus `k` is within the range of the 32-bit field: after any run with `k`
calls of `pa_schedule`, none of which returns `p`, and any `prio_acquire`
and `prio_release` calls and ticks in between, the prio of `p` is its
prio before the run plus exactly `k`. -/
theorem aging_adds_one_per_schedule_call (s s' : State) (p : Pid) (k : Nat)
    (hw : waits_in_ready s p) (hfit : (s.procs p).prio + k < 4294967296)
    (hrun : PaRun p s k s') :
    (s'.procs p).prio = (s.procs p).prio + k :=
  (pa_run_invariant p s hw k s' hrun).2 hfit

/-- Witness for C15: in `aged_ready` process 3 (prio 5) waits in the
ready queue while `pa_schedule` returns process 1 and then process 2; its
prio goes from 5 to 7. -/
theorem aging_adds_one_per_schedule_call_witness :
    waits_in_ready aged_ready 3 ∧
    (aged_ready.procs 3).prio + 2 < 4294967296 ∧
    PaRun 3 aged_ready 2 (dispatch (pa_schedule (dispatch (pa_schedule aged_ready)))) ∧
    (pa_schedule aged_ready).1 = some 1 ∧
    (pa_schedule (dispatch (pa_schedule aged_ready))).1 = some 2 ∧
    (aged_ready.procs 3).prio = 5 ∧
    ((dispatch (pa_schedule (dispatch (pa_schedule aged_ready)))).procs 3).prio = 7 ∧
    ((dispatch (pa_schedule (dispatch (pa_schedule aged_ready)))).procs 3).prio =
      (aged_ready.procs 3).prio + 2 :=
  have hw : waits_in_ready aged_ready 3 :=
    ⟨by decide, fun _ => by simp [aged_ready, fresh], by decide⟩
  have hrun : PaRun 3 aged_ready 2
      (dispatch (pa_schedule (dispatch (pa_schedule aged_ready)))) :=
    .schedule 1 _ (.schedule 0 _ .start (by decide)) (by decide)
  ⟨hw, by decide, hrun, by decide, by decide, rfl, by decide,
    aging_adds_one_per_schedule_call aged_ready _ 3 2 hw (by decide) hrun⟩

/-! ## The shape of the schedule functions -/

theorem fields_kept_refl (s : State) : fields_kept s s :=
  fun _ => ⟨rfl, rfl, rfl⟩

theorem fields_kept_trans (s s1 s2 : State) (h1 : fields_kept s s1) (h2 : fields_kept s1 s2) :
    fields_kept s s2 := by
  intro x
  obtain ⟨a1, a2, a3⟩ := h1 x
  obtain ⟨b1, b2, b3⟩ := h2 x
  exact ⟨b1.trans a1, b2.trans a2, b3.trans a3⟩

theorem fields_kept_of_procs (s s' : State) (h : s'.procs = s.procs) : fields_kept s s' := by
  intro x
  rw [h]
  exact ⟨rfl, rfl, rfl⟩

theorem fields_kept_set_prio (s : State) (p : Pid) (v : Nat) :
    fields_kept s (s.set_prio p v) := by
  intro x
  rw [set_prio_procs]
  by_cases h : x = p
  · subst h
    simp
  · simp [h]

theorem fields_kept_set_status (s : State) (p : Pid) (st : process_status) :
    fields_kept s (s.set_status p st) := by
  intro x
  by_cases h : x = p
  · subst h
    simp [State.set_status]
  · simp [State.set_status, h]

theorem runnable_current_cases (s : State) :
    (runnable_current s = [] ∧ cpu_free s) ∨
    (∃ c, s.current = some c ∧ (s.procs c).status ≠ PROCESS_WAIT ∧
      (s.procs c).age < (s.procs c).lifespan ∧ runnable_current s = [c]) := by
  unfold runnable_current cpu_free
  cases hc : s.current with
  | none => exact Or.inl ⟨rfl, trivial⟩
  | some c =>
    simp only
    by_cases h : (s.procs c).status ≠ PROCESS_WAIT ∧ (s.procs c).age < (s.procs c).lifespan
    · exact Or.inr ⟨c, rfl, h.1, h.2, by rw [if_pos h]⟩
    · refine Or.inl ⟨by rw [if_neg h], ?_⟩
      by_cases hst : (s.procs c).status = PROCESS_WAIT
      · exact Or.inl hst
      · exact Or.inr (by
          have : ¬ (s.procs c).age < (s.procs c).lifespan := fun hh => h ⟨hst, hh⟩
          omega)

theorem sjf_scan_mem (procs : Pid → process) :
    ∀ (q : List Pid) (m : Nat) (n : Option Pid) (p : Pid),
      sjf_scan procs q m n = some p → p ∈ q ∨ n = some p := by
  intro q
  induction q with
  | nil =>
    intro m n p h
    exact Or.inr h
  | cons a rest ih =>
    intro m n p h
    unfold sjf_scan at h
    split at h
    · rcases ih _ _ _ h with h1 | h1
      · exact Or.inl (List.mem_cons_of_mem _ h1)
      · exact Or.inl (by rw [Option.some.inj h1]; exact List.mem_cons_self _ _)
    · split at h
      · rcases ih _ _ _ h with h1 | h1
        · exact Or.inl (List.mem_cons_of_mem _ h1)
        · exact Or.inl (by rw [Option.some.inj h1]; exact List.mem_cons_self _ _)
      · rcases ih _ _ _ h with h1 | h1
        · exact Or.inl (List.mem_cons_of_mem _ h1)
        · exact Or.inr h1

theorem sjf_scan_cons_mem (procs : Pid → process) (a : Pid) (rest : List Pid) :
    ∃ p, sjf_scan procs (a :: rest) 0 none = some p ∧ p ∈ a :: rest := by
  have h := sjf_scan_cons_isSome procs a rest
  obtain ⟨p, hp⟩ := Option.isSome_iff_exists.mp h
  refine ⟨p, hp, ?_⟩
  rcases sjf_scan_mem procs _ _ _ p hp with h1 | h1
  · exact h1
  · cases h1

theorem fifo_schedule_shape : schedule_shape fifo_schedule := by
  intro s
  rcases runnable_current_cases s with ⟨hrc, hfree⟩ | ⟨c, hc, hst, hage, hrc⟩
  · have hcont : contenders s = s.readyqueue := by simp [contenders, hrc]
    rw [fifo_pick_next_of_cpu_free s hfree, hcont]
    unfold fifo_pick_next
    cases hq : s.readyqueue with
    | nil => exact ⟨rfl, rfl, fun _ => rfl, fields_kept_refl s, Or.inl ⟨rfl, rfl, hq⟩⟩
    | cons a rest =>
      refine ⟨rfl, rfl, fun _ => rfl, fields_kept_refl s, Or.inr ⟨a, List.mem_cons_self _ _,
        rfl, Or.inl ?_⟩⟩
      simp [hq]
  · have hrun : fifo_schedule s = (some c, s) := by
      simp [fifo_schedule, hc, hst, hage]
    rw [hrun]
    refine ⟨rfl, rfl, fun _ => rfl, fields_kept_refl s, Or.inr ⟨c, ?_, rfl, Or.inr ⟨hrc, rfl⟩⟩⟩
    simp [contenders, hrc]

theorem sjf_schedule_shape : schedule_shape sjf_schedule := by
  intro s
  rcases runnable_current_cases s with ⟨hrc, hfree⟩ | ⟨c, hc, hst, hage, hrc⟩
  · have hcont : contenders s = s.readyqueue := by simp [contenders, hrc]
    rw [sjf_pick_next_of_cpu_free s hfree, hcont]
    unfold sjf_pick_next
    cases hq : s.readyqueue with
    | nil => exact ⟨rfl, rfl, fun _ => rfl, fields_kept_refl s, Or.inl ⟨rfl, rfl, hq⟩⟩
    | cons a rest =>
      obtain ⟨p, hp, hmem⟩ := sjf_scan_cons_mem s.procs a rest
      simp only [hp]
      refine ⟨rfl, rfl, fun _ => rfl, fields_kept_refl s, Or.inr ⟨p, hmem, rfl, Or.inl ?_⟩⟩
      simp [hq]
  · have hrun : sjf_schedule s = (some c, s) := by
      simp [sjf_schedule, hc, hst, hage]
    rw [hrun]
    refine ⟨rfl, rfl, fun _ => rfl, fields_kept_refl s, Or.inr ⟨c, ?_, rfl, Or.inr ⟨hrc, rfl⟩⟩⟩
    simp [contenders, hrc]

theorem requeue_shape (s : State) (next : Option Pid) (s' : State)
    (hcur : s'.current = s.current) (hres : s'.resources = s.resources)
    (hprocs : s'.procs = s.procs)
    (hcase : (contenders s = [] ∧ next = none ∧ s'.readyqueue = []) ∨
      (∃ p, p ∈ contenders s ∧ next = some p ∧ s'.readyqueue = (contenders s).erase p)) :
    (next, s').2.current = s.current ∧
    (next, s').2.resources = s.resources ∧
    (∀ x, ((next, s').2.procs x).status = (s.procs x).status) ∧
    fields_kept s (next, s').2 ∧
    ((contenders s = [] ∧ (next, s').1 = none ∧ (next, s').2.readyqueue = []) ∨
     (∃ p, p ∈ contenders s ∧ (next, s').1 = some p ∧
        ((next, s').2.readyqueue = (contenders s).erase p ∨
         (runnable_current s = [p] ∧ (next, s').2.readyqueue = s.readyqueue)))) := by
  refine ⟨hcur, hres, fun x => by simp [hprocs], fields_kept_of_procs _ _ hprocs, ?_⟩
  rcases hcase with h | ⟨p, h1, h2, h3⟩
  · exact Or.inl h
  · exact Or.inr ⟨p, h1, h2, Or.inl h3⟩

theorem srtf_schedule_shape : schedule_shape srtf_schedule := by
  intro s
  cases hq : contenders s with
  | nil =>
    have hrun : srtf_schedule s = (none, requeue_current s) := by
      unfold srtf_schedule
      simp only [requeue_current_readyqueue, hq]
    rw [hrun]
    exact hq ▸ requeue_shape s none _ (requeue_current_current s) (requeue_current_resources s)
      (requeue_current_procs s)
      (Or.inl ⟨hq, rfl, by rw [requeue_current_readyqueue, hq]⟩)
  | cons a rest =>
    obtain ⟨p, hp, hmem⟩ := sjf_scan_cons_mem
      (fun x => { s.procs x with lifespan := usub32 (s.procs x).lifespan (s.procs x).age })
      a rest
    rw [← srtf_scan_eq_sjf_scan] at hp
    have hrun : srtf_schedule s = (some p, (requeue_current s).ready_del p) := by
      unfold srtf_schedule
      simp only [requeue_current_readyqueue, requeue_current_procs, hq, hp]
    rw [hrun]
    exact hq ▸ requeue_shape s (some p) _ (requeue_current_current s)
      (requeue_current_resources s) (requeue_current_procs s)
      (Or.inr ⟨p, hq ▸ hmem, rfl, by rw [ready_del_readyqueue, requeue_current_readyqueue]⟩)

theorem rr_schedule_shape : schedule_shape rr_schedule := by
  intro s
  cases hq : contenders s with
  | nil =>
    have hrun : rr_schedule s = (none, requeue_current s) := by
      unfold rr_schedule
      simp only [requeue_current_readyqueue, hq]
    rw [hrun]
    exact hq ▸ requeue_shape s none _ (requeue_current_current s) (requeue_current_resources s)
      (requeue_current_procs s)
      (Or.inl ⟨hq, rfl, by rw [requeue_current_readyqueue, hq]⟩)
  | cons a rest =>
    have hrun : rr_schedule s = (some a, (requeue_current s).ready_del a) := by
      unfold rr_schedule
      simp only [requeue_current_readyqueue, hq]
    rw [hrun]
    exact hq ▸ requeue_shape s (some a) _ (requeue_current_current s)
      (requeue_current_resources s) (requeue_current_procs s)
      (Or.inr ⟨a, by rw [hq]; exact List.mem_cons_self _ _, rfl,
        by rw [ready_del_readyqueue, requeue_current_readyqueue]⟩)

theorem prio_schedule_shape : schedule_shape prio_schedule := by
  intro s
  by_cases hq : contenders s = []
  · rw [prio_schedule_nil s hq]
    exact requeue_shape s none _ (requeue_current_current s) (requeue_current_resources s)
      (requeue_current_procs s)
      (Or.inl ⟨hq, rfl, by rw [requeue_current_readyqueue, hq]⟩)
  · obtain ⟨p, hmem, hrun⟩ := prio_schedule_some s hq
    rw [hrun]
    exact requeue_shape s (some p) _ (requeue_current_current s)
      (requeue_current_resources s) (requeue_current_procs s)
      (Or.inr ⟨p, hmem, rfl,
        by rw [ready_del_readyqueue, requeue_current_readyqueue]⟩)

theorem pa_schedule_shape : schedule_shape pa_schedule := by
  intro s
  by_cases hq : contenders s = []
  · rw [pa_schedule_nil s hq]
    exact requeue_shape s none _ (requeue_current_current s) (requeue_current_resources s)
      (requeue_current_procs s)
      (Or.inl ⟨hq, rfl, by rw [requeue_current_readyqueue, hq]⟩)
  · obtain ⟨p, hmem, hrun⟩ := pa_schedule_some s hq
    rw [hrun]
    refine ⟨?_, ?_, ?_, ?_, Or.inr ⟨p, hmem, rfl, Or.inl ?_⟩⟩
    · simp only [age_ready_current, ready_del_current, set_prio_current,
        requeue_current_current]
    · simp only [age_ready_resources, ready_del_resources, set_prio_resources,
        requeue_current_resources]
    · intro x
      simp only [age_ready_procs, ready_del_procs, set_prio_procs, requeue_current_procs]
      by_cases h : x = p <;> simp [h]
    · intro x
      simp only [age_ready_procs, ready_del_procs, set_prio_procs, requeue_current_procs]
      by_cases h : x = p <;> simp [h]
    · simp only [age_ready_readyqueue, ready_del_readyqueue, set_prio_readyqueue,
        requeue_current_readyqueue]

/-! ## C18: when the processor idles -/

theorem contenders_eq_nil_iff (s : State) :
    contenders s = [] ↔
      (s.readyqueue = [] ∧
        ¬ ∃ c, s.current = some c ∧ (s.procs c).status ≠ PROCESS_WAIT ∧
          (s.procs c).age < (s.procs c).lifespan) := by
  unfold contenders
  rw [List.append_eq_nil]
  refine and_congr_right (fun _ => ?_)
  rcases runnable_current_cases s with ⟨hrc, hfree⟩ | ⟨c, hc, hst, hage, hrc⟩
  · refine ⟨fun _ => ?_, fun _ => hrc⟩
    rintro ⟨c, hc, hst, hage⟩
    unfold cpu_free at hfree
    rw [hc] at hfree
    rcases hfree with h | h
    · exact hst h
    · omega
  · refine ⟨fun h => ?_, fun h => absurd ⟨c, hc, hst, hage⟩ h⟩
    rw [hrc] at h
    cases h

theorem mem_contenders (s : State) (p : Pid) (h : p ∈ contenders s) :
    s.current = some p ∨ p ∈ s.readyqueue := by
  unfold contenders at h
  rcases List.mem_append.mp h with h | h
  · exact Or.inr h
  · rcases runnable_current_cases s with ⟨hrc, _⟩ | ⟨c, hc, _, _, hrc⟩
    · rw [hrc] at h
      cases h
    · rw [hrc] at h
      have hpc : p = c := by simpa using h
      exact Or.inl (hpc ▸ hc)

theorem idles_of_shape (schedule : State → Option Pid × State)
    (hshape : schedule_shape schedule) (s : State) :
    idles_iff_nothing_runnable schedule s := by
  obtain ⟨_, _, _, _, hcase⟩ := hshape s
  unfold idles_iff_nothing_runnable
  rw [← contenders_eq_nil_iff]
  rcases hcase with ⟨hq, hnone, _⟩ | ⟨p, hmem, hsome, _⟩
  · refine ⟨⟨fun _ => hq, fun _ => hnone⟩, ?_⟩
    intro p hp
    rw [hnone] at hp
    cases hp
  · refine ⟨⟨fun h => ?_, fun h => ?_⟩, ?_⟩
    · rw [hsome] at h
      cases h
    · rw [h] at hmem
      cases hmem
    · intro p' hp'
      rw [hsome] at hp'
      cases hp'
      exact mem_contenders s p hmem

/-- Claim C18: each of `fifo_schedule`, `sjf_schedule`, `srtf_schedule`,
`rr_schedule`, `prio_schedule` and `pa_schedule` returns none exactly
when the ready queue is empty and there is no current process that is not
WAITING and has age < lifespan; a returned process is the previous
current process or was in the ready queue before the call. -/
theorem schedule_idles_iff_nothing_runnable (s : State) :
    idles_iff_nothing_runnable fifo_schedule s ∧
    idles_iff_nothing_runnable sjf_schedule s ∧
    idles_iff_nothing_runnable srtf_schedule s ∧
    idles_iff_nothing_runnable rr_schedule s ∧
    idles_iff_nothing_runnable prio_schedule s ∧
    idles_iff_nothing_runnable pa_schedule s :=
  ⟨idles_of_shape _ fifo_schedule_shape s, idles_of_shape _ sjf_schedule_shape s,
   idles_of_shape _ srtf_schedule_shape s, idles_of_shape _ rr_schedule_shape s,
   idles_of_shape _ prio_schedule_shape s, idles_of_shape _ pa_schedule_shape s⟩

/-! ## C19: the fields no operation writes -/

theorem fields_kept_wake_up (s1 : State) (rid : Nat) (w : Pid) :
    fields_kept s1 (wake_up s1 rid w) := by
  intro x
  rw [wake_up_procs]
  by_cases h : x = w
  · subst h
    simp
  · simp [h]

theorem fcfs_acquire_keeps (s : State) (rid : Nat) :
    acquire_keeps_fields s (fcfs_acquire s rid) := by
  unfold fcfs_acquire acquire_keeps_fields
  cases (s.resources rid).owner with
  | none => exact fields_kept_refl s
  | some o =>
    cases s.current with
    | none => trivial
    | some c => exact fields_kept_set_status s c PROCESS_WAIT

theorem pcp_acquire_keeps ( MAX_PRIO : Nat) (s : State) (rid : Nat) :
    acquire_keeps_fields s (pcp_acquire MAX_PRIO s rid) := by
  unfold pcp_acquire acquire_keeps_fields
  cases (s.resources rid).owner with
  | none =>
    cases s.current with
    | none => trivial
    | some c => exact fields_kept_set_prio (s.set_owner rid (some c)) c MAX_PRIO
  | some o =>
    cases s.current with
    | none => trivial
    | some c => exact fields_kept_set_status s c PROCESS_WAIT

theorem pip_acquire_keeps (s : State) (rid : Nat) :
    acquire_keeps_fields s (pip_acquire s rid) := by
  unfold pip_acquire acquire_keeps_fields
  cases (s.resources rid).owner with
  | none => exact fields_kept_refl s
  | some o =>
    cases s.current with
    | none => trivial
    | some c =>
      exact fields_kept_trans _ _ _ (fields_kept_set_status s c PROCESS_WAIT)
        (fields_kept_set_prio (s.set_status c PROCESS_WAIT) o _)

theorem wake_largest_prio_keeps (s s1 : State) (rid : Nat) (h : fields_kept s s1) :
    release_keeps_fields s (wake_largest_prio s1 rid) := by
  cases hq : (s1.resources rid).waitqueue with
  | nil =>
    rw [wake_largest_prio_nil s1 rid hq]
    exact h
  | cons a rest =>
    obtain ⟨w, _, _, hrun⟩ := wake_largest_prio_cons s1 rid a rest hq
    rw [hrun]
    split
    · exact fields_kept_trans _ _ _ h (fields_kept_wake_up s1 rid w)
    · exact h

theorem fcfs_release_keeps (s : State) (rid : Nat) :
    release_keeps_fields s (fcfs_release s rid) := by
  unfold fcfs_release
  split
  · exact fields_kept_refl s
  · simp only
    split
    · exact fields_kept_refl s
    · split
      · exact fields_kept_refl s
      · exact fields_kept_wake_up _ rid _

theorem prio_release_keeps (s : State) (rid : Nat) :
    release_keeps_fields s (prio_release s rid) := by
  unfold prio_release
  split
  · exact fields_kept_refl s
  · exact wake_largest_prio_keeps s _ rid (fields_kept_refl s)

theorem pcp_release_keeps (s : State) (rid : Nat) :
    release_keeps_fields s (pcp_release s rid) := by
  unfold pcp_release
  split
  · exact fields_kept_refl s
  · split
    · trivial
    · exact wake_largest_prio_keeps s _ rid (fields_kept_set_prio s _ _)

/-- Claim C19: every operation of the core (the four acquire functions,
the four release functions, the six schedule functions) leaves the
prio_orig, the age and the lifespan of every process as they were, in the
state it returns and also in the state in which a failed assert stops it;
what it writes of a process is its status, its prio and its queue
membership. -/
theorem operations_keep_prio_orig_age_lifespan ( MAX_PRIO : Nat) (s : State) (rid : Nat) :
    (acquire_keeps_fields s (fcfs_acquire s rid) ∧
      acquire_keeps_fields s (prio_acquire s rid) ∧
      acquire_keeps_fields s (pcp_acquire MAX_PRIO s rid) ∧
      acquire_keeps_fields s (pip_acquire s rid)) ∧
    (release_keeps_fields s (fcfs_release s rid) ∧
      release_keeps_fields s (prio_release s rid) ∧
      release_keeps_fields s (pcp_release s rid) ∧
      release_keeps_fields s (pip_release s rid)) ∧
    (fields_kept s (fifo_schedule s).2 ∧
      fields_kept s (sjf_schedule s).2 ∧
      fields_kept s (srtf_schedule s).2 ∧
      fields_kept s (rr_schedule s).2 ∧
      fields_kept s (prio_schedule s).2 ∧
      fields_kept s (pa_schedule s).2) :=
  ⟨⟨fcfs_acquire_keeps s rid, prio_acquire_eq_fcfs_acquire ▸ fcfs_acquire_keeps s rid,
      pcp_acquire_keeps MAX_PRIO s rid, pip_acquire_keeps s rid⟩,
   ⟨fcfs_release_keeps s rid, prio_release_keeps s rid, pcp_release_keeps s rid,
      pip_release_eq_pcp_release ▸ pcp_release_keeps s rid⟩,
   ⟨(fifo_schedule_shape s).2.2.2.1, (sjf_schedule_shape s).2.2.2.1,
      (srtf_schedule_shape s).2.2.2.1, (rr_schedule_shape s).2.2.2.1,
      (prio_schedule_shape s).2.2.2.1, (pa_schedule_shape s).2.2.2.1⟩⟩

/-! ## C20: preemption by `prio_schedule` -/

theorem append_singleton_eq_middle (ready pre post : List Pid) (c p : Pid)
    (h : ready ++ [c] = pre ++ p :: post) :
    (post = [] ∧ pre = ready ∧ p = c) ∨
    (∃ post', post = post' ++ [c] ∧ ready = pre ++ p :: post') := by
  rcases List.eq_nil_or_concat post with hp | ⟨L, b, hp⟩
  · subst hp
    have h' : ready ++ [c] = pre ++ [p] := h
    obtain ⟨h1, h2⟩ := List.append_inj' h' rfl
    exact Or.inl ⟨rfl, h1.symm, (List.cons.inj h2).1.symm⟩
  · subst hp
    have h' : ready ++ [c] = (pre ++ p :: L) ++ [b] := by
      rw [h]
      simp
    obtain ⟨h1, h2⟩ := List.append_inj' h' rfl
    have hb : c = b := (List.cons.inj h2).1
    exact Or.inr ⟨L, by rw [hb, List.concat_eq_append], h1⟩

theorem contenders_of_runnable (s : State) (c : Pid) (hc : s.current = some c)
    (hst : (s.procs c).status ≠ PROCESS_WAIT)
    (hage : (s.procs c).age < (s.procs c).lifespan) :
    contenders s = s.readyqueue ++ [c] := by
  unfold contenders runnable_current
  simp only [hc]
  rw [if_pos ⟨hst, hage⟩]

/-- Claim C20: for a current process `c` that is not WAITING and has
age < lifespan, with a prio that is a non-negative `int` for `c` and for
every ready process; in the data model the running process is not linked
into the ready queue.  `prio_schedule` returns `c` again only if the prio
of `c` is strictly greater than the prio of every ready process (and then
it does, leaving the ready queue as it was); if some ready process has a
prio equal to or greater than that of `c`, the earliest ready process of
greatest prio is returned instead and `c` ends at the tail of the ready
queue. -/
theorem prio_schedule_preempts_on_equal_prio (s : State) (c : Pid)
    (hc : s.current = some c) (hst : (s.procs c).status ≠ PROCESS_WAIT)
    (hage : (s.procs c).age < (s.procs c).lifespan)
    (hlinked : c ∉ s.readyqueue)
    (hfit : fits_int s.procs (c :: s.readyqueue)) :
    prio_schedule_contract s c ∧
    ((∀ x ∈ s.readyqueue, (s.procs x).prio < (s.procs c).prio) →
      (prio_schedule s).1 = some c ∧ (prio_schedule s).2.readyqueue = s.readyqueue) := by
  have hQ := contenders_of_runnable s c hc hst hage
  have hne : contenders s ≠ [] := by rw [hQ]; simp
  have hfitQ : fits_int s.procs (contenders s) := by
    intro x hx
    rw [hQ] at hx
    rcases List.mem_append.mp hx with h | h
    · exact hfit x (List.mem_cons_of_mem _ h)
    · exact hfit x (by rw [List.mem_singleton.mp h]; exact List.mem_cons_self _ _)
  obtain ⟨pre, p, post, hfm, hrun, hrq⟩ := prio_schedule_first_max s hne hfitQ
  obtain ⟨hdec, hall, hpre⟩ := hfm
  rw [hQ] at hdec hall
  have hsplit := append_singleton_eq_middle _ _ _ _ _ hdec
  have part1 : (prio_schedule s).1 = some c →
      ∀ x ∈ s.readyqueue, (s.procs x).prio < (s.procs c).prio := by
    intro hret
    rw [hrun] at hret
    have hpc : p = c := Option.some.inj hret
    subst hpc
    rcases hsplit with ⟨_, hpre', _⟩ | ⟨post', _, hready⟩
    · intro x hx
      exact hpre x (hpre' ▸ hx)
    · exact absurd (by rw [hready]; simp) hlinked
  refine ⟨⟨part1, ?_⟩, ?_⟩
  · rintro ⟨x, hx, hle⟩
    rcases hsplit with ⟨_, hpre', hpc⟩ | ⟨post', hpost, hready⟩
    · have := hpre x (hpre' ▸ hx)
      rw [hpc] at this
      simp only at this
      omega
    · refine ⟨pre, p, post', ⟨hready, ?_, hpre⟩, by rw [hrun], ?_⟩
      · intro y hy
        exact hall y (List.mem_append_left _ hy)
      · rw [hrq, hpost, List.append_assoc]
  · intro hlow
    rcases hsplit with ⟨hpost, hpre', hpc⟩ | ⟨post', _, hready⟩
    · refine ⟨by rw [hrun, hpc], ?_⟩
      rw [hrq, hpost, hpre', List.append_nil]
    · have hp : p ∈ s.readyqueue := by rw [hready]; simp
      have h1 := hlow p hp
      have h2 := hall c (by simp)
      simp only at h2
      omega

/-- Witness for C20.  In `equal_prio_ready` the current process 0
(prio 3) meets the ready processes 1 (prio 3) and 2 (prio 1): process 1,
of equal prio, is returned instead, and the ready queue becomes `[2, 0]`.
In `three_waiters` the current process 0 (prio 64) meets the ready
process 4 (prio 3): it is returned again and the ready queue stays
`[4]`. -/
theorem prio_schedule_preempts_on_equal_prio_witness :
    equal_prio_ready.current = some 0 ∧
    (equal_prio_ready.procs 0).status ≠ PROCESS_WAIT ∧
    (equal_prio_ready.procs 0).age < (equal_prio_ready.procs 0).lifespan ∧
    0 ∉ equal_prio_ready.readyqueue ∧
    fits_int equal_prio_ready.procs (0 :: equal_prio_ready.readyqueue) ∧
    prio_schedule_contract equal_prio_ready 0 ∧
    (prio_schedule equal_prio_ready).1 = some 1 ∧
    (prio_schedule equal_prio_ready).2.readyqueue = [2, 0] ∧
    (prio_schedule three_waiters).1 = some 0 ∧
    (prio_schedule three_waiters).2.readyqueue = [4] :=
  ⟨rfl, by decide, by decide, by decide, by decide,
    (prio_schedule_preempts_on_equal_prio equal_prio_ready 0 rfl (by decide) (by decide)
      (by decide) (by decide)).1,
    by decide, by decide,
    ((prio_schedule_preempts_on_equal_prio three_waiters 0 rfl (by decide) (by decide)
      (by decide) (by decide)).2 (by decide)).1,
    ((prio_schedule_preempts_on_equal_prio three_waiters 0 rfl (by decide) (by decide)
      (by decide) (by decide)).2 (by decide)).2⟩

/-! ## The shape of the acquire and release functions -/

theorem fcfs_acquire_shape : acquire_shape fcfs_acquire := by
  intro s c rid b s' hc h
  unfold fcfs_acquire at h
  cases ho : (s.resources rid).owner with
  | none =>
    rw [ho] at h
    simp only [Except.ok.injEq, Prod.mk.injEq] at h
    obtain ⟨rfl, rfl⟩ := h
    refine ⟨rfl, rfl, fun _ => ⟨fun _ => rfl, fun k => set_owner_waitqueue _ _ _ _⟩, ?_⟩
    intro hb
    cases hb
  | some o =>
    rw [ho, hc] at h
    simp only [Except.ok.injEq, Prod.mk.injEq] at h
    obtain ⟨rfl, rfl⟩ := h
    refine ⟨rfl, rfl, ?_, fun _ => ⟨?_, ?_, ?_, ?_⟩⟩
    · intro hb
      cases hb
    · simp [State.waitqueue_add_tail, State.set_status]
    · intro x hx
      simp [State.waitqueue_add_tail, State.set_status, hx]
    · simp [State.waitqueue_add_tail, State.set_status]
    · intro k hk
      simp [State.waitqueue_add_tail, State.set_status, hk]

theorem pcp_acquire_shape ( MAX_PRIO : Nat) : acquire_shape (pcp_acquire MAX_PRIO) := by
  intro s c rid b s' hc h
  unfold pcp_acquire at h
  cases ho : (s.resources rid).owner with
  | none =>
    rw [ho, hc] at h
    simp only [Except.ok.injEq, Prod.mk.injEq] at h
    obtain ⟨rfl, rfl⟩ := h
    refine ⟨rfl, rfl, fun _ => ⟨?_, ?_⟩, ?_⟩
    · intro x
      by_cases hx : x = c <;> simp [State.set_prio, State.set_owner, hx]
    · intro k
      simp only [set_prio_resources]
      exact set_owner_waitqueue _ _ _ _
    · intro hb
      cases hb
  | some o =>
    rw [ho, hc] at h
    simp only [Except.ok.injEq, Prod.mk.injEq] at h
    obtain ⟨rfl, rfl⟩ := h
    refine ⟨rfl, rfl, ?_, fun _ => ⟨?_, ?_, ?_, ?_⟩⟩
    · intro hb
      cases hb
    · simp [State.waitqueue_add_tail, State.set_status]
    · intro x hx
      simp [State.waitqueue_add_tail, State.set_status, hx]
    · simp [State.waitqueue_add_tail, State.set_status]
    · intro k hk
      simp [State.waitqueue_add_tail, State.set_status, hk]

theorem pip_acquire_shape : acquire_shape pip_acquire := by
  intro s c rid b s' hc h
  unfold pip_acquire at h
  cases ho : (s.resources rid).owner with
  | none =>
    rw [ho] at h
    simp only [Except.ok.injEq, Prod.mk.injEq] at h
    obtain ⟨rfl, rfl⟩ := h
    refine ⟨rfl, rfl, fun _ => ⟨fun _ => rfl, fun k => set_owner_waitqueue _ _ _ _⟩, ?_⟩
    intro hb
    cases hb
  | some o =>
    rw [ho, hc] at h
    simp only [Except.ok.injEq, Prod.mk.injEq] at h
    obtain ⟨rfl, rfl⟩ := h
    refine ⟨rfl, rfl, ?_, fun _ => ⟨?_, ?_, ?_, ?_⟩⟩
    · intro hb
      cases hb
    · by_cases hco : c = o <;>
        simp [State.waitqueue_add_tail, State.set_status, State.set_prio, hco]
    · intro x hx
      by_cases hxo : x = o
      · subst hxo
        simp [State.waitqueue_add_tail, State.set_status, State.set_prio, hx]
      · simp [State.waitqueue_add_tail, State.set_status, State.set_prio, hx, hxo]
    · simp [State.waitqueue_add_tail, State.set_status, State.set_prio]
    · intro k hk
      simp [State.waitqueue_add_tail, State.set_status, State.set_prio, hk]

theorem wake_up_shape (s s1 s' : State) (rid : Nat) (w : Pid)
    (hst : ∀ x, (s1.procs x).status = (s.procs x).status)
    (hrq : s1.readyqueue = s.readyqueue)
    (hwq : ∀ k, (s1.resources k).waitqueue = (s.resources k).waitqueue)
    (hmem : w ∈ (s1.resources rid).waitqueue)
    (hwait : (s1.procs w).status = PROCESS_WAIT)
    (hs' : s' = wake_up s1 rid w) :
    ∃ w, w ∈ (s.resources rid).waitqueue ∧
      (s.procs w).status = PROCESS_WAIT ∧
      (s'.procs w).status = PROCESS_READY ∧
      (∀ x, x ≠ w → (s'.procs x).status = (s.procs x).status) ∧
      s'.readyqueue = s.readyqueue ++ [w] ∧
      (s'.resources rid).waitqueue = (s.resources rid).waitqueue.erase w ∧
      ∀ k, k ≠ rid → (s'.resources k).waitqueue = (s.resources k).waitqueue := by
  subst hs'
  refine ⟨w, hwq rid ▸ hmem, hst w ▸ hwait, wake_up_status _ _ _, ?_, ?_, ?_, ?_⟩
  · intro x hx
    rw [wake_up_procs]
    simp [hx, hst x]
  · rw [wake_up_readyqueue, hrq]
  · rw [wake_up_waitqueue, hwq rid]
  · intro k hk
    rw [wake_up_waitqueue_other _ _ _ _ hk, hwq k]

theorem wake_largest_prio_shape (s s1 s' : State) (rid : Nat)
    (hcur : s1.current = s.current)
    (hst : ∀ x, (s1.procs x).status = (s.procs x).status)
    (hrq : s1.readyqueue = s.readyqueue)
    (hwq : ∀ k, (s1.resources k).waitqueue = (s.resources k).waitqueue)
    (h : wake_largest_prio s1 rid = .ok s') :
    s'.current = s.current ∧
    (((∀ x, (s'.procs x).status = (s.procs x).status) ∧
       s'.readyqueue = s.readyqueue ∧
       ∀ k, (s'.resources k).waitqueue = (s.resources k).waitqueue) ∨
     (∃ w, w ∈ (s.resources rid).waitqueue ∧
       (s.procs w).status = PROCESS_WAIT ∧
       (s'.procs w).status = PROCESS_READY ∧
       (∀ x, x ≠ w → (s'.procs x).status = (s.procs x).status) ∧
       s'.readyqueue = s.readyqueue ++ [w] ∧
       (s'.resources rid).waitqueue = (s.resources rid).waitqueue.erase w ∧
       ∀ k, k ≠ rid → (s'.resources k).waitqueue = (s.resources k).waitqueue)) := by
  cases hq : (s1.resources rid).waitqueue with
  | nil =>
    rw [wake_largest_prio_nil s1 rid hq] at h
    simp only [Except.ok.injEq] at h
    subst h
    exact ⟨hcur, Or.inl ⟨hst, hrq, hwq⟩⟩
  | cons a rest =>
    obtain ⟨w, _, hmem, hrun⟩ := wake_largest_prio_cons s1 rid a rest hq
    rw [hrun] at h
    by_cases hwait : (s1.procs w).status = PROCESS_WAIT
    · rw [if_pos hwait] at h
      simp only [Except.ok.injEq] at h
      refine ⟨by rw [← h, wake_up_current, hcur], Or.inr ?_⟩
      exact wake_up_shape s s1 s' rid w hst hrq hwq hmem hwait h.symm
    · rw [if_neg hwait] at h
      cases h

theorem fcfs_release_shape : release_shape fcfs_release := by
  intro s rid s' h
  unfold fcfs_release at h
  by_cases hown : (s.resources rid).owner ≠ s.current
  · rw [if_pos hown] at h
    cases h
  · rw [if_neg hown] at h
    simp only at h
    cases hq : ((s.set_owner rid none).resources rid).waitqueue with
    | nil =>
      rw [hq] at h
      simp only [Except.ok.injEq] at h
      subst h
      exact ⟨rfl, Or.inl ⟨fun _ => rfl, rfl, fun k => set_owner_waitqueue s rid none k⟩⟩
    | cons w rest =>
      rw [hq] at h
      simp only at h
      by_cases hwait : ((s.set_owner rid none).procs w).status = PROCESS_WAIT
      · rw [if_neg (not_not.mpr hwait)] at h
        simp only [Except.ok.injEq] at h
        refine ⟨by rw [← h, wake_up_current]; rfl, Or.inr ?_⟩
        have hmem : w ∈ ((s.set_owner rid none).resources rid).waitqueue := by
          rw [hq]
          exact List.mem_cons_self _ _
        exact wake_up_shape s (s.set_owner rid none) s' rid w (fun _ => rfl) rfl
          (fun k => set_owner_waitqueue s rid none k) hmem hwait h.symm
      · rw [if_pos hwait] at h
        cases h

theorem prio_release_shape : release_shape prio_release := by
  intro s rid s' h
  unfold prio_release at h
  by_cases hown : (s.resources rid).owner ≠ s.current
  · rw [if_pos hown] at h
    cases h
  · rw [if_neg hown] at h
    exact wake_largest_prio_shape s (s.set_owner rid none) s' rid rfl (fun _ => rfl) rfl
      (fun k => set_owner_waitqueue s rid none k) h

theorem pcp_release_shape : release_shape pcp_release := by
  intro s rid s' h
  unfold pcp_release at h
  by_cases hown : (s.resources rid).owner ≠ s.current
  · rw [if_pos hown] at h
    cases h
  · rw [if_neg hown] at h
    cases hc : s.current with
    | none =>
      rw [hc] at h
      cases h
    | some c =>
      rw [hc] at h
      have hwq : ∀ k, (((restored s c).set_owner rid none).resources k).waitqueue =
          (s.resources k).waitqueue := by
        intro k
        rw [set_owner_waitqueue, restored_resources]
      have := wake_largest_prio_shape s ((restored s c).set_owner rid none) s' rid
        rfl (fun x => restored_status s c x) rfl hwq h
      rw [hc] at this
      exact this

/-! ## The queue-membership invariant -/

theorem linked_of_same (s s' : State) (hl : linked s)
    (hcur : s'.current = s.current) (hrq : s'.readyqueue = s.readyqueue)
    (hwq : ∀ k, (s'.resources k).waitqueue = (s.resources k).waitqueue)
    (hst : ∀ x, (s'.procs x).status = (s.procs x).status) : linked s' := by
  obtain ⟨j1, j4a, j2, j4b, j3⟩ := hl
  refine ⟨hrq ▸ j1, fun k => hwq k ▸ j4a k, ?_, ?_, ?_⟩
  · intro k p hp
    rw [hrq]
    exact j2 k p (hwq k ▸ hp)
  · intro k k' p hp hp'
    exact j4b k k' p (hwq k ▸ hp) (hwq k' ▸ hp')
  · intro c hc hstc
    rw [hcur] at hc
    rw [hst c] at hstc
    obtain ⟨h1, h2⟩ := j3 c hc hstc
    exact ⟨hrq ▸ h1, fun k => hwq k ▸ h2 k⟩

theorem linked_acquire (acquire : State → Nat → Except Failure (Bool × State))
    (hshape : acquire_shape acquire) (s s' : State) (c : Pid) (rid : Nat) (b : Bool)
    (hl : linked s) (hc : s.current = some c)
    (hrun : (s.procs c).status = PROCESS_RUNNING)
    (h : acquire s rid = .ok (b, s')) : linked s' := by
  obtain ⟨hcur, hrq, htrue, hfalse⟩ := hshape s c rid b s' hc h
  cases b with
  | true =>
    obtain ⟨hst, hwq⟩ := htrue rfl
    exact linked_of_same s s' hl hcur hrq hwq hst
  | false =>
    obtain ⟨hstc, hst, hwqr, hwqo⟩ := hfalse rfl
    obtain ⟨j1, j4a, j2, j4b, j3⟩ := hl
    have hnw : (s.procs c).status ≠ PROCESS_WAIT := by rw [hrun]; decide
    obtain ⟨hcr, hcw⟩ := j3 c hc hnw
    have hmem : ∀ k p, p ∈ (s'.resources k).waitqueue →
        p ∈ (s.resources k).waitqueue ∨ (p = c ∧ k = rid) := by
      intro k p hp
      by_cases hk : k = rid
      · subst hk
        rw [hwqr] at hp
        rcases List.mem_append.mp hp with h1 | h1
        · exact Or.inl h1
        · exact Or.inr ⟨by simpa using h1, rfl⟩
      · rw [hwqo k hk] at hp
        exact Or.inl hp
    refine ⟨hrq ▸ j1, ?_, ?_, ?_, ?_⟩
    · intro k
      by_cases hk : k = rid
      · subst hk
        rw [hwqr]
        exact List.Nodup.append (j4a k) (List.nodup_singleton c)
          (by
            intro x hx hx'
            have hxc : x = c := by simpa using hx'
            exact hcw k (hxc ▸ hx))
      · rw [hwqo k hk]
        exact j4a k
    · intro k p hp
      rw [hrq]
      rcases hmem k p hp with h1 | ⟨h1, _⟩
      · exact j2 k p h1
      · rw [h1]
        exact hcr
    · intro k k' p hp hp'
      rcases hmem k p hp with h1 | ⟨h1, h2⟩
      · rcases hmem k' p hp' with h1' | ⟨h1', _⟩
        · exact j4b k k' p h1 h1'
        · exact absurd (h1' ▸ h1) (hcw k)
      · rcases hmem k' p hp' with h1' | ⟨_, h2'⟩
        · exact absurd (h1 ▸ h1') (hcw k')
        · rw [h2, h2']
    · intro c' hc' hstc'
      rw [hcur, hc] at hc'
      have : c' = c := (Option.some.inj hc').symm
      rw [this] at hstc'
      exact absurd hstc hstc'

theorem linked_release (release : State → Nat → Except Failure State)
    (hshape : release_shape release) (s s' : State) (c : Pid) (rid : Nat)
    (hl : linked s) (hc : s.current = some c)
    (hrun : (s.procs c).status = PROCESS_RUNNING)
    (h : release s rid = .ok s') : linked s' := by
  obtain ⟨hcur, hcase⟩ := hshape s rid s' h
  rcases hcase with ⟨hst, hrq, hwq⟩ | ⟨w, hwmem, hwwait, _, hst, hrq, hwqr, hwqo⟩
  · exact linked_of_same s s' hl hcur hrq hwq hst
  · obtain ⟨j1, j4a, j2, j4b, j3⟩ := hl
    have hcw : c ≠ w := by
      intro hcw
      rw [hcw, hwwait] at hrun
      cases hrun
    have hsub : ∀ k p, p ∈ (s'.resources k).waitqueue →
        p ∈ (s.resources k).waitqueue ∧ p ≠ w := by
      intro k p hp
      by_cases hk : k = rid
      · subst hk
        rw [hwqr] at hp
        exact ⟨List.mem_of_mem_erase hp, fun hpw =>
          ((j4a k).mem_erase_iff.mp hp).1 hpw⟩
      · rw [hwqo k hk] at hp
        refine ⟨hp, fun hpw => hk ?_⟩
        exact j4b k rid p hp (hpw ▸ hwmem)
    refine ⟨?_, ?_, ?_, ?_, ?_⟩
    · rw [hrq]
      exact List.Nodup.append j1 (List.nodup_singleton w)
        (by
          intro x hx hx'
          have hxw : x = w := by simpa using hx'
          exact j2 rid w hwmem (hxw ▸ hx))
    · intro k
      by_cases hk : k = rid
      · subst hk
        rw [hwqr]
        exact (j4a k).erase w
      · rw [hwqo k hk]
        exact j4a k
    · intro k p hp
      obtain ⟨h1, h2⟩ := hsub k p hp
      rw [hrq]
      intro hmem
      rcases List.mem_append.mp hmem with h3 | h3
      · exact j2 k p h1 h3
      · exact h2 (by simpa using h3)
    · intro k k' p hp hp'
      exact j4b k k' p (hsub k p hp).1 (hsub k' p hp').1
    · intro c' hc' hstc'
      rw [hcur, hc] at hc'
      have hcc : c' = c := (Option.some.inj hc').symm
      subst hcc
      have hnw : (s.procs c').status ≠ PROCESS_WAIT := by rw [hrun]; decide
      obtain ⟨h1, h2⟩ := j3 c' hc hnw
      refine ⟨?_, fun k hk => h2 k (hsub k c' hk).1⟩
      rw [hrq]
      intro hmem
      rcases List.mem_append.mp hmem with h3 | h3
      · exact h1 h3
      · exact hcw (by simpa using h3)

theorem dispatch_status (r : Option Pid × State) (x : Pid) :
    ((dispatch r).procs x).status =
      if r.1 = some x then PROCESS_RUNNING else (r.2.procs x).status := by
  unfold dispatch
  split
  · rename_i h
    simp [h]
  · rename_i n h
    by_cases hx : x = n
    · subst hx
      simp [h, State.set_status]
    · have hne : ¬ (n = x) := fun hh => hx hh.symm
      simp [h, State.set_status, hx, hne]

theorem age_current_status (s : State) (x : Pid) :
    ((age_current s).procs x).status = (s.procs x).status := by
  unfold age_current
  split
  · rfl
  · rename_i c _
    by_cases h : x = c <;> simp [h]

theorem contenders_detached (s : State) (hl : linked s) :
    (contenders s).Nodup ∧
    ∀ x ∈ contenders s, ∀ k, x ∉ (s.resources k).waitqueue := by
  obtain ⟨j1, _, j2, _, j3⟩ := hl
  have hready : ∀ x ∈ s.readyqueue, ∀ k, x ∉ (s.resources k).waitqueue :=
    fun x hx k hk => j2 k x hk hx
  unfold contenders
  rcases runnable_current_cases s with ⟨hrc, _⟩ | ⟨c, hc, hst, _, hrc⟩
  · rw [hrc, List.append_nil]
    exact ⟨j1, hready⟩
  · obtain ⟨h1, h2⟩ := j3 c hc hst
    rw [hrc]
    refine ⟨List.Nodup.append j1 (List.nodup_singleton c) ?_, ?_⟩
    · intro x hx hx'
      have hxc : x = c := by simpa using hx'
      exact h1 (hxc ▸ hx)
    · intro x hx
      rcases List.mem_append.mp hx with h3 | h3
      · exact hready x h3
      · have hxc : x = c := by simpa using h3
        rw [hxc]
        exact h2

theorem schedule_returns_detached (schedule : State → Option Pid × State)
    (hshape : schedule_shape schedule) (s : State) (hl : linked s) :
    (schedule s).2.readyqueue.Nodup ∧
    (∀ x ∈ (schedule s).2.readyqueue, ∀ k, x ∉ (s.resources k).waitqueue) ∧
    ∀ p, (schedule s).1 = some p →
      p ∉ (schedule s).2.readyqueue ∧ ∀ k, p ∉ (s.resources k).waitqueue := by
  obtain ⟨_, _, _, _, hcase⟩ := hshape s
  obtain ⟨hnd, hdet⟩ := contenders_detached s hl
  rcases hcase with ⟨_, hnone, hrq⟩ | ⟨p, hmem, hsome, hrq | ⟨hrc, hrq⟩⟩
  · rw [hrq]
    refine ⟨List.nodup_nil, by simp, ?_⟩
    intro p hp
    rw [hnone] at hp
    cases hp
  · rw [hrq]
    refine ⟨hnd.erase p, fun x hx => hdet x (List.mem_of_mem_erase hx), ?_⟩
    intro p' hp'
    rw [hsome] at hp'
    cases hp'
    exact ⟨fun h => (hnd.mem_erase_iff.mp h).1 rfl, hdet p hmem⟩
  · rw [hrq]
    obtain ⟨j1, _, j2, _, _⟩ := hl
    refine ⟨j1, fun x hx k hk => j2 k x hk hx, ?_⟩
    intro p' hp'
    rw [hsome] at hp'
    cases hp'
    refine ⟨?_, hdet p hmem⟩
    intro hpr
    have hcount : (contenders s).count p = 1 := List.count_eq_one_of_mem hnd hmem
    unfold contenders at hcount
    rw [hrc, List.count_append, List.count_singleton_self] at hcount
    have : 0 < s.readyqueue.count p := List.count_pos_iff.mpr hpr
    omega

theorem linked_schedule (schedule : State → Option Pid × State)
    (hshape : schedule_shape schedule) (s : State) (hl : linked s) :
    linked (dispatch (schedule s)) := by
  obtain ⟨hnd, hdet, hret⟩ := schedule_returns_detached schedule hshape s hl
  obtain ⟨_, hres, _, _, _⟩ := hshape s
  obtain ⟨_, j4a, _, j4b, _⟩ := hl
  refine ⟨?_, ?_, ?_, ?_, ?_⟩
  · rw [dispatch_readyqueue]
    exact hnd
  · intro k
    rw [dispatch_resources, hres]
    exact j4a k
  · intro k p hp
    rw [dispatch_resources, hres] at hp
    rw [dispatch_readyqueue]
    exact fun hpr => hdet p hpr k hp
  · intro k k' p hp hp'
    rw [dispatch_resources, hres] at hp hp'
    exact j4b k k' p hp hp'
  · intro c hc _
    rw [dispatch_current] at hc
    obtain ⟨h1, h2⟩ := hret c hc
    rw [dispatch_readyqueue]
    refine ⟨h1, ?_⟩
    intro k
    rw [dispatch_resources, hres]
    exact h2 k

theorem linked_age (s : State) (hl : linked s) : linked (age_current s) :=
  linked_of_same s _ hl (age_current_current s) (age_current_readyqueue s)
    (fun k => by rw [age_current_resources]) (age_current_status s)

theorem linked_of_initially (s : State) (h : linked_initially s) : linked s := by
  obtain ⟨h1, h2, h3, h4, h5⟩ := h
  exact ⟨h1, h2, h3, h4, fun c hc _ => h5 c hc⟩

theorem prio_acquire_shape : acquire_shape prio_acquire :=
  prio_acquire_eq_fcfs_acquire ▸ fcfs_acquire_shape

theorem pip_release_shape : release_shape pip_release :=
  pip_release_eq_pcp_release ▸ pcp_release_shape

theorem configurations_shapes ( MAX_PRIO : Nat) (sched : scheduler)
    (h : sched ∈ configurations MAX_PRIO) :
    acquire_shape sched.acquire ∧ release_shape sched.release ∧
    schedule_shape sched.schedule := by
  simp only [configurations, List.mem_cons, List.mem_singleton, List.not_mem_nil,
    or_false] at h
  rcases h with rfl | rfl | rfl | rfl | rfl | rfl | rfl | rfl
  · exact ⟨fcfs_acquire_shape, fcfs_release_shape, fifo_schedule_shape⟩
  · exact ⟨fcfs_acquire_shape, fcfs_release_shape, sjf_schedule_shape⟩
  · exact ⟨fcfs_acquire_shape, fcfs_release_shape, srtf_schedule_shape⟩
  · exact ⟨fcfs_acquire_shape, fcfs_release_shape, rr_schedule_shape⟩
  · exact ⟨prio_acquire_shape, prio_release_shape, prio_schedule_shape⟩
  · exact ⟨prio_acquire_shape, prio_release_shape, pa_schedule_shape⟩
  · exact ⟨pcp_acquire_shape MAX_PRIO, pcp_release_shape, prio_schedule_shape⟩
  · exact ⟨pip_acquire_shape, pip_release_shape, prio_schedule_shape⟩

theorem reach_linked (sched : scheduler)
    (hshape : acquire_shape sched.acquire ∧ release_shape sched.release ∧
      schedule_shape sched.schedule)
    (init : State) (hinit : linked init) :
    ∀ (s : State) (g : Pid → Option Nat), Reach sched init s g → linked s := by
  intro s g h
  induction h with
  | start => exact hinit
  | acquire s s' g c rid b _ hc hrun hacq ih =>
    exact linked_acquire _ hshape.1 s s' c rid b ih hc hrun hacq
  | release s s' g c rid _ hc hrun hrel ih =>
    exact linked_release _ hshape.2.1 s s' c rid ih hc hrun hrel
  | schedule s g _ ih => exact linked_schedule _ hshape.2.2 s ih
  | run s g _ ih => exact linked_age s ih

/-! ## C17: queue membership -/

/-- Claim C17: for each configuration (the six schedule functions with
their acquire and release functions, and the PCP and PIP configurations),
from an initial state in which each process is in at most one queue, once,
and the current process is in none, in every state reached by acquire and
release calls of the running current process, schedule calls after which
the returned process is made current and RUNNING, and ticks of age: a
process that `schedule` returns is afterwards neither in the ready queue
nor in any waitqueue, and no process occurs twice in the ready queue or
in both the ready queue and a waitqueue, before and after the call. -/
theorem queue_membership_invariant ( MAX_PRIO : Nat) (sched : scheduler)
    (hsched : sched ∈ configurations MAX_PRIO) (init : State)
    (hinit : linked_initially init) (s : State) (g : Pid → Option Nat)
    (hreach : Reach sched init s g) :
    (∀ p, (sched.schedule s).1 = some p →
      p ∉ (sched.schedule s).2.readyqueue ∧
      ∀ k, p ∉ ((sched.schedule s).2.resources k).waitqueue) ∧
    ((sched.schedule s).2.readyqueue.Nodup ∧
      ∀ k p, p ∈ ((sched.schedule s).2.resources k).waitqueue →
        p ∉ (sched.schedule s).2.readyqueue) ∧
    (s.readyqueue.Nodup ∧
      ∀ k p, p ∈ (s.resources k).waitqueue → p ∉ s.readyqueue) := by
  have hshape := configurations_shapes MAX_PRIO sched hsched
  have hl := reach_linked sched hshape init (linked_of_initially init hinit) s g hreach
  obtain ⟨hnd, hdet, hret⟩ := schedule_returns_detached _ hshape.2.2 s hl
  obtain ⟨_, hres, _, _, _⟩ := hshape.2.2 s
  refine ⟨?_, ⟨hnd, ?_⟩, ⟨hl.1, hl.2.2.1⟩⟩
  · intro p hp
    rw [hres]
    exact hret p hp
  · intro k p hp hpr
    rw [hres] at hp
    exact hdet p hpr k hp

/-- Witness for C17: the FIFO configuration started in `three_arrive`,
where three processes are in the ready queue and nothing else is
linked. -/
theorem queue_membership_invariant_witness :
    fifo_scheduler ∈ configurations 64 ∧ linked_initially three_arrive ∧
    Reach fifo_scheduler three_arrive (dispatch (fifo_schedule three_arrive))
      (fun _ => none) ∧
    (dispatch (fifo_schedule three_arrive)).readyqueue.Nodup :=
  have hcfg : fifo_scheduler ∈ configurations 64 := by simp [configurations]
  have hinit : linked_initially three_arrive :=
    ⟨by decide, fun _ => by simp [three_arrive, fresh],
      fun _ _ h => by simp [three_arrive, fresh] at h,
      fun _ _ _ h => by simp [three_arrive, fresh] at h,
      fun _ h => by simp [three_arrive, fresh] at h⟩
  have hreach : Reach fifo_scheduler three_arrive (dispatch (fifo_schedule three_arrive))
      (fun _ => none) := .schedule _ _ .start
  ⟨hcfg, hinit, hreach,
    (queue_membership_invariant 64 fifo_scheduler hcfg three_arrive hinit _ _ hreach).2.2.1⟩

/-! ## C16: waitqueue soundness -/

theorem waiting_recorded_of_same (s s' : State) (g : Pid → Option Nat)
    (hw : waiting_recorded s g)
    (hwq : ∀ k, (s'.resources k).waitqueue = (s.resources k).waitqueue)
    (hst : ∀ x, (s'.procs x).status = (s.procs x).status) : waiting_recorded s' g := by
  obtain ⟨a1, a2⟩ := hw
  refine ⟨?_, ?_⟩
  · intro k p hp
    rw [hwq k] at hp
    rw [hst p]
    exact a1 k p hp
  · intro p hp
    rw [hst p] at hp
    obtain ⟨k, hk⟩ := a2 p hp
    exact ⟨k, by rw [hwq k]; exact hk⟩

theorem waiting_recorded_acquire (acquire : State → Nat → Except Failure (Bool × State))
    (hshape : acquire_shape acquire) (s s' : State) (g : Pid → Option Nat)
    (c : Pid) (rid : Nat) (b : Bool)
    (hl : linked s) (hw : waiting_recorded s g) (hc : s.current = some c)
    (hrun : (s.procs c).status = PROCESS_RUNNING)
    (h : acquire s rid = .ok (b, s')) :
    waiting_recorded s' (if b = true then g else deny g c rid) := by
  obtain ⟨_, _, htrue, hfalse⟩ := hshape s c rid b s' hc h
  cases b with
  | true =>
    obtain ⟨hst, hwq⟩ := htrue rfl
    simp only [if_true]
    exact waiting_recorded_of_same s s' g hw hwq hst
  | false =>
    obtain ⟨hstc, hst, hwqr, hwqo⟩ := hfalse rfl
    obtain ⟨a1, a2⟩ := hw
    have hnw : (s.procs c).status ≠ PROCESS_WAIT := by rw [hrun]; decide
    have hcw : ∀ k, c ∉ (s.resources k).waitqueue := (hl.2.2.2.2 c hc hnw).2
    simp only [Bool.false_eq_true, if_false]
    refine ⟨?_, ?_⟩
    · intro k p hp
      by_cases hpc : p = c
      · subst hpc
        refine ⟨hstc, ?_⟩
        by_cases hk : k = rid
        · simp [deny, hk]
        · rw [hwqo k hk] at hp
          exact absurd hp (hcw k)
      · have hp' : p ∈ (s.resources k).waitqueue := by
          by_cases hk : k = rid
          · subst hk
            rw [hwqr] at hp
            rcases List.mem_append.mp hp with h1 | h1
            · exact h1
            · exact absurd (by simpa using h1) hpc
          · rw [hwqo k hk] at hp
            exact hp
        obtain ⟨h1, h2⟩ := a1 k p hp'
        exact ⟨by rw [hst p hpc]; exact h1, by simp [deny, hpc, h2]⟩
    · intro p hp
      by_cases hpc : p = c
      · exact ⟨rid, by rw [hwqr, hpc]; simp⟩
      · rw [hst p hpc] at hp
        obtain ⟨k, hk⟩ := a2 p hp
        refine ⟨k, ?_⟩
        by_cases hkr : k = rid
        · subst hkr
          rw [hwqr]
          exact List.mem_append_left _ hk
        · rw [hwqo k hkr]
          exact hk

theorem waiting_recorded_release (release : State → Nat → Except Failure State)
    (hshape : release_shape release) (s s' : State) (g : Pid → Option Nat) (rid : Nat)
    (hl : linked s) (hw : waiting_recorded s g)
    (h : release s rid = .ok s') : waiting_recorded s' g := by
  obtain ⟨_, hcase⟩ := hshape s rid s' h
  rcases hcase with ⟨hst, _, hwq⟩ | ⟨w, hwmem, _, hready, hst, _, hwqr, hwqo⟩
  · exact waiting_recorded_of_same s s' g hw hwq hst
  · obtain ⟨a1, a2⟩ := hw
    obtain ⟨_, j4a, _, j4b, _⟩ := hl
    have hsub : ∀ k p, p ∈ (s'.resources k).waitqueue →
        p ∈ (s.resources k).waitqueue ∧ p ≠ w := by
      intro k p hp
      by_cases hk : k = rid
      · subst hk
        rw [hwqr] at hp
        exact ⟨List.mem_of_mem_erase hp, fun hpw =>
          ((j4a k).mem_erase_iff.mp hp).1 hpw⟩
      · rw [hwqo k hk] at hp
        exact ⟨hp, fun hpw => hk (j4b k rid p hp (hpw ▸ hwmem))⟩
    refine ⟨?_, ?_⟩
    · intro k p hp
      obtain ⟨h1, h2⟩ := hsub k p hp
      rw [hst p h2]
      exact a1 k p h1
    · intro p hp
      have hpw : p ≠ w := by
        intro hpw
        rw [hpw, hready] at hp
        cases hp
      rw [hst p hpw] at hp
      obtain ⟨k, hk⟩ := a2 p hp
      refine ⟨k, ?_⟩
      by_cases hkr : k = rid
      · subst hkr
        rw [hwqr]
        exact (List.mem_erase_of_ne hpw).mpr hk
      · rw [hwqo k hkr]
        exact hk

theorem waiting_recorded_schedule (schedule : State → Option Pid × State)
    (hshape : schedule_shape schedule) (s : State) (g : Pid → Option Nat)
    (hl : linked s) (hw : waiting_recorded s g) :
    waiting_recorded (dispatch (schedule s)) g := by
  obtain ⟨_, _, hret⟩ := schedule_returns_detached schedule hshape s hl
  obtain ⟨_, hres, hst, _, _⟩ := hshape s
  obtain ⟨a1, a2⟩ := hw
  refine ⟨?_, ?_⟩
  · intro k p hp
    rw [dispatch_resources, hres] at hp
    obtain ⟨h1, h2⟩ := a1 k p hp
    rw [dispatch_status]
    by_cases hr : (schedule s).1 = some p
    · exact absurd hp ((hret p hr).2 k)
    · rw [if_neg hr, hst p]
      exact ⟨h1, h2⟩
  · intro p hp
    rw [dispatch_status] at hp
    by_cases hr : (schedule s).1 = some p
    · rw [if_pos hr] at hp
      cases hp
    · rw [if_neg hr, hst p] at hp
      obtain ⟨k, hk⟩ := a2 p hp
      exact ⟨k, by rw [dispatch_resources, hres]; exact hk⟩

theorem reach_waiting_recorded (sched : scheduler)
    (hshape : acquire_shape sched.acquire ∧ release_shape sched.release ∧
      schedule_shape sched.schedule)
    (init : State) (hinit : linked init)
    (hwinit : waiting_recorded init (fun _ => none)) :
    ∀ (s : State) (g : Pid → Option Nat), Reach sched init s g →
      linked s ∧ waiting_recorded s g := by
  intro s g h
  induction h with
  | start => exact ⟨hinit, hwinit⟩
  | acquire s s' g c rid b _ hc hrun hacq ih =>
    exact ⟨linked_acquire _ hshape.1 s s' c rid b ih.1 hc hrun hacq,
      waiting_recorded_acquire _ hshape.1 s s' g c rid b ih.1 ih.2 hc hrun hacq⟩
  | release s s' g c rid _ hc hrun hrel ih =>
    exact ⟨linked_release _ hshape.2.1 s s' c rid ih.1 hc hrun hrel,
      waiting_recorded_release _ hshape.2.1 s s' g rid ih.1 ih.2 hrel⟩
  | schedule s g _ ih =>
    exact ⟨linked_schedule _ hshape.2.2 s ih.1,
      waiting_recorded_schedule _ hshape.2.2 s g ih.1 ih.2⟩
  | run s g _ ih =>
    exact ⟨linked_age s ih.1,
      waiting_recorded_of_same s _ g ih.2 (fun k => by rw [age_current_resources])
        (age_current_status s)⟩

/-- Claim C16: for each of the eight configurations, from an initial
state with all waitqueues empty and no WAITING process (in the data model
a process has one list node, so the ready queue holds no process twice
and the running process is not in it), in every state reached by acquire
and release calls of the running current process, schedule calls after
which the returned process is made current and RUNNING, and ticks of age:
a process is in some waitqueue exactly when its status is WAITING, and a
WAITING process is in exactly one waitqueue, once, that of the resource
whose acquire it was last denied. -/
theorem waitqueue_soundness ( MAX_PRIO : Nat) (sched : scheduler)
    (hsched : sched ∈ configurations MAX_PRIO) (init : State)
    (hempty : ∀ k, (init.resources k).waitqueue = [])
    (hnowait : ∀ p, (init.procs p).status ≠ PROCESS_WAIT)
    (hnodup : init.readyqueue.Nodup)
    (hcur : ∀ c, init.current = some c → c ∉ init.readyqueue)
    (s : State) (g : Pid → Option Nat) (hreach : Reach sched init s g) :
    waitqueue_sound s g := by
  have hshape := configurations_shapes MAX_PRIO sched hsched
  have hl0 : linked init := by
    refine ⟨hnodup, ?_, ?_, ?_, ?_⟩
    · intro k
      rw [hempty k]
      exact List.nodup_nil
    · intro k p hp
      rw [hempty k] at hp
      cases hp
    · intro k k' p hp
      rw [hempty k] at hp
      cases hp
    · intro c hc _
      refine ⟨hcur c hc, ?_⟩
      intro k
      rw [hempty k]
      simp
  have hw0 : waiting_recorded init (fun _ => none) := by
    refine ⟨?_, ?_⟩
    · intro k p hp
      rw [hempty k] at hp
      cases hp
    · intro p hp
      exact absurd hp (hnowait p)
  obtain ⟨hl, a1, a2⟩ := reach_waiting_recorded sched hshape init hl0 hw0 s g hreach
  obtain ⟨_, j4a, _, j4b, _⟩ := hl
  refine ⟨?_, ?_⟩
  · intro p
    exact ⟨fun ⟨k, hk⟩ => (a1 k p hk).1, a2 p⟩
  · intro p k hp
    exact ⟨(a1 k p hp).2, List.count_eq_one_of_mem (j4a k) hp,
      fun k' hp' => j4b k' k p hp' hp⟩

/-- Witness for C16: under the FIFO configuration process 0 of
`contended [1]` is denied resource 0, which process 1 owns; in the state
reached it is WAITING in the waitqueue of resource 0, recorded as denied
resource 0, and no other process is WAITING or in a waitqueue.  Then
`fifo_schedule` returns process 1, which releases resource 0; in the
state reached process 0 is READY, the waitqueue is empty, and the
invariant holds again. -/
theorem waitqueue_soundness_witness :
    fifo_scheduler ∈ configurations 64 ∧
    (∀ k, ((contended [1]).resources k).waitqueue = []) ∧
    (∀ p, ((contended [1]).procs p).status ≠ PROCESS_WAIT) ∧
    (contended [1]).readyqueue.Nodup ∧
    (∀ c, (contended [1]).current = some c → c ∉ (contended [1]).readyqueue) ∧
    Reach fifo_scheduler (contended [1]) (denied [1]) (deny (fun _ => none) 0 0) ∧
    waitqueue_sound (denied [1]) (deny (fun _ => none) 0 0) ∧
    ((denied [1]).resources 0).waitqueue = [0] ∧
    ((denied [1]).procs 0).status = PROCESS_WAIT ∧
    Reach fifo_scheduler (contended [1])
      (result_or (fcfs_release (dispatch (fifo_schedule (denied [1]))) 0) (denied [1]))
      (deny (fun _ => none) 0 0) ∧
    waitqueue_sound
      (result_or (fcfs_release (dispatch (fifo_schedule (denied [1]))) 0) (denied [1]))
      (deny (fun _ => none) 0 0) ∧
    ((result_or (fcfs_release (dispatch (fifo_schedule (denied [1]))) 0)
      (denied [1])).resources 0).waitqueue = [] ∧
    ((result_or (fcfs_release (dispatch (fifo_schedule (denied [1]))) 0)
      (denied [1])).procs 0).status = PROCESS_READY :=
  have hcfg : fifo_scheduler ∈ configurations 64 := by simp [configurations]
  have hempty : ∀ k, ((contended [1]).resources k).waitqueue = [] := by
    intro k
    by_cases hk : k = 0 <;> simp [contended, hk]
  have hnowait : ∀ p, ((contended [1]).procs p).status ≠ PROCESS_WAIT := by
    intro p
    by_cases hp : p = 0 <;> simp [contended, mkproc, hp]
  have hnodup : (contended [1]).readyqueue.Nodup := by decide
  have hcur : ∀ c, (contended [1]).current = some c → c ∉ (contended [1]).readyqueue := by
    intro c hc
    have hc0 : c = 0 := by simpa [contended] using hc.symm
    subst hc0
    decide
  have hreach : Reach fifo_scheduler (contended [1]) (denied [1])
      (deny (fun _ => none) 0 0) :=
    Reach.acquire (contended [1]) (denied [1]) (fun _ => none) 0 0 false .start rfl rfl rfl
  have hreach2 : Reach fifo_scheduler (contended [1])
      (result_or (fcfs_release (dispatch (fifo_schedule (denied [1]))) 0) (denied [1]))
      (deny (fun _ => none) 0 0) :=
    Reach.release (dispatch (fifo_schedule (denied [1]))) _ _ 1 0
      (Reach.schedule (denied [1]) _ hreach) rfl rfl rfl
  ⟨hcfg, hempty, hnowait, hnodup, hcur, hreach,
    waitqueue_soundness 64 fifo_scheduler hcfg (contended [1]) hempty hnowait hnodup hcur
      _ _ hreach,
    by decide, by decide, hreach2,
    waitqueue_soundness 64 fifo_scheduler hcfg (contended [1]) hempty hnowait hnodup hcur
      _ _ hreach2,
    by decide, by decide⟩

/-! ## C6: the ceiling in runs without nested holding -/

end Pa2
